import Mathlib

/-!
# `Vector<T>` over `RawMemory<T>`: an embedding of `advanced-vector/vector.h`

The storage of a `RawMemory<T>` is a list of slots.  A slot is `none` while it is raw,
uninitialised memory and `some x` while it holds a live object of value `x`.  The number
of slots is the capacity.  A `Vector<T>` is a storage together with `size_`.

The element type `T` is a parameter (`ElemType`): its constructors and assignment
operators may throw and may read and change a piece of global state `σ` (as the static
counters of a test type do).  Every operation of the vector returns an `Outcome`:
it returns normally, or an exception leaves it, or the call has undefined behaviour
(a raw slot is read, a slot outside the block is touched, a position outside the
permitted range is used).

Conventions of the embedding:
* a position (`T*` into the storage) is its offset from `begin()`.  `Emplace` and `Erase`
  keep that offset in an `int`: the embedding converts it as the source does (`toInt32`,
  the value modulo `2 ^ 32` taken in `[-2 ^ 31, 2 ^ 31)`), works at the converted offset and
  returns it;
* `size_t` has 64 bits: the products `n * sizeof(T)`, `size_ * 2` and `Capacity() * 2` are
  taken modulo `2 ^ 64`;
* `operator new` returns a block or throws `std::bad_alloc` (`Allocation`);
* destructors neither throw nor touch `σ`;
* an object that is still live in a storage at the moment the storage is deallocated
  has never been destroyed: such objects are reported as `leaked`.
-/

namespace AdvancedVector

/-- The element type `T` and the allocation function, as seen by the container.  `none`
(or `false`) in a result means that the operation threw.  A move operation also returns
the state in which it leaves its source. -/
structure ElemType (σ α : Type) where
  /-- The value of `std::is_nothrow_move_constructible_v<T>`. -/
  nothrowMove : Bool
  /-- The value of `std::is_copy_constructible_v<T>`. -/
  copyConstructible : Bool
  /-- Value-initialisation `T()`. -/
  valueCtor : σ → Option α × σ
  /-- Copy construction `T(const T&)`. -/
  copyCtor : α → σ → Option α × σ
  /-- Move construction `T(T&&)`: the new object, the source afterwards, the state. -/
  moveCtor : α → σ → Option α × α × σ
  /-- Copy assignment `dst = src`: completed?, `dst` afterwards, the state. -/
  copyAssign : α → α → σ → Bool × α × σ
  /-- Move assignment `dst = std::move(src)`: completed?, `dst` and `src` afterwards. -/
  moveAssign : α → α → σ → Bool × α × α × σ
  /-- A move constructor that is declared non-throwing does not throw. -/
  nothrow_sound : nothrowMove = true → ∀ x w, (moveCtor x w).1.isSome = true
  /-- The value of `sizeof(T)`. -/
  sizeof : Nat
  /-- An object occupies at least one byte. -/
  sizeof_pos : 0 < sizeof
  /-- The call `operator new(bytes)` in a given global state: `true` when it returns a
  block of `bytes` bytes, `false` when it throws `std::bad_alloc`. -/
  operator_new : Nat → σ → Bool
  /-- No block has `2 ^ 63` bytes or more (the largest object has `PTRDIFF_MAX` bytes). -/
  operator_new_max : ∀ bytes w, operator_new bytes w = true → bytes < 2 ^ 63

/-- Copies and moves carry the value: the object built (or assigned to) equals the
source as it was before the operation. -/
def ElemType.Regular {σ α : Type} (T : ElemType σ α) : Prop :=
  (∀ x w y w1, T.copyCtor x w = (some y, w1) → y = x) ∧
  (∀ x w y x1 w1, T.moveCtor x w = (some y, x1, w1) → y = x) ∧
  (∀ d s w d1 w1, T.copyAssign d s w = (true, d1, w1) → d1 = s) ∧
  (∀ d s w d1 s1 w1, T.moveAssign d s w = (true, d1, s1, w1) → d1 = s)

/-- No operation of `T` throws, in any state. -/
def ElemType.NoThrow {σ α : Type} (T : ElemType σ α) : Prop :=
  (∀ w, (T.valueCtor w).1.isSome = true) ∧
  (∀ x w, (T.copyCtor x w).1.isSome = true) ∧
  (∀ x w, (T.moveCtor x w).1.isSome = true) ∧
  (∀ d s w, (T.copyAssign d s w).1 = true) ∧
  (∀ d s w, (T.moveAssign d s w).1 = true)

/-- Models the conversion of a pointer difference to `int`, as in
`int diff = pos - begin()`: the value modulo `2 ^ 32`, taken in `[-2 ^ 31, 2 ^ 31)`. -/
def toInt32 (p : Nat) : Int :=
  if p % 2 ^ 32 < 2 ^ 31 then ((p % 2 ^ 32 : Nat) : Int)
  else -((2 ^ 32 - p % 2 ^ 32 : Nat) : Int)

/-- The slots of a storage. -/
abbrev Slots (α : Type) := List (Option α)

/-- The object in slot `i`, when the slot exists and holds a live object. -/
def peek {α : Type} (mem : Slots α) (i : Nat) : Option α :=
  match mem[i]? with
  | some (some x) => some x
  | _ => none

/-- The live objects of a storage, in slot order. -/
def live {α : Type} (mem : Slots α) : List α :=
  mem.filterMap id

/-- Models `RawMemory<T>`: `buffer_`, a block of `capacity_` slots. -/
structure RawMemory (α : Type) where
  buffer_ : Slots α
deriving DecidableEq

/-- Result of `RawMemory(size_t capacity)`, which calls `Allocate(capacity)`.
* `block m`: the storage `m`, whose block has `capacity` slots.
* `short`: `operator new` returned, but the byte count `capacity * sizeof(T)` had wrapped
  in `size_t`, so that the block is smaller than `capacity_` says.  The embedding has no
  state for such a storage: a call that obtains one and goes on to use it is reported as
  `undefined`, although the source runs on until it touches a slot beyond the block.
* `bad_alloc`: `operator new` threw `std::bad_alloc`. -/
inductive Allocation (α : Type) where
  | block (m : RawMemory α)
  | short
  | bad_alloc
deriving DecidableEq

/-- The allocation yielded a storage of the capacity asked for. -/
def Allocation.isBlock {α : Type} : Allocation α → Bool
  | .block _ => true
  | _ => false

/-- Models `RawMemory::Allocate` as used by `RawMemory(size_t capacity)`:
`n != 0 ? operator new(n * sizeof(T)) : nullptr`, the product taken in `size_t`. -/
def RawMemory.Allocate {σ α : Type} (T : ElemType σ α) (n : Nat) (w : σ) : Allocation α :=
  if n = 0 then .block ⟨[]⟩
  else if T.operator_new (n * T.sizeof % 2 ^ 64) w = true then
    if n * T.sizeof < 2 ^ 64 then .block ⟨List.replicate n none⟩ else .short
  else .bad_alloc

/-- Models `RawMemory::Capacity`. -/
def RawMemory.Capacity {α : Type} (m : RawMemory α) : Nat :=
  m.buffer_.length

/-- Models `Vector<T>`: `data_` and `size_`. -/
structure Vector (α : Type) where
  data_ : RawMemory α
  size_ : Nat
deriving DecidableEq

/-- Models `Vector::Size`. -/
def Vector.Size {α : Type} (v : Vector α) : Nat :=
  v.size_

/-- Models `Vector::Capacity`. -/
def Vector.Capacity {α : Type} (v : Vector α) : Nat :=
  v.data_.Capacity

/-- Models `Vector()`: no storage, no elements. -/
def Vector.empty {α : Type} : Vector α :=
  ⟨⟨[]⟩, 0⟩

/-- The class invariant: `size_ ≤ capacity`, the slots below `size_` hold live
objects and the slots from `size_` on are raw. -/
def Vector.WF {α : Type} (v : Vector α) : Prop :=
  v.size_ ≤ v.data_.Capacity ∧
  (∀ i, i < v.size_ → (peek v.data_.buffer_ i).isSome = true) ∧
  (∀ i, v.size_ ≤ i → peek v.data_.buffer_ i = none)

/-- The vector holds exactly the sequence `xs`: it satisfies the invariant and the
objects in slots `0 .. size_ - 1` are the members of `xs`, in order. -/
def Vector.Holds {α : Type} (v : Vector α) (xs : List α) : Prop :=
  v.size_ = xs.length ∧
  v.data_.buffer_ = xs.map some ++ List.replicate (v.data_.Capacity - xs.length) none ∧
  xs.length ≤ v.data_.Capacity

/-- Result of a library algorithm working on storage: the storage it leaves behind and
the global state, on normal return (`ok`) and when an exception leaves it (`throw`). -/
inductive Step (σ β : Type) where
  | ok (mem : β) (w : σ)
  | throw (mem : β) (w : σ)
  | ub
deriving DecidableEq

/-- Result of a member function of `Vector`.  `leaked` lists the objects that were
live in a storage when it was deallocated. -/
inductive Outcome (σ α ρ : Type) where
  | done (v : Vector α) (ret : ρ) (leaked : List α) (w : σ)
  | raised (v : Vector α) (leaked : List α) (w : σ)
  | undefined
deriving DecidableEq

/-- Models `std::destroy_n(mem + first, n)`. -/
def destroy_n {α : Type} : Slots α → Nat → Nat → Slots α
  | mem, _, 0 => mem
  | mem, first, n + 1 => destroy_n (mem.set first none) (first + 1) n

/-- Models `std::uninitialized_copy_n(src + first, n, dst + dfirst)`: copy-constructs one
object after the other; when a construction throws, the objects built by this call are
destroyed and the exception goes on. -/
def uninitialized_copy_n {σ α : Type} (T : ElemType σ α) (src : Slots α) :
    Nat → Nat → Slots α → Nat → σ → Step σ (Slots α)
  | _, 0, dst, _, w => .ok dst w
  | first, n + 1, dst, dfirst, w =>
    match peek src first with
    | none => .ub
    | some x =>
      if dst.length ≤ dfirst then .ub
      else
        match T.copyCtor x w with
        | (none, w1) => .throw dst w1
        | (some y, w1) =>
          match uninitialized_copy_n T src (first + 1) n (dst.set dfirst (some y))
              (dfirst + 1) w1 with
          | .throw dst1 w2 => .throw (dst1.set dfirst none) w2
          | r => r

/-- Models `std::uninitialized_move_n(src + first, n, dst + dfirst)`: as the copy, by move
construction; the result holds the source storage too, whose objects are left in
their moved-from state. -/
def uninitialized_move_n {σ α : Type} (T : ElemType σ α) :
    Slots α → Nat → Nat → Slots α → Nat → σ → Step σ (Slots α × Slots α)
  | src, _, 0, dst, _, w => .ok (src, dst) w
  | src, first, n + 1, dst, dfirst, w =>
    match peek src first with
    | none => .ub
    | some x =>
      if dst.length ≤ dfirst then .ub
      else
        match T.moveCtor x w with
        | (none, x1, w1) => .throw (src.set first (some x1), dst) w1
        | (some y, x1, w1) =>
          match uninitialized_move_n T (src.set first (some x1)) (first + 1) n
              (dst.set dfirst (some y)) (dfirst + 1) w1 with
          | .throw (src1, dst1) w2 => .throw (src1, dst1.set dfirst none) w2
          | r => r

/-- The loop of `std::move_backward`: `n` times `*(--d_last) = std::move(*(--last))`. -/
def move_backward_n {σ α : Type} (T : ElemType σ α) :
    Slots α → Nat → Nat → Nat → σ → Step σ (Slots α)
  | mem, 0, _, _, w => .ok mem w
  | mem, n + 1, last, d_last, w =>
    if last = 0 ∨ d_last = 0 then .ub
    else
      match peek mem (last - 1), peek mem (d_last - 1) with
      | some s, some d =>
        match T.moveAssign d s w with
        | (true, d1, s1, w1) =>
          move_backward_n T ((mem.set (last - 1) (some s1)).set (d_last - 1) (some d1)) n
            (last - 1) (d_last - 1) w1
        | (false, d1, s1, w1) =>
          .throw ((mem.set (last - 1) (some s1)).set (d_last - 1) (some d1)) w1
      | _, _ => .ub

/-- Models `std::move_backward(mem + first, mem + last, mem + d_last)`. -/
def move_backward {σ α : Type} (T : ElemType σ α) (mem : Slots α)
    (first last d_last : Nat) (w : σ) : Step σ (Slots α) :=
  if last < first then .ub else move_backward_n T mem (last - first) last d_last w

/-- The loop of `std::move`: `n` times `*d_first++ = std::move(*first++)`. -/
def move_n {σ α : Type} (T : ElemType σ α) :
    Slots α → Nat → Nat → Nat → σ → Step σ (Slots α)
  | mem, 0, _, _, w => .ok mem w
  | mem, n + 1, first, d_first, w =>
    match peek mem first, peek mem d_first with
    | some s, some d =>
      match T.moveAssign d s w with
      | (true, d1, s1, w1) =>
        move_n T ((mem.set first (some s1)).set d_first (some d1)) n
          (first + 1) (d_first + 1) w1
      | (false, d1, s1, w1) =>
        .throw ((mem.set first (some s1)).set d_first (some d1)) w1
    | _, _ => .ub

/-- Models `std::move(mem + first, mem + last, mem + d_first)`. -/
def move {σ α : Type} (T : ElemType σ α) (mem : Slots α)
    (first last d_first : Nat) (w : σ) : Step σ (Slots α) :=
  if last < first then .ub else move_n T mem (last - first) first d_first w

/-- A reference to an object of type `T`: to an object outside the vector, or to the
element `v[k]` of the vector the call is made on. -/
inductive Ref (α : Type) where
  | obj (x : α)
  | own (k : Nat)

/-- The arguments `args...` from which the new element is constructed. -/
inductive Arg (σ α : Type) where
  /-- A `const T&`: the element is copy-constructed. -/
  | copyOf (r : Ref α)
  /-- A `T&&` to an object outside the vector: the element is move-constructed. -/
  | moveOf (x : α)
  /-- Any other arguments, with the constructor of `T` they select. -/
  | args (ctor : σ → Option α × σ)

/-- The expression `T(std::forward<Args>(args)...)`, evaluated while the storage of the
vector is `mem`.  The outer `none` is undefined behaviour (a dangling reference). -/
def construct {σ α : Type} (T : ElemType σ α) (mem : Slots α) :
    Arg σ α → σ → Option (Option α × σ)
  | .copyOf (.obj x), w => some (T.copyCtor x w)
  | .copyOf (.own k), w =>
    match peek mem k with
    | none => none
    | some x => some (T.copyCtor x w)
  | .moveOf x, w => some ((T.moveCtor x w).1, (T.moveCtor x w).2.2)
  | .args ctor, w => some (ctor w)

/-- Models `Vector::IsNothrowMoveOrCopyConstructible`: transfers the `size_` elements into
`data`, by move when `T` is nothrow-move-constructible or not copy-constructible, by
copy otherwise.  The result is the old and the new storage. -/
def IsNothrowMoveOrCopyConstructible {σ α : Type} (T : ElemType σ α) (v : Vector α)
    (data : RawMemory α) (w : σ) : Step σ (Slots α × Slots α) :=
  if T.nothrowMove || !T.copyConstructible then
    uninitialized_move_n T v.data_.buffer_ 0 v.size_ data.buffer_ 0 w
  else
    match uninitialized_copy_n T v.data_.buffer_ 0 v.size_ data.buffer_ 0 w with
    | .ok dst w1 => .ok (v.data_.buffer_, dst) w1
    | .throw dst w1 => .throw (v.data_.buffer_, dst) w1
    | .ub => .ub

/-- Models `Vector::Reserve`. -/
def Reserve {σ α : Type} (T : ElemType σ α) (v : Vector α) (new_capacity : Nat)
    (w : σ) : Outcome σ α Unit :=
  if new_capacity ≤ v.data_.Capacity then .done v () [] w
  else
    -- RawMemory<T> data(new_capacity)
    match RawMemory.Allocate T new_capacity w with
    | .bad_alloc => .raised v [] w
    | .short => .undefined
    | .block data =>
      match IsNothrowMoveOrCopyConstructible T v data w with
      | .ub => .undefined
      | .throw (old, new) w1 => .raised ⟨⟨old⟩, v.size_⟩ (live new) w1
      | .ok (old, new) w1 =>
        -- std::destroy_n(data_.GetAddress(), size_); data_.Swap(data); ~data
        .done ⟨⟨new⟩, v.size_⟩ () (live (destroy_n old 0 v.size_)) w1

/-- Models `Vector::RegularInsert`: the insertion into a newly allocated storage, at the
offset `diff`.  `Emplace` calls it with `diff ≤ size_`.  A negative `diff`, or one beyond
the new block, makes the placement of the new element touch memory outside the block. -/
def RegularInsert {σ α : Type} (T : ElemType σ α) (v : Vector α) (diff : Int)
    (a : Arg σ α) (w : σ) : Outcome σ α Unit :=
  -- RawMemory<T> new_address(size_ == 0 ? 1 : size_ * 2)
  match RawMemory.Allocate T (if v.size_ = 0 then 1 else v.size_ * 2 % 2 ^ 64) w with
  | .bad_alloc => .raised v [] w
  | .short =>
    match construct T v.data_.buffer_ a w with
    | some (none, w1) => .raised v [] w1
    | _ => .undefined
  | .block new_address =>
    -- new (new_address.GetAddress() + diff) T(std::forward<Args>(args)...)
    match construct T v.data_.buffer_ a w with
    | none => .undefined
    | some (none, w1) => .raised v [] w1
    | some (some x, w1) =>
      if diff < 0 ∨ new_address.Capacity ≤ diff.toNat then .undefined
      else
        if T.nothrowMove || !T.copyConstructible then
          match uninitialized_move_n T v.data_.buffer_ 0 diff.toNat
              (new_address.buffer_.set diff.toNat (some x)) 0 w1 with
          | .ub => .undefined
          | .throw (old, new) w2 => .raised ⟨⟨old⟩, v.size_⟩ (live new) w2
          | .ok (old, new) w2 =>
            match uninitialized_move_n T old diff.toNat (v.size_ - diff.toNat) new
                (diff.toNat + 1) w2 with
            | .ub => .undefined
            | .throw (old1, new1) w3 => .raised ⟨⟨old1⟩, v.size_⟩ (live new1) w3
            | .ok (old1, new1) w3 =>
              -- std::destroy_n(data_.GetAddress(), size_); data_.Swap(new_address)
              .done ⟨⟨new1⟩, v.size_⟩ () (live (destroy_n old1 0 v.size_)) w3
        else
          match uninitialized_copy_n T v.data_.buffer_ 0 diff.toNat
              (new_address.buffer_.set diff.toNat (some x)) 0 w1 with
          | .ub => .undefined
          | .throw new w2 => .raised v (live new) w2
          | .ok new w2 =>
            match uninitialized_copy_n T v.data_.buffer_ diff.toNat (v.size_ - diff.toNat)
                new (diff.toNat + 1) w2 with
            | .ub => .undefined
            | .throw new1 w3 => .raised v (live new1) w3
            | .ok new1 w3 =>
              .done ⟨⟨new1⟩, v.size_⟩ () (live (destroy_n v.data_.buffer_ 0 v.size_)) w3

/-- Models `Vector::ReallocationInsert`: the insertion into the spare capacity of the
present storage.  `pos` is the position passed to `Emplace`, `diff` its offset as
converted to `int`. -/
def ReallocationInsert {σ α : Type} (T : ElemType σ α) (v : Vector α) (diff : Int)
    (pos : Nat) (a : Arg σ α) (w : σ) : Outcome σ α Unit :=
  if pos = v.size_ then
    -- new (end()) T(std::forward<Args>(args)...)
    if v.data_.buffer_.length ≤ v.size_ then .undefined
    else
      match construct T v.data_.buffer_ a w with
      | none => .undefined
      | some (none, w1) => .raised v [] w1
      | some (some x, w1) => .done ⟨⟨v.data_.buffer_.set v.size_ (some x)⟩, v.size_⟩ () [] w1
  else
    -- T tmp(std::forward<Args>(args)...)
    match construct T v.data_.buffer_ a w with
    | none => .undefined
    | some (none, w1) => .raised v [] w1
    | some (some tmp, w1) =>
      -- new (end()) T(std::forward<T>(data_[size_ - 1]))
      if v.size_ = 0 ∨ v.data_.buffer_.length ≤ v.size_ then .undefined
      else
        match peek v.data_.buffer_ (v.size_ - 1) with
        | none => .undefined
        | some back =>
          match T.moveCtor back w1 with
          | (none, back1, w2) =>
            .raised ⟨⟨v.data_.buffer_.set (v.size_ - 1) (some back1)⟩, v.size_⟩ [] w2
          | (some y, back1, w2) =>
            -- std::move_backward(begin() + diff, end() - 1, end())
            if diff < 0 then .undefined
            else
              match move_backward T
                  ((v.data_.buffer_.set (v.size_ - 1) (some back1)).set v.size_ (some y))
                  diff.toNat (v.size_ - 1) v.size_ w2 with
              | .ub => .undefined
              | .throw mem2 w3 => .raised ⟨⟨mem2⟩, v.size_⟩ [] w3
              | .ok mem2 w3 =>
                -- *(begin() + diff) = std::forward<T>(tmp)
                match peek mem2 diff.toNat with
                | none => .undefined
                | some d =>
                  match T.moveAssign d tmp w3 with
                  | (false, d1, _, w4) =>
                    .raised ⟨⟨mem2.set diff.toNat (some d1)⟩, v.size_⟩ [] w4
                  | (true, d1, _, w4) =>
                    .done ⟨⟨mem2.set diff.toNat (some d1)⟩, v.size_⟩ () [] w4

/-- Models `Vector::Emplace`.  `pos` has to lie in `[begin(), end()]`.  The value returned is
the position `begin() + diff`, as its offset from `begin()`. -/
def Emplace {σ α : Type} (T : ElemType σ α) (v : Vector α) (pos : Nat)
    (a : Arg σ α) (w : σ) : Outcome σ α Int :=
  if v.size_ < pos then .undefined
  else
    -- int diff = pos - begin()
    match (if v.data_.Capacity ≤ v.size_ then RegularInsert T v (toInt32 pos) a w
           else ReallocationInsert T v (toInt32 pos) pos a w) with
    | .undefined => .undefined
    | .raised v1 lk w1 => .raised v1 lk w1
    | .done v1 _ lk w1 =>
      -- ++size_; return begin() + diff
      .done ⟨v1.data_, v1.size_ + 1⟩ (toInt32 pos) lk w1

/-- Models `Vector::EmplaceBack`: `Emplace(end(), args...)`.  The value returned is the
position of the object the reference returned by the source refers to. -/
def EmplaceBack {σ α : Type} (T : ElemType σ α) (v : Vector α) (a : Arg σ α)
    (w : σ) : Outcome σ α Int :=
  Emplace T v v.size_ a w

/-- Models `Vector::PushBack(const T&)`. -/
def PushBack {σ α : Type} (T : ElemType σ α) (v : Vector α) (value : Ref α)
    (w : σ) : Outcome σ α Int :=
  EmplaceBack T v (.copyOf value) w

/-- Models `Vector::PushBack(T&&)`. -/
def PushBackMove {σ α : Type} (T : ElemType σ α) (v : Vector α) (value : α)
    (w : σ) : Outcome σ α Int :=
  EmplaceBack T v (.moveOf value) w

/-- Models `Vector::Insert(const_iterator, const T&)`. -/
def Insert {σ α : Type} (T : ElemType σ α) (v : Vector α) (pos : Nat) (value : Ref α)
    (w : σ) : Outcome σ α Int :=
  Emplace T v pos (.copyOf value) w

/-- Models `Vector::Insert(const_iterator, T&&)`. -/
def InsertMove {σ α : Type} (T : ElemType σ α) (v : Vector α) (pos : Nat) (value : α)
    (w : σ) : Outcome σ α Int :=
  Emplace T v pos (.moveOf value) w

/-- Models `Vector::Erase`.  `pos` has to lie in `[begin(), end())`.  A negative `diff`
makes `std::move` run over memory before the block.  The value returned is the position
`begin() + diff`, as its offset from `begin()`. -/
def Erase {σ α : Type} (T : ElemType σ α) (v : Vector α) (pos : Nat)
    (w : σ) : Outcome σ α Int :=
  if v.size_ ≤ pos then .undefined
  else
    -- int diff = pos - begin(); std::move(begin() + diff + 1, end(), begin() + diff)
    if toInt32 pos < 0 then .undefined
    else
      match move T v.data_.buffer_ ((toInt32 pos).toNat + 1) v.size_ (toInt32 pos).toNat w with
      | .ub => .undefined
      | .throw mem w1 => .raised ⟨⟨mem⟩, v.size_⟩ [] w1
      | .ok mem w1 =>
        -- std::destroy_at(end() - 1); --size_; return begin() + diff
        .done ⟨⟨mem.set (v.size_ - 1) none⟩, v.size_ - 1⟩ (toInt32 pos) [] w1

/-- Two storages have the same slots and the same slots hold live objects. -/
def LiveSame {α : Type} (mem mem1 : Slots α) : Prop :=
  mem1.length = mem.length ∧ ∀ j, (peek mem1 j).isSome = (peek mem j).isSome


/-- Models `std::uninitialized_value_construct_n(dst + dfirst, n)`: value-constructs one
object after the other; when a construction throws, the objects built by this call are
destroyed and the exception goes on. -/
def uninitialized_value_construct_n {σ α : Type} (T : ElemType σ α) :
    Slots α → Nat → Nat → σ → Step σ (Slots α)
  | dst, _, 0, w => .ok dst w
  | dst, dfirst, n + 1, w =>
    if dst.length ≤ dfirst then .ub
    else
      match T.valueCtor w with
      | (none, w1) => .throw dst w1
      | (some y, w1) =>
        match uninitialized_value_construct_n T (dst.set dfirst (some y)) (dfirst + 1) n w1 with
        | .throw dst1 w2 => .throw (dst1.set dfirst none) w2
        | r => r

/-- The loop of `std::copy` from one storage into another: `n` times
`*d_first++ = *first++`, a copy assignment. -/
def copy_n {σ α : Type} (T : ElemType σ α) (src : Slots α) :
    Slots α → Nat → Nat → Nat → σ → Step σ (Slots α)
  | dst, 0, _, _, w => .ok dst w
  | dst, n + 1, first, d_first, w =>
    match peek src first, peek dst d_first with
    | some s, some d =>
      match T.copyAssign d s w with
      | (true, d1, w1) => copy_n T src (dst.set d_first (some d1)) n (first + 1) (d_first + 1) w1
      | (false, d1, w1) => .throw (dst.set d_first (some d1)) w1
    | _, _ => .ub

/-- Models `std::copy(src + first, src + last, dst + d_first)`. -/
def copy {σ α : Type} (T : ElemType σ α) (src : Slots α) (first last : Nat)
    (dst : Slots α) (d_first : Nat) (w : σ) : Step σ (Slots α) :=
  if last < first then .ub else copy_n T src dst (last - first) first d_first w

/-- Result of a constructor of `Vector`: the object built, or an exception (the object
never exists; `leaked` as in `Outcome`), or undefined behaviour. -/
inductive Built (σ α : Type) where
  | built (v : Vector α) (w : σ)
  | failed (leaked : List α) (w : σ)
  | undefined
deriving DecidableEq

/-- Models `Vector(size_t size)`: storage for exactly `size` elements, value-constructed. -/
def Vector.sized {σ α : Type} (T : ElemType σ α) (size : Nat) (w : σ) : Built σ α :=
  -- data_(size)
  match RawMemory.Allocate T size w with
  | .bad_alloc => .failed [] w
  | .short => .undefined
  | .block data_ =>
    match uninitialized_value_construct_n T data_.buffer_ 0 size w with
    | .ub => .undefined
    | .throw mem w1 => .failed (live mem) w1
    | .ok mem w1 => .built ⟨⟨mem⟩, size⟩ w1

/-- Models `Vector(const Vector& other)`: storage for exactly `other.size_` elements,
copy-constructed from those of `other`. -/
def Vector.copied {σ α : Type} (T : ElemType σ α) (other : Vector α) (w : σ) :
    Built σ α :=
  -- data_(other.size_)
  match RawMemory.Allocate T other.size_ w with
  | .bad_alloc => .failed [] w
  | .short => .undefined
  | .block data_ =>
    match uninitialized_copy_n T other.data_.buffer_ 0 other.size_ data_.buffer_ 0 w with
    | .ub => .undefined
    | .throw mem w1 => .failed (live mem) w1
    | .ok mem w1 => .built ⟨⟨mem⟩, other.size_⟩ w1

/-- Models `RawMemory::Swap`: the two storages exchange buffer and capacity. -/
def RawMemory.Swap {α : Type} (m other : RawMemory α) : RawMemory α × RawMemory α :=
  (⟨other.buffer_⟩, ⟨m.buffer_⟩)

/-- Models `Vector::Swap`: `data_.Swap(other.data_), std::swap(size_, other.size_)`.
The result is the pair of `*this` and `other` afterwards. -/
def Swap {α : Type} (v other : Vector α) : Vector α × Vector α :=
  (⟨(v.data_.Swap other.data_).1, other.size_⟩, ⟨(v.data_.Swap other.data_).2, v.size_⟩)

/-- The right-hand side of an assignment: the vector assigned to itself, or another
vector. -/
inductive VecRef (α : Type) where
  | self
  | other (rhs : Vector α)

/-- Models `Vector::operator=(Vector&&)`: `Swap(rhs)`.  The result is the pair of
`*this` and `rhs` afterwards; in a self-assignment both are the one vector, which the
swap with itself leaves as it is. -/
def MoveAssign {α : Type} (v : Vector α) : VecRef α → Vector α × Vector α
  | .self => (v, v)
  | .other rhs => Swap v rhs

/-- Models `Vector::operator=(const Vector&)`.  The right-hand side is `const`; the
result is `*this`. -/
def CopyAssign {σ α : Type} (T : ElemType σ α) (v : Vector α) :
    VecRef α → σ → Outcome σ α Unit
  | .self, w => .done v () [] w
  | .other rhs, w =>
    if rhs.size_ ≤ v.data_.Capacity then
      match copy T rhs.data_.buffer_ 0 (min v.size_ rhs.size_) v.data_.buffer_ 0 w with
      | .ub => .undefined
      | .throw mem w1 => .raised ⟨⟨mem⟩, v.size_⟩ [] w1
      | .ok mem w1 =>
        if v.size_ ≤ rhs.size_ then
          match uninitialized_copy_n T rhs.data_.buffer_ v.size_ (rhs.size_ - v.size_) mem
              v.size_ w1 with
          | .ub => .undefined
          | .throw mem1 w2 => .raised ⟨⟨mem1⟩, v.size_⟩ [] w2
          | .ok mem1 w2 => .done ⟨⟨mem1⟩, rhs.size_⟩ () [] w2
        else
          .done ⟨⟨destroy_n mem rhs.size_ (v.size_ - rhs.size_)⟩, rhs.size_⟩ () [] w1
    else
      -- Vector rhs_copy(rhs); Swap(rhs_copy); ~rhs_copy
      match Vector.copied T rhs w with
      | .undefined => .undefined
      | .failed lk w1 => .raised v lk w1
      | .built rhs_copy w1 =>
        .done (Swap v rhs_copy).1 ()
          (live (destroy_n (Swap v rhs_copy).2.data_.buffer_ 0 (Swap v rhs_copy).2.size_)) w1

/-- Models `Vector::Resize`. -/
def Resize {σ α : Type} (T : ElemType σ α) (v : Vector α) (new_size : Nat)
    (w : σ) : Outcome σ α Unit :=
  if new_size < v.size_ then
    .done ⟨⟨destroy_n v.data_.buffer_ new_size (v.size_ - new_size)⟩, new_size⟩ () [] w
  else
    match (if v.data_.Capacity < new_size then
             Reserve T v (max (v.data_.Capacity * 2 % 2 ^ 64) new_size) w
           else .done v () [] w) with
    | .undefined => .undefined
    | .raised v1 lk w1 => .raised v1 lk w1
    | .done v1 _ lk w1 =>
      match uninitialized_value_construct_n T v1.data_.buffer_ v1.size_
          (new_size - v1.size_) w1 with
      | .ub => .undefined
      | .throw mem w2 => .raised ⟨⟨mem⟩, v1.size_⟩ lk w2
      | .ok mem w2 => .done ⟨⟨mem⟩, new_size⟩ () lk w2

/-- Models `Vector::PopBack`; `none` is the undefined behaviour on an empty vector. -/
def PopBack {α : Type} (v : Vector α) : Option (Vector α) :=
  if v.size_ = 0 then none
  else some ⟨⟨v.data_.buffer_.set (v.size_ - 1) none⟩, v.size_ - 1⟩

/-- The vector a call leaves behind, when it returns and when an exception leaves it. -/
def Outcome.after {σ α ρ : Type} : Outcome σ α ρ → Option (Vector α)
  | .done v _ _ _ => some v
  | .raised v _ _ => some v
  | .undefined => none

/-- The vectors that can arise: those built by the default, the sized and the copy
constructor, and those left by any public operation called on such a vector (with such
vectors as further operands), whether the call returns or throws.  Calls outside their
preconditions have undefined behaviour and leave no state. -/
inductive Reachable {σ α : Type} (T : ElemType σ α) : Vector α → Prop where
  | default : Reachable T Vector.empty
  | sized (size : Nat) (w : σ) (v : Vector α) (w1 : σ) :
      Vector.sized T size w = .built v w1 → Reachable T v
  | copied (other : Vector α) (w : σ) (v : Vector α) (w1 : σ) :
      Reachable T other → Vector.copied T other w = .built v w1 → Reachable T v
  | reserve (v : Vector α) (n : Nat) (w : σ) (v1 : Vector α) :
      Reachable T v → (Reserve T v n w).after = some v1 → Reachable T v1
  | resize (v : Vector α) (n : Nat) (w : σ) (v1 : Vector α) :
      Reachable T v → (Resize T v n w).after = some v1 → Reachable T v1
  | pushBack (v : Vector α) (value : Ref α) (w : σ) (v1 : Vector α) :
      Reachable T v → (PushBack T v value w).after = some v1 → Reachable T v1
  | pushBackMove (v : Vector α) (value : α) (w : σ) (v1 : Vector α) :
      Reachable T v → (PushBackMove T v value w).after = some v1 → Reachable T v1
  | emplaceBack (v : Vector α) (a : Arg σ α) (w : σ) (v1 : Vector α) :
      Reachable T v → (EmplaceBack T v a w).after = some v1 → Reachable T v1
  | emplace (v : Vector α) (pos : Nat) (a : Arg σ α) (w : σ) (v1 : Vector α) :
      Reachable T v → (Emplace T v pos a w).after = some v1 → Reachable T v1
  | insert (v : Vector α) (pos : Nat) (value : Ref α) (w : σ) (v1 : Vector α) :
      Reachable T v → (Insert T v pos value w).after = some v1 → Reachable T v1
  | insertMove (v : Vector α) (pos : Nat) (value : α) (w : σ) (v1 : Vector α) :
      Reachable T v → (InsertMove T v pos value w).after = some v1 → Reachable T v1
  | erase (v : Vector α) (pos : Nat) (w : σ) (v1 : Vector α) :
      Reachable T v → (Erase T v pos w).after = some v1 → Reachable T v1
  | popBack (v v1 : Vector α) :
      Reachable T v → PopBack v = some v1 → Reachable T v1
  | copyAssignSelf (v : Vector α) (w : σ) (v1 : Vector α) :
      Reachable T v → (CopyAssign T v .self w).after = some v1 → Reachable T v1
  | copyAssign (v rhs : Vector α) (w : σ) (v1 : Vector α) :
      Reachable T v → Reachable T rhs →
      (CopyAssign T v (.other rhs) w).after = some v1 → Reachable T v1
  | moveAssignSelf (v : Vector α) : Reachable T v → Reachable T (MoveAssign v .self).1
  | moveAssign (v rhs : Vector α) :
      Reachable T v → Reachable T rhs → Reachable T (MoveAssign v (.other rhs)).1
  | moveAssigned (v rhs : Vector α) :
      Reachable T v → Reachable T rhs → Reachable T (MoveAssign v (.other rhs)).2
  | swap (v other : Vector α) :
      Reachable T v → Reachable T other → Reachable T (Swap v other).1
  | swapped (v other : Vector α) :
      Reachable T v → Reachable T other → Reachable T (Swap v other).2

/-- The vectors produced by a run of appends (`EmplaceBack`, to which both `PushBack`
forward), one per call; `none` when one of the calls does not return normally. -/
def appends {σ α : Type} (T : ElemType σ α) :
    Vector α → List (Arg σ α) → σ → Option (List (Vector α))
  | _, [], _ => some []
  | v, a :: rest, w =>
    match EmplaceBack T v a w with
    | .done v1 _ _ w1 =>
      match appends T v1 rest w1 with
      | some vs => some (v1 :: vs)
      | none => none
    | _ => none

/-- What the growth-monotonicity property says about two consecutive capacities. -/
def GrowthStep {α : Type} (p q : Vector α) : Prop :=
  p.Capacity ≤ q.Capacity ∧ (q.Capacity ≠ p.Capacity → q.Capacity = max (2 * p.Capacity) 1)

/-! ## Element types of the examples -/

/-- The vector holding `xs` with `k` spare slots. -/
def mk {α : Type} (xs : List α) (k : Nat) : Vector α :=
  ⟨⟨xs.map some ++ List.replicate k none⟩, xs.length⟩

/-- The static members of `ThrowObj` (main.cpp). -/
structure Statics where
  default_construction_throw_countdown : Nat
  throw_on_copy : Bool
  throw_on_copy_val : Bool
deriving DecidableEq

/-- The constant `DEFAULT_COOKIE` of main.cpp. -/
def DEFAULT_COOKIE : Nat := 0xdeadbeef

/-- The type `ThrowObj` of main.cpp.  An object is its `cookie`.  The copy constructor and the
copy assignment throw while `throw_on_copy` is set and leave the cookie alone; the
defaulted move operations copy the cookie and do not throw.  In this and the following
element types `operator new` returns whenever fewer than `2 ^ 63` bytes are asked for. -/
def ThrowObj : ElemType Statics Nat where
  nothrowMove := true
  copyConstructible := true
  valueCtor := fun w =>
    if 0 < w.default_construction_throw_countdown then
      if w.default_construction_throw_countdown - 1 = 0 then
        (none, { w with default_construction_throw_countdown := 0 })
      else
        (some DEFAULT_COOKIE, { w with default_construction_throw_countdown :=
          w.default_construction_throw_countdown - 1 })
    else (some DEFAULT_COOKIE, w)
  copyCtor := fun _ w => if w.throw_on_copy then (none, w) else (some DEFAULT_COOKIE, w)
  moveCtor := fun x w => (some x, x, w)
  copyAssign := fun d _ w => if w.throw_on_copy then (false, d, w) else (true, d, w)
  moveAssign := fun _ s w => (true, s, s, w)
  nothrow_sound := fun _ _ _ => rfl
  sizeof := 4
  sizeof_pos := by decide
  operator_new := fun bytes _ => decide (bytes < 2 ^ 63)
  operator_new_max := fun _ _ h => of_decide_eq_true h

/-- The statics as `TestPushBackStrongException` sets them before each `PushBack`. -/
def copyThrows : Statics :=
  ⟨2 ^ 64 - 1, true, false⟩

/-- A well-behaved element type over `Nat`: nothing throws, a moved-from object is `0`. -/
def plainT : ElemType Unit Nat where
  nothrowMove := true
  copyConstructible := true
  valueCtor := fun w => (some 0, w)
  copyCtor := fun x w => (some x, w)
  moveCtor := fun x w => (some x, 0, w)
  copyAssign := fun _ s w => (true, s, w)
  moveAssign := fun _ s w => (true, s, 0, w)
  nothrow_sound := fun _ _ _ => rfl
  sizeof := 8
  sizeof_pos := by decide
  operator_new := fun bytes _ => decide (bytes < 2 ^ 63)
  operator_new_max := fun _ _ h => of_decide_eq_true h

/-- A copyable type over `Nat` whose move constructor is not declared non-throwing, so
that transfers copy; copying the value `7` throws. -/
def copyingT : ElemType Unit Nat where
  nothrowMove := false
  copyConstructible := true
  valueCtor := fun w => (some 0, w)
  copyCtor := fun x w => if x = 7 then (none, w) else (some x, w)
  moveCtor := fun x w => (some x, 0, w)
  copyAssign := fun d s w => if s = 7 then (false, d, w) else (true, s, w)
  moveAssign := fun _ s w => (true, s, 0, w)
  nothrow_sound := fun h => by cases h
  sizeof := 8
  sizeof_pos := by decide
  operator_new := fun bytes _ => decide (bytes < 2 ^ 63)
  operator_new_max := fun _ _ h => of_decide_eq_true h

/-- A move-only type over `Nat` whose move operations throw on the value `7`;
a moved-from object is `0`. -/
def moveOnlyT : ElemType Unit Nat where
  nothrowMove := false
  copyConstructible := false
  valueCtor := fun w => (some 0, w)
  copyCtor := fun _ w => (none, w)
  moveCtor := fun x w => if x = 7 then (none, x, w) else (some x, 0, w)
  copyAssign := fun d _ w => (false, d, w)
  moveAssign := fun d s w => if s = 7 then (false, d, s, w) else (true, s, 0, w)
  nothrow_sound := fun h => by cases h
  sizeof := 8
  sizeof_pos := by decide
  operator_new := fun bytes _ => decide (bytes < 2 ^ 63)
  operator_new_max := fun _ _ h => of_decide_eq_true h

/-- A type over `Nat` whose copies and moves carry the value and whose default
constructor counts down as the one of `ThrowObj` does: the global state is the
countdown, and the construction that brings it to zero throws. -/
def countdownT : ElemType Nat Nat where
  nothrowMove := true
  copyConstructible := true
  valueCtor := fun c =>
    if 0 < c then
      if c - 1 = 0 then (none, 0) else (some 0, c - 1)
    else (some 0, c)
  copyCtor := fun x c => (some x, c)
  moveCtor := fun x c => (some x, 0, c)
  copyAssign := fun _ s c => (true, s, c)
  moveAssign := fun _ s c => (true, s, 0, c)
  nothrow_sound := fun _ _ _ => rfl
  sizeof := 8
  sizeof_pos := by decide
  operator_new := fun bytes _ => decide (bytes < 2 ^ 63)
  operator_new_max := fun _ _ h => of_decide_eq_true h

/-- The type `plainT` on a heap that is nearly exhausted: `operator new` returns for up to
8 bytes (one object) and throws `std::bad_alloc` beyond. -/
def scarceT : ElemType Unit Nat where
  nothrowMove := true
  copyConstructible := true
  valueCtor := fun w => (some 0, w)
  copyCtor := fun x w => (some x, w)
  moveCtor := fun x w => (some x, 0, w)
  copyAssign := fun _ s w => (true, s, w)
  moveAssign := fun _ s w => (true, s, 0, w)
  nothrow_sound := fun _ _ _ => rfl
  sizeof := 8
  sizeof_pos := by decide
  operator_new := fun bytes _ => decide (bytes ≤ 8)
  operator_new_max := fun _ _ h => Nat.lt_of_le_of_lt (of_decide_eq_true h) (by decide)

/-- A full vector of `2 ^ 31` elements. -/
def full31 : Vector Nat :=
  ⟨⟨List.replicate (2 ^ 31) (some 0)⟩, 2 ^ 31⟩

/-- A vector of `2 ^ 31` elements with one spare slot. -/
def spare31 : Vector Nat :=
  ⟨⟨List.replicate (2 ^ 31) (some 0) ++ [none]⟩, 2 ^ 31⟩

/-- The sequence of `2 ^ 32` zeros followed by a one. -/
def over32 : List Nat :=
  List.replicate (2 ^ 32) 0 ++ [1]

/-- The sequence of `2 ^ 32` zeros. -/
def zeros32 : List Nat :=
  List.replicate (2 ^ 32) 0

section Lemmas
variable {σ α : Type}

theorem peek_eq_some {mem : Slots α} {i : Nat} {x : α} :
    peek mem i = some x ↔ mem[i]? = some (some x) := by
  unfold peek
  split
  · rename_i y h; simp [h]
  · rename_i h
    constructor
    · intro h1; cases h1
    · intro h1; exact absurd h1 (h x)

theorem peek_eq_none {mem : Slots α} {i : Nat} :
    peek mem i = none ↔ mem[i]? = none ∨ mem[i]? = some none := by
  unfold peek
  split
  · rename_i y h; simp [h]
  · rename_i h
    simp only [true_iff]
    rcases h1 : mem[i]? with _ | (_ | y)
    · simp
    · simp
    · exact absurd h1 (h y)

theorem uninitialized_copy_n_ok (T : ElemType σ α) (src : Slots α) :
    ∀ (n first : Nat) (dst : Slots α) (dfirst : Nat) (w : σ) (r : Slots α) (w1 : σ),
      uninitialized_copy_n T src first n dst dfirst w = .ok r w1 →
      r.length = dst.length ∧
      (∀ j, j < dfirst ∨ dfirst + n ≤ j → r[j]? = dst[j]?) ∧
      (∀ k, k < n → ∃ x y, src[first + k]? = some (some x) ∧
          r[dfirst + k]? = some (some y) ∧ (T.Regular → y = x)) := by
  intro n
  induction n with
  | zero =>
    intro first dst dfirst w r w1 h
    simp only [uninitialized_copy_n, Step.ok.injEq] at h
    obtain ⟨rfl, rfl⟩ := h
    simp
  | succ n ih =>
    intro first dst dfirst w r w1 h
    rw [uninitialized_copy_n] at h
    split at h
    · cases h
    · rename_i x hx
      split at h
      · cases h
      · rename_i hlen
        split at h
        · cases h
        · rename_i y w2 hc
          split at h
          · cases h
          · rename_i r0 hr0 hrec
            obtain ⟨h1, h2, h3⟩ := ih _ _ _ _ _ _ h
            refine ⟨by simpa using h1, ?_, ?_⟩
            · intro j hj
              rw [h2 j (by omega), List.getElem?_set_ne (by omega)]
            · intro k hk
              rcases Nat.eq_zero_or_pos k with rfl | hkpos
              · refine ⟨x, y, peek_eq_some.mp hx, ?_, ?_⟩
                · rw [Nat.add_zero, h2 dfirst (by omega), List.getElem?_set_self (by omega)]
                · intro hreg; exact hreg.1 _ _ _ _ hc
              · obtain ⟨x', y', e1, e2, e3⟩ := h3 (k - 1) (by omega)
                refine ⟨x', y', ?_, ?_, e3⟩
                · rw [← e1]; congr 1; omega
                · rw [← e2]; congr 1; omega

theorem peek_set_some (mem : Slots α) (i j : Nat) (x : α) :
    peek (mem.set i (some x)) j = if i = j ∧ i < mem.length then some x else peek mem j := by
  unfold peek
  rw [List.getElem?_set]
  by_cases hij : i = j
  · subst hij
    by_cases hi : i < mem.length
    · simp [hi]
    · simp [hi, List.getElem?_eq_none (Nat.le_of_not_lt hi)]
  · simp [hij]

theorem peek_set_none (mem : Slots α) (i j : Nat) :
    peek (mem.set i none) j = if i = j then none else peek mem j := by
  unfold peek
  rw [List.getElem?_set]
  by_cases hij : i = j
  · subst hij
    by_cases hi : i < mem.length <;> simp [hi]
  · simp [hij]

theorem peek_isSome_lt {mem : Slots α} {i : Nat} (h : (peek mem i).isSome = true) :
    i < mem.length := by
  obtain ⟨x, hx⟩ := Option.isSome_iff_exists.mp h
  have := peek_eq_some.mp hx
  by_contra hlt
  rw [List.getElem?_eq_none (Nat.le_of_not_lt hlt)] at this
  cases this

theorem LiveSame.refl (mem : Slots α) : LiveSame mem mem :=
  ⟨rfl, fun _ => rfl⟩

theorem LiveSame.trans {a b c : Slots α} (h1 : LiveSame a b) (h2 : LiveSame b c) :
    LiveSame a c :=
  ⟨h2.1.trans h1.1, fun j => (h2.2 j).trans (h1.2 j)⟩

theorem LiveSame.set {mem : Slots α} {i : Nat} {x : α} (y : α) (h : peek mem i = some x) :
    LiveSame mem (mem.set i (some y)) := by
  refine ⟨by simp, fun j => ?_⟩
  rw [peek_set_some]
  split
  · rename_i hc
    obtain ⟨rfl, _⟩ := hc
    simp [h]
  · rfl

theorem uninitialized_copy_n_throw (T : ElemType σ α) (src : Slots α) :
    ∀ (n first : Nat) (dst : Slots α) (dfirst : Nat) (w : σ) (r : Slots α) (w1 : σ),
      uninitialized_copy_n T src first n dst dfirst w = .throw r w1 →
      r.length = dst.length ∧
      (∀ j, r[j]? = dst[j]? ∨ (dfirst ≤ j ∧ j < dfirst + n ∧ r[j]? = some none)) := by
  intro n
  induction n with
  | zero =>
    intro first dst dfirst w r w1 h
    simp only [uninitialized_copy_n] at h
    cases h
  | succ n ih =>
    intro first dst dfirst w r w1 h
    rw [uninitialized_copy_n] at h
    split at h
    · cases h
    · rename_i x hx
      split at h
      · cases h
      · rename_i hlen
        split at h
        · simp only [Step.throw.injEq] at h
          obtain ⟨rfl, rfl⟩ := h
          exact ⟨rfl, fun j => Or.inl rfl⟩
        · rename_i y w2 hc
          split at h
          · rename_i dst1 w3 hrec
            simp only [Step.throw.injEq] at h
            obtain ⟨rfl, rfl⟩ := h
            obtain ⟨h1, h2⟩ := ih _ _ _ _ _ _ hrec
            refine ⟨by simpa using h1, fun j => ?_⟩
            by_cases hj : j = dfirst
            · subst hj
              right
              refine ⟨le_refl _, by omega, ?_⟩
              rw [List.getElem?_set_self (by rw [h1]; simp; omega)]
            · rw [List.getElem?_set_ne (Ne.symm hj)]
              rcases h2 j with e | ⟨e1, e2, e3⟩
              · left; rw [e, List.getElem?_set_ne (Ne.symm hj)]
              · right; exact ⟨by omega, by omega, e3⟩
          · rename_i hne
            exact absurd h (by
              intro h'
              exact hne _ _ h')

theorem uninitialized_copy_n_defined (T : ElemType σ α) (src : Slots α) :
    ∀ (n first : Nat) (dst : Slots α) (dfirst : Nat) (w : σ),
      (∀ k, k < n → (peek src (first + k)).isSome = true) → dfirst + n ≤ dst.length →
      uninitialized_copy_n T src first n dst dfirst w ≠ .ub := by
  intro n
  induction n with
  | zero =>
    intro first dst dfirst w _ _ h
    simp only [uninitialized_copy_n] at h
    cases h
  | succ n ih =>
    intro first dst dfirst w hsrc hlen h
    rw [uninitialized_copy_n] at h
    split at h
    · rename_i hx
      have := hsrc 0 (by omega)
      rw [Nat.add_zero, hx] at this
      cases this
    · split at h
      · omega
      · split at h
        · cases h
        · split at h
          · cases h
          · refine ih (first + 1) _ (dfirst + 1) _ (fun k hk => ?_) (by simp; omega) h
            have := hsrc (k + 1) (by omega)
            rwa [show first + (k + 1) = first + 1 + k by omega] at this

theorem uninitialized_move_n_ok (T : ElemType σ α) :
    ∀ (n : Nat) (src : Slots α) (first : Nat) (dst : Slots α) (dfirst : Nat) (w : σ)
      (s r : Slots α) (w1 : σ),
      uninitialized_move_n T src first n dst dfirst w = .ok (s, r) w1 →
      LiveSame src s ∧ (∀ j, j < first ∨ first + n ≤ j → s[j]? = src[j]?) ∧
      r.length = dst.length ∧
      (∀ j, j < dfirst ∨ dfirst + n ≤ j → r[j]? = dst[j]?) ∧
      (∀ k, k < n → ∃ x y, src[first + k]? = some (some x) ∧
          r[dfirst + k]? = some (some y) ∧ (T.Regular → y = x)) := by
  intro n
  induction n with
  | zero =>
    intro src first dst dfirst w s r w1 h
    simp only [uninitialized_move_n, Step.ok.injEq, Prod.mk.injEq] at h
    obtain ⟨⟨rfl, rfl⟩, rfl⟩ := h
    exact ⟨LiveSame.refl _, fun _ _ => rfl, rfl, fun _ _ => rfl,
      fun k hk => absurd hk (Nat.not_lt_zero k)⟩
  | succ n ih =>
    intro src first dst dfirst w s r w1 h
    rw [uninitialized_move_n] at h
    split at h
    · cases h
    · rename_i x hx
      split at h
      · cases h
      · rename_i hlen
        split at h
        · cases h
        · rename_i y x1 w2 hc
          split at h
          · cases h
          · obtain ⟨h0, hs, h1, h2, h3⟩ := ih _ _ _ _ _ _ _ _ h
            refine ⟨(LiveSame.set x1 hx).trans h0, ?_, by simpa using h1, ?_, ?_⟩
            · intro j hj
              rw [hs j (by omega), List.getElem?_set_ne (by omega)]
            · intro j hj
              rw [h2 j (by omega), List.getElem?_set_ne (by omega)]
            · intro k hk
              rcases Nat.eq_zero_or_pos k with rfl | hkpos
              · refine ⟨x, y, peek_eq_some.mp hx, ?_, ?_⟩
                · rw [Nat.add_zero, h2 dfirst (by omega), List.getElem?_set_self (by omega)]
                · intro hreg; exact hreg.2.1 _ _ _ _ _ hc
              · obtain ⟨x', y', e1, e2, e3⟩ := h3 (k - 1) (by omega)
                refine ⟨x', y', ?_, ?_, e3⟩
                · rw [List.getElem?_set_ne (by omega)] at e1
                  rw [← e1]; congr 1; omega
                · rw [← e2]; congr 1; omega

theorem uninitialized_move_n_throw (T : ElemType σ α) :
    ∀ (n : Nat) (src : Slots α) (first : Nat) (dst : Slots α) (dfirst : Nat) (w : σ)
      (s r : Slots α) (w1 : σ),
      uninitialized_move_n T src first n dst dfirst w = .throw (s, r) w1 →
      LiveSame src s ∧ r.length = dst.length ∧
      (∀ j, r[j]? = dst[j]? ∨ (dfirst ≤ j ∧ j < dfirst + n ∧ r[j]? = some none)) := by
  intro n
  induction n with
  | zero =>
    intro src first dst dfirst w s r w1 h
    simp only [uninitialized_move_n] at h
    cases h
  | succ n ih =>
    intro src first dst dfirst w s r w1 h
    rw [uninitialized_move_n] at h
    split at h
    · cases h
    · rename_i x hx
      split at h
      · cases h
      · rename_i hlen
        split at h
        · rename_i x1 w2 hc
          simp only [Step.throw.injEq, Prod.mk.injEq] at h
          obtain ⟨⟨rfl, rfl⟩, rfl⟩ := h
          exact ⟨LiveSame.set x1 hx, rfl, fun j => Or.inl rfl⟩
        · rename_i y x1 w2 hc
          split at h
          · rename_i src1 dst1 w3 hrec
            simp only [Step.throw.injEq, Prod.mk.injEq] at h
            obtain ⟨⟨rfl, rfl⟩, rfl⟩ := h
            obtain ⟨h0, h1, h2⟩ := ih _ _ _ _ _ _ _ _ hrec
            refine ⟨(LiveSame.set x1 hx).trans h0, by simpa using h1, fun j => ?_⟩
            by_cases hj : j = dfirst
            · subst hj
              right
              refine ⟨le_refl _, by omega, ?_⟩
              rw [List.getElem?_set_self (by rw [h1]; simp; omega)]
            · rw [List.getElem?_set_ne (Ne.symm hj)]
              rcases h2 j with e | ⟨e1, e2, e3⟩
              · left; rw [e, List.getElem?_set_ne (Ne.symm hj)]
              · right; exact ⟨by omega, by omega, e3⟩
          · rename_i hne
            exact absurd h (by
              intro h'
              exact hne _ _ _ h')

theorem uninitialized_move_n_defined (T : ElemType σ α) :
    ∀ (n : Nat) (src : Slots α) (first : Nat) (dst : Slots α) (dfirst : Nat) (w : σ),
      (∀ k, k < n → (peek src (first + k)).isSome = true) → dfirst + n ≤ dst.length →
      uninitialized_move_n T src first n dst dfirst w ≠ .ub := by
  intro n
  induction n with
  | zero =>
    intro src first dst dfirst w _ _ h
    simp only [uninitialized_move_n] at h
    cases h
  | succ n ih =>
    intro src first dst dfirst w hsrc hlen h
    rw [uninitialized_move_n] at h
    split at h
    · rename_i hx
      have := hsrc 0 (by omega)
      rw [Nat.add_zero, hx] at this
      cases this
    · split at h
      · omega
      · split at h
        · cases h
        · split at h
          · cases h
          · refine ih _ (first + 1) _ (dfirst + 1) _ (fun k hk => ?_) (by simp; omega) h
            have := hsrc (k + 1) (by omega)
            rw [show first + (k + 1) = first + 1 + k by omega] at this
            rw [peek_set_some]
            split
            · rfl
            · exact this

theorem uninitialized_move_n_nothrow (T : ElemType σ α) (hT : T.nothrowMove = true) :
    ∀ (n : Nat) (src : Slots α) (first : Nat) (dst : Slots α) (dfirst : Nat) (w : σ)
      (m : Slots α × Slots α) (w1 : σ),
      uninitialized_move_n T src first n dst dfirst w ≠ .throw m w1 := by
  intro n
  induction n with
  | zero =>
    intro src first dst dfirst w m w1 h
    simp only [uninitialized_move_n] at h
    cases h
  | succ n ih =>
    intro src first dst dfirst w m w1 h
    rw [uninitialized_move_n] at h
    split at h
    · cases h
    · rename_i x hx
      split at h
      · cases h
      · split at h
        · rename_i x1 w2 hc
          have := T.nothrow_sound hT x w
          rw [hc] at this
          cases this
        · split at h
          · rename_i hrec
            exact ih _ _ _ _ _ _ _ hrec
          · exact ih _ _ _ _ _ _ _ h

theorem LiveSame.set_set {mem : Slots α} {i j : Nat} {s d : α} (s1 d1 : α)
    (hs : peek mem i = some s) (hd : peek mem j = some d) :
    LiveSame mem ((mem.set i (some s1)).set j (some d1)) := by
  refine (LiveSame.set s1 hs).trans ?_
  have hj : (peek (mem.set i (some s1)) j).isSome = true := by
    rw [(LiveSame.set s1 hs).2 j, hd]; rfl
  obtain ⟨d0, hd0⟩ := Option.isSome_iff_exists.mp hj
  exact LiveSame.set d1 hd0

theorem move_backward_n_live (T : ElemType σ α) :
    ∀ (n : Nat) (mem : Slots α) (last d_last : Nat) (w : σ) (r : Slots α) (w1 : σ),
      (move_backward_n T mem n last d_last w = .ok r w1 ∨
        move_backward_n T mem n last d_last w = .throw r w1) → LiveSame mem r := by
  intro n
  induction n with
  | zero =>
    intro mem last d_last w r w1 h
    simp only [move_backward_n, Step.ok.injEq, false_or, or_false] at h
    rcases h with ⟨rfl, _⟩ | h
    · exact LiveSame.refl _
    · cases h
  | succ n ih =>
    intro mem last d_last w r w1 h
    rw [move_backward_n] at h
    split at h
    · rcases h with h | h <;> cases h
    · split at h
      · rename_i s d hs hd
        split at h
        · exact (LiveSame.set_set _ _ hs hd).trans (ih _ _ _ _ _ _ h)
        · rcases h with h | h
          · cases h
          · simp only [Step.throw.injEq] at h
            obtain ⟨rfl, _⟩ := h
            exact LiveSame.set_set _ _ hs hd
      · rcases h with h | h <;> cases h

theorem move_backward_n_ok (T : ElemType σ α) (hT : T.Regular) :
    ∀ (n : Nat) (mem : Slots α) (last : Nat) (w : σ) (r : Slots α) (w1 : σ),
      move_backward_n T mem n last (last + 1) w = .ok r w1 →
      (∀ j, j + n < last ∨ last < j → r[j]? = mem[j]?) ∧
      (∀ j, j < last → last ≤ j + n → ∃ x, mem[j]? = some (some x) ∧
          r[j + 1]? = some (some x)) := by
  intro n
  induction n with
  | zero =>
    intro mem last w r w1 h
    simp only [move_backward_n, Step.ok.injEq] at h
    obtain ⟨rfl, _⟩ := h
    exact ⟨fun _ _ => rfl, fun j h1 h2 => absurd h2 (by omega)⟩
  | succ n ih =>
    intro mem last w r w1 h
    rw [move_backward_n] at h
    split at h
    · cases h
    · rename_i hz
      split at h
      · rename_i s d hs hd
        split at h
        · rename_i d1 s1 w2 ha
          have hd1 : d1 = s := hT.2.2.2 _ _ _ _ _ _ ha
          have hlast : last - 1 + 1 = last := by omega
          rw [Nat.add_sub_cancel] at h hd
          have hlen : last < mem.length := peek_isSome_lt (by rw [hd]; rfl)
          have key := ih ((mem.set (last - 1) (some s1)).set last (some d1)) (last - 1) w2 r w1
            (by rw [hlast]; exact h)
          obtain ⟨k1, k2⟩ := key
          constructor
          · intro j hj
            rw [k1 j (by omega), List.getElem?_set_ne (by omega),
              List.getElem?_set_ne (by omega)]
          · intro j hj1 hj2
            by_cases hj : j = last - 1
            · subst hj
              refine ⟨s, peek_eq_some.mp hs, ?_⟩
              rw [hlast, k1 last (by omega), List.getElem?_set_self (by simpa using hlen), hd1]
            · obtain ⟨x, e1, e2⟩ := k2 j (by omega) (by omega)
              rw [List.getElem?_set_ne (by omega), List.getElem?_set_ne (by omega)] at e1
              exact ⟨x, e1, e2⟩
        · cases h
      · cases h

theorem move_backward_n_defined (T : ElemType σ α) :
    ∀ (n : Nat) (mem : Slots α) (last : Nat) (w : σ),
      n ≤ last → (∀ j, j ≤ last → last ≤ j + n → (peek mem j).isSome = true) →
      move_backward_n T mem n last (last + 1) w ≠ .ub := by
  intro n
  induction n with
  | zero =>
    intro mem last w _ _ h
    simp only [move_backward_n] at h
    cases h
  | succ n ih =>
    intro mem last w hn hlive h
    rw [move_backward_n] at h
    split at h
    · omega
    · split at h
      · rename_i s d hs hd
        split at h
        · have hlast : last - 1 + 1 = last := by omega
          rw [Nat.add_sub_cancel] at h hd
          refine ih ((mem.set (last - 1) (some _)).set last (some _)) (last - 1) _ (by omega)
            (fun j hj1 hj2 => ?_) (by rw [hlast]; exact h)
          rw [(LiveSame.set_set _ _ hs hd).2 j]
          exact hlive j (by omega) (by omega)
        · cases h
      · rename_i hne
        rw [Nat.add_sub_cancel] at hne
        obtain ⟨s, hs⟩ := Option.isSome_iff_exists.mp (hlive (last - 1) (by omega) (by omega))
        obtain ⟨d, hd⟩ := Option.isSome_iff_exists.mp (hlive last (by omega) (by omega))
        exact hne s d hs hd

theorem move_n_live (T : ElemType σ α) :
    ∀ (n : Nat) (mem : Slots α) (first d_first : Nat) (w : σ) (r : Slots α) (w1 : σ),
      (move_n T mem n first d_first w = .ok r w1 ∨
        move_n T mem n first d_first w = .throw r w1) → LiveSame mem r := by
  intro n
  induction n with
  | zero =>
    intro mem first d_first w r w1 h
    simp only [move_n, Step.ok.injEq, false_or, or_false] at h
    rcases h with ⟨rfl, _⟩ | h
    · exact LiveSame.refl _
    · cases h
  | succ n ih =>
    intro mem first d_first w r w1 h
    rw [move_n] at h
    split at h
    · rename_i s d hs hd
      split at h
      · exact (LiveSame.set_set _ _ hs hd).trans (ih _ _ _ _ _ _ h)
      · rcases h with h | h
        · cases h
        · simp only [Step.throw.injEq] at h
          obtain ⟨rfl, _⟩ := h
          exact LiveSame.set_set _ _ hs hd
    · rcases h with h | h <;> cases h

theorem move_n_ok (T : ElemType σ α) (hT : T.Regular) :
    ∀ (n : Nat) (mem : Slots α) (d_first : Nat) (w : σ) (r : Slots α) (w1 : σ),
      move_n T mem n (d_first + 1) d_first w = .ok r w1 →
      (∀ j, j < d_first ∨ d_first + n < j → r[j]? = mem[j]?) ∧
      (∀ j, d_first ≤ j → j < d_first + n → ∃ x, mem[j + 1]? = some (some x) ∧
          r[j]? = some (some x)) := by
  intro n
  induction n with
  | zero =>
    intro mem d_first w r w1 h
    simp only [move_n, Step.ok.injEq] at h
    obtain ⟨rfl, _⟩ := h
    exact ⟨fun _ _ => rfl, fun j h1 h2 => absurd h2 (by omega)⟩
  | succ n ih =>
    intro mem d_first w r w1 h
    rw [move_n] at h
    split at h
    · rename_i s d hs hd
      split at h
      · rename_i d1 s1 w2 ha
        have hd1 : d1 = s := hT.2.2.2 _ _ _ _ _ _ ha
        have hlen : d_first < mem.length := peek_isSome_lt (by rw [hd]; rfl)
        obtain ⟨k1, k2⟩ := ih _ _ _ _ _ h
        constructor
        · intro j hj
          rw [k1 j (by omega), List.getElem?_set_ne (by omega),
            List.getElem?_set_ne (by omega)]
        · intro j hj1 hj2
          by_cases hj : j = d_first
          · subst hj
            refine ⟨s, peek_eq_some.mp hs, ?_⟩
            rw [k1 j (by omega), List.getElem?_set_self (by simpa using hlen), hd1]
          · obtain ⟨x, e1, e2⟩ := k2 j (by omega) (by omega)
            rw [List.getElem?_set_ne (by omega), List.getElem?_set_ne (by omega)] at e1
            exact ⟨x, e1, e2⟩
      · cases h
    · cases h

theorem move_n_defined (T : ElemType σ α) :
    ∀ (n : Nat) (mem : Slots α) (d_first : Nat) (w : σ),
      (∀ j, d_first ≤ j → j ≤ d_first + n → (peek mem j).isSome = true) →
      move_n T mem n (d_first + 1) d_first w ≠ .ub := by
  intro n
  induction n with
  | zero =>
    intro mem d_first w _ h
    simp only [move_n] at h
    cases h
  | succ n ih =>
    intro mem d_first w hlive h
    rw [move_n] at h
    split at h
    · rename_i s d hs hd
      split at h
      · refine ih _ _ _ (fun j hj1 hj2 => ?_) h
        rw [(LiveSame.set_set _ _ hs hd).2 j]
        exact hlive j (by omega) (by omega)
      · cases h
    · rename_i hne
      obtain ⟨s, hs⟩ := Option.isSome_iff_exists.mp (hlive (d_first + 1) (by omega) (by omega))
      obtain ⟨d, hd⟩ := Option.isSome_iff_exists.mp (hlive d_first (by omega) (by omega))
      exact hne s d hs hd

theorem getElem?_slots (xs : List α) (k j : Nat) :
    (xs.map some ++ List.replicate k none)[j]? =
      if j < xs.length then some xs[j]? else if j < xs.length + k then some none else none := by
  rw [List.getElem?_append, List.length_map]
  by_cases h : j < xs.length
  · simp only [h, if_true, List.getElem?_map]
    rw [List.getElem?_eq_getElem h]
    rfl
  · simp only [h, if_false, List.getElem?_replicate]
    by_cases h1 : j < xs.length + k
    · rw [if_pos (by omega), if_pos h1]
    · rw [if_neg (by omega), if_neg h1]

theorem slots_ext {buf : Slots α} {xs : List α} {c : Nat} (hlen : buf.length = c)
    (hxs : xs.length ≤ c) (h1 : ∀ j, j < xs.length → buf[j]? = some xs[j]?)
    (h2 : ∀ j, xs.length ≤ j → j < c → buf[j]? = some none) :
    buf = xs.map some ++ List.replicate (c - xs.length) none := by
  apply List.ext_getElem?
  intro j
  rw [getElem?_slots]
  by_cases hj : j < xs.length
  · rw [if_pos hj, h1 j hj]
  · rw [if_neg hj]
    by_cases hc : j < c
    · rw [if_pos (by omega), h2 j (by omega) hc]
    · rw [if_neg (by omega), List.getElem?_eq_none (by omega)]

theorem Vector.Holds.getElem? {v : Vector α} {xs : List α} (h : v.Holds xs) (j : Nat) :
    v.data_.buffer_[j]? =
      if j < xs.length then some xs[j]? else if j < v.data_.Capacity then some none
      else none := by
  obtain ⟨_, h2, h3⟩ := h
  rw [h2, getElem?_slots]
  have : xs.length + (v.data_.Capacity - xs.length) = v.data_.Capacity := by omega
  rw [this]

theorem Vector.Holds.peek_lt {v : Vector α} {xs : List α} (h : v.Holds xs) {j : Nat}
    (hj : j < xs.length) : peek v.data_.buffer_ j = xs[j]? := by
  have := h.getElem? j
  rw [if_pos hj] at this
  rw [List.getElem?_eq_getElem hj] at this ⊢
  exact peek_eq_some.mpr this

theorem Vector.Holds.peek_ge {v : Vector α} {xs : List α} (h : v.Holds xs) {j : Nat}
    (hj : xs.length ≤ j) : peek v.data_.buffer_ j = none := by
  have := h.getElem? j
  rw [if_neg (by omega)] at this
  apply peek_eq_none.mpr
  split at this
  · exact Or.inr this
  · exact Or.inl this

theorem Vector.Holds.wf {v : Vector α} {xs : List α} (h : v.Holds xs) : v.WF := by
  refine ⟨by rw [h.1]; exact h.2.2, fun i hi => ?_, fun i hi => ?_⟩
  · rw [h.1] at hi
    rw [h.peek_lt hi, List.getElem?_eq_getElem hi]; rfl
  · rw [h.1] at hi
    exact h.peek_ge hi

theorem holds_of_pointwise {v : Vector α} {xs : List α} (hsz : v.size_ = xs.length)
    (hxs : xs.length ≤ v.data_.Capacity)
    (h1 : ∀ j, j < xs.length → v.data_.buffer_[j]? = some xs[j]?)
    (h2 : ∀ j, xs.length ≤ j → j < v.data_.Capacity → v.data_.buffer_[j]? = some none) :
    v.Holds xs :=
  ⟨hsz, slots_ext rfl hxs h1 h2, hxs⟩

theorem getElem?_insertAt (xs : List α) (i : Nat) (x : α) (hi : i ≤ xs.length) (j : Nat) :
    (xs.take i ++ x :: xs.drop i)[j]? =
      if j < i then xs[j]? else if j = i then some x else xs[j - 1]? := by
  rw [List.getElem?_append, List.length_take, Nat.min_eq_left hi]
  by_cases h : j < i
  · rw [if_pos h, if_pos h, List.getElem?_take, if_pos h]
  · rw [if_neg h, if_neg h]
    by_cases h1 : j = i
    · subst h1
      simp
    · rw [if_neg h1]
      obtain ⟨m, hm⟩ : ∃ m, j - i = m + 1 := ⟨j - i - 1, by omega⟩
      rw [hm, List.getElem?_cons_succ, List.getElem?_drop]
      congr 1
      omega

theorem length_insertAt (xs : List α) (i : Nat) (x : α) (hi : i ≤ xs.length) :
    (xs.take i ++ x :: xs.drop i).length = xs.length + 1 := by
  simp only [List.length_append, List.length_take, List.length_cons, List.length_drop]
  omega

theorem peek_destroy_n : ∀ (n : Nat) (mem : Slots α) (first j : Nat),
    peek (destroy_n mem first n) j =
      if first ≤ j ∧ j < first + n then none else peek mem j := by
  intro n
  induction n with
  | zero =>
    intro mem first j
    rw [destroy_n, if_neg (by omega)]
  | succ n ih =>
    intro mem first j
    rw [destroy_n, ih, peek_set_none]
    by_cases h1 : first = j
    · subst h1
      simp
    · by_cases h2 : first + 1 ≤ j ∧ j < first + 1 + n
      · rw [if_pos h2, if_pos (by omega)]
      · rw [if_neg h2, if_neg h1, if_neg (by omega)]

theorem live_eq_nil {mem : Slots α} (h : ∀ j, peek mem j = none) : live mem = [] := by
  unfold live
  rw [List.filterMap_eq_nil_iff]
  intro a ha
  obtain ⟨j, hj, rfl⟩ := List.getElem_of_mem ha
  have := h j
  rcases peek_eq_none.mp this with e | e
  · rw [List.getElem?_eq_getElem hj] at e
    cases e
  · rw [List.getElem?_eq_getElem hj] at e
    simpa using e

theorem mem_live {mem : Slots α} {j : Nat} {x : α} (h : mem[j]? = some (some x)) :
    x ∈ live mem := by
  unfold live
  rw [List.mem_filterMap]
  exact ⟨some x, List.getElem?_mem h, rfl⟩

theorem toInt32_of_lt {p : Nat} (h : p < 2 ^ 31) : toInt32 p = (p : Int) := by
  unfold toInt32
  have hp : p % 2 ^ 32 = p := Nat.mod_eq_of_lt (by omega)
  rw [hp, if_pos h]

theorem toInt32_lt (p : Nat) : toInt32 p < 2 ^ 31 := by
  unfold toInt32
  split <;> omega

theorem toInt32_ne_of_le {p : Nat} (h : 2 ^ 31 ≤ p) : toInt32 p ≠ (p : Int) := by
  have := toInt32_lt p
  omega

theorem toInt32_nonneg {p : Nat} (h : 0 ≤ toInt32 p) :
    toInt32 p = ((p % 2 ^ 32 : Nat) : Int) ∧ p % 2 ^ 32 < 2 ^ 31 := by
  unfold toInt32 at h ⊢
  split
  · rename_i hlt
    exact ⟨rfl, hlt⟩
  · rename_i hge
    rw [if_neg hge] at h
    omega

theorem toInt32_neg {p : Nat} (h1 : 2 ^ 31 ≤ p) (h2 : p < 2 ^ 32) :
    toInt32 p = (p : Int) - 2 ^ 32 ∧ toInt32 p < 0 := by
  unfold toInt32
  have hp : p % 2 ^ 32 = p := Nat.mod_eq_of_lt h2
  rw [hp, if_neg (by omega)]
  omega

/-- The converted offset is negative, or it is a natural number not beyond the offset. -/
theorem toInt32_cases (p : Nat) :
    toInt32 p < 0 ∨ ∃ d : Nat, toInt32 p = (d : Int) ∧ d ≤ p ∧ d < 2 ^ 31 := by
  by_cases h : toInt32 p < 0
  · exact Or.inl h
  · obtain ⟨h1, h2⟩ := toInt32_nonneg (Int.not_lt.mp h)
    exact Or.inr ⟨p % 2 ^ 32, h1, Nat.mod_le _ _, h2⟩

theorem Allocate_block {T : ElemType σ α} {n : Nat} {w : σ} {m : RawMemory α}
    (h : RawMemory.Allocate T n w = .block m) :
    m = ⟨List.replicate n none⟩ ∧ n * T.sizeof < 2 ^ 63 ∧ n < 2 ^ 63 := by
  unfold RawMemory.Allocate at h
  have hle : n ≤ n * T.sizeof := Nat.le_mul_of_pos_right n T.sizeof_pos
  split at h
  · rename_i h0
    subst h0
    simp only [Allocation.block.injEq] at h
    subst h
    exact ⟨rfl, by simp, by decide⟩
  · split at h
    · rename_i hnew
      split at h
      · rename_i hlt
        simp only [Allocation.block.injEq] at h
        subst h
        rw [Nat.mod_eq_of_lt hlt] at hnew
        have := T.operator_new_max _ _ hnew
        exact ⟨rfl, this, by omega⟩
      · cases h
    · cases h

theorem Allocate_eq_block {T : ElemType σ α} {n : Nat} {w : σ}
    (h : (RawMemory.Allocate T n w : Allocation α).isBlock = true) :
    RawMemory.Allocate T n w = (.block ⟨List.replicate n none⟩ : Allocation α) := by
  rcases hr : (RawMemory.Allocate T n w : Allocation α) with m | _ | _
  · rw [(Allocate_block hr).1]
  · rw [hr] at h; cases h
  · rw [hr] at h; cases h

theorem uninitialized_copy_n_noThrow (T : ElemType σ α)
    (hT : ∀ x w, (T.copyCtor x w).1.isSome = true) (src : Slots α) :
    ∀ (n first : Nat) (dst : Slots α) (dfirst : Nat) (w : σ) (r : Slots α) (w1 : σ),
      uninitialized_copy_n T src first n dst dfirst w ≠ .throw r w1 := by
  intro n
  induction n with
  | zero =>
    intro first dst dfirst w r w1 h
    simp only [uninitialized_copy_n] at h
    cases h
  | succ n ih =>
    intro first dst dfirst w r w1 h
    rw [uninitialized_copy_n] at h
    split at h
    · cases h
    · rename_i x hx
      split at h
      · cases h
      · split at h
        · rename_i w2 hc
          have := hT x w
          rw [hc] at this
          cases this
        · split at h
          · rename_i hrec
            exact ih _ _ _ _ _ _ hrec
          · exact ih _ _ _ _ _ _ h

theorem uninitialized_move_n_noThrow (T : ElemType σ α)
    (hT : ∀ x w, (T.moveCtor x w).1.isSome = true) :
    ∀ (n : Nat) (src : Slots α) (first : Nat) (dst : Slots α) (dfirst : Nat) (w : σ)
      (m : Slots α × Slots α) (w1 : σ),
      uninitialized_move_n T src first n dst dfirst w ≠ .throw m w1 := by
  intro n
  induction n with
  | zero =>
    intro src first dst dfirst w m w1 h
    simp only [uninitialized_move_n] at h
    cases h
  | succ n ih =>
    intro src first dst dfirst w m w1 h
    rw [uninitialized_move_n] at h
    split at h
    · cases h
    · rename_i x hx
      split at h
      · cases h
      · split at h
        · rename_i x1 w2 hc
          have := hT x w
          rw [hc] at this
          cases this
        · split at h
          · rename_i hrec
            exact ih _ _ _ _ _ _ _ hrec
          · exact ih _ _ _ _ _ _ _ h

theorem move_n_noThrow (T : ElemType σ α) (hT : ∀ d s w, (T.moveAssign d s w).1 = true) :
    ∀ (n : Nat) (mem : Slots α) (first d_first : Nat) (w : σ) (r : Slots α) (w1 : σ),
      move_n T mem n first d_first w ≠ .throw r w1 := by
  intro n
  induction n with
  | zero =>
    intro mem first d_first w r w1 h
    simp only [move_n] at h
    cases h
  | succ n ih =>
    intro mem first d_first w r w1 h
    rw [move_n] at h
    split at h
    · rename_i s d hs hd
      split at h
      · exact ih _ _ _ _ _ _ h
      · rename_i d1 s1 w2 ha
        have := hT d s w
        rw [ha] at this
        cases this
    · cases h

theorem move_backward_n_noThrow (T : ElemType σ α)
    (hT : ∀ d s w, (T.moveAssign d s w).1 = true) :
    ∀ (n : Nat) (mem : Slots α) (last d_last : Nat) (w : σ) (r : Slots α) (w1 : σ),
      move_backward_n T mem n last d_last w ≠ .throw r w1 := by
  intro n
  induction n with
  | zero =>
    intro mem last d_last w r w1 h
    simp only [move_backward_n] at h
    cases h
  | succ n ih =>
    intro mem last d_last w r w1 h
    rw [move_backward_n] at h
    split at h
    · cases h
    · split at h
      · rename_i s d hs hd
        split at h
        · exact ih _ _ _ _ _ _ h
        · rename_i d1 s1 w2 ha
          have := hT d s w
          rw [ha] at this
          cases this
      · cases h

theorem copy_n_noThrow (T : ElemType σ α) (hT : ∀ d s w, (T.copyAssign d s w).1 = true)
    (src : Slots α) :
    ∀ (n : Nat) (dst : Slots α) (first d_first : Nat) (w : σ) (r : Slots α) (w1 : σ),
      copy_n T src dst n first d_first w ≠ .throw r w1 := by
  intro n
  induction n with
  | zero =>
    intro dst first d_first w r w1 h
    simp only [copy_n] at h
    cases h
  | succ n ih =>
    intro dst first d_first w r w1 h
    rw [copy_n] at h
    split at h
    · rename_i s d hs hd
      split at h
      · exact ih _ _ _ _ _ _ h
      · rename_i d1 w2 ha
        have := hT d s w
        rw [ha] at this
        cases this
    · cases h

theorem uninitialized_value_construct_n_noThrow (T : ElemType σ α)
    (hT : ∀ w, (T.valueCtor w).1.isSome = true) :
    ∀ (n : Nat) (dst : Slots α) (dfirst : Nat) (w : σ) (r : Slots α) (w1 : σ),
      uninitialized_value_construct_n T dst dfirst n w ≠ .throw r w1 := by
  intro n
  induction n with
  | zero =>
    intro dst dfirst w r w1 h
    simp only [uninitialized_value_construct_n] at h
    cases h
  | succ n ih =>
    intro dst dfirst w r w1 h
    rw [uninitialized_value_construct_n] at h
    split at h
    · cases h
    · split at h
      · rename_i w2 hc
        have := hT w
        rw [hc] at this
        cases this
      · split at h
        · rename_i hrec
          exact ih _ _ _ _ _ hrec
        · exact ih _ _ _ _ _ h

/-- What a move transfer that throws leaves in the source storage: the objects before
the one whose move threw are as their completed moves left them, that one is as the
failed move left it, and every other slot is as it was. -/
theorem uninitialized_move_n_throw_src (T : ElemType σ α) :
    ∀ (n : Nat) (src : Slots α) (first : Nat) (dst : Slots α) (dfirst : Nat) (w : σ)
      (s r : Slots α) (w1 : σ),
      uninitialized_move_n T src first n dst dfirst w = .throw (s, r) w1 →
      ∃ k, k < n ∧
        (∀ j, j < first ∨ first + k < j → s[j]? = src[j]?) ∧
        (∀ j, j < k → ∃ x wj, src[first + j]? = some (some x) ∧
          (T.moveCtor x wj).1.isSome = true ∧
          s[first + j]? = some (some (T.moveCtor x wj).2.1)) ∧
        (∃ x wk, src[first + k]? = some (some x) ∧ (T.moveCtor x wk).1 = none ∧
          s[first + k]? = some (some (T.moveCtor x wk).2.1)) := by
  intro n
  induction n with
  | zero =>
    intro src first dst dfirst w s r w1 h
    simp only [uninitialized_move_n] at h
    cases h
  | succ n ih =>
    intro src first dst dfirst w s r w1 h
    rw [uninitialized_move_n] at h
    split at h
    · cases h
    · rename_i x hx
      have hxs := peek_eq_some.mp hx
      have hflen : first < src.length := peek_isSome_lt (by rw [hx]; rfl)
      split at h
      · cases h
      · rename_i hlen
        split at h
        · rename_i x1 w2 hc
          simp only [Step.throw.injEq, Prod.mk.injEq] at h
          obtain ⟨⟨rfl, rfl⟩, rfl⟩ := h
          refine ⟨0, by omega, fun j hj => ?_, fun j hj => absurd hj (Nat.not_lt_zero j),
            ⟨x, w, hxs, by rw [hc], ?_⟩⟩
          · rw [List.getElem?_set_ne (by omega)]
          · rw [Nat.add_zero, List.getElem?_set_self hflen, hc]
        · rename_i y x1 w2 hc
          split at h
          · rename_i src1 dst1 w3 hrec
            simp only [Step.throw.injEq, Prod.mk.injEq] at h
            obtain ⟨⟨rfl, rfl⟩, rfl⟩ := h
            obtain ⟨k, hk, h1, h2, x', wk, e1, e2, e3⟩ := ih _ _ _ _ _ _ _ _ hrec
            refine ⟨k + 1, by omega, fun j hj => ?_, fun j hj => ?_, ⟨x', wk, ?_, e2, ?_⟩⟩
            · rw [h1 j (by omega), List.getElem?_set_ne (by omega)]
            · rcases Nat.eq_zero_or_pos j with rfl | hjpos
              · refine ⟨x, w, hxs, by rw [hc]; rfl, ?_⟩
                rw [Nat.add_zero, h1 first (by omega), List.getElem?_set_self hflen, hc]
              · obtain ⟨x2, wj, f1, f2, f3⟩ := h2 (j - 1) (by omega)
                rw [List.getElem?_set_ne (by omega)] at f1
                refine ⟨x2, wj, ?_, f2, ?_⟩
                · rw [← f1]; congr 1; omega
                · rw [← f3]; congr 1; omega
            · rw [List.getElem?_set_ne (by omega)] at e1
              rw [← e1]; congr 1; omega
            · rw [← e3]; congr 1; omega
          · rename_i hne
            exact absurd h (by
              intro h1
              exact hne _ _ _ h1)

/-- The content of the new storage after the two transfers of `RegularInsert`. -/
theorem regular_insert_slots (T : ElemType σ α) (hT : T.Regular) {buf new new1 : Slots α}
    {xs : List α} {i c : Nat} {x : α}
    (hbuf : ∀ j, j < xs.length → buf[j]? = some xs[j]?)
    (hi : i ≤ xs.length) (hc : xs.length + 1 ≤ c)
    (A2 : new.length = ((List.replicate c (none : Option α)).set i (some x)).length)
    (A3 : ∀ j, j < 0 ∨ 0 + i ≤ j →
      new[j]? = ((List.replicate c (none : Option α)).set i (some x))[j]?)
    (A4 : ∀ k, k < i → ∃ x1 y, buf[0 + k]? = some (some x1) ∧
      new[0 + k]? = some (some y) ∧ (T.Regular → y = x1))
    (B2 : new1.length = new.length)
    (B3 : ∀ j, j < i + 1 ∨ i + 1 + (xs.length - i) ≤ j → new1[j]? = new[j]?)
    (B4 : ∀ k, k < xs.length - i → ∃ x1 y, buf[i + k]? = some (some x1) ∧
      new1[i + 1 + k]? = some (some y) ∧ (T.Regular → y = x1)) :
    new1.length = c ∧
    (∀ j, j < xs.length + 1 → new1[j]? = some (xs.take i ++ x :: xs.drop i)[j]?) ∧
    (∀ j, xs.length + 1 ≤ j → j < c → new1[j]? = some none) := by
  refine ⟨by rw [B2, A2]; simp, fun j hj => ?_, fun j hj1 hj2 => ?_⟩
  · rw [getElem?_insertAt xs i x hi]
    by_cases h1 : j < i
    · rw [if_pos h1, B3 j (by omega)]
      obtain ⟨x1, y, e1, e2, e3⟩ := A4 j h1
      rw [Nat.zero_add] at e1 e2
      rw [e2, e3 hT, ← e1, hbuf j (by omega)]
    · rw [if_neg h1]
      by_cases h2 : j = i
      · subst h2
        rw [if_pos rfl, B3 j (by omega), A3 j (by omega),
          List.getElem?_set_self (by simp; omega)]
      · rw [if_neg h2]
        obtain ⟨x1, y, e1, e2, e3⟩ := B4 (j - i - 1) (by omega)
        have ej : i + 1 + (j - i - 1) = j := by omega
        have ej1 : i + (j - i - 1) = j - 1 := by omega
        rw [ej] at e2
        rw [ej1] at e1
        rw [e2, e3 hT, ← e1, hbuf (j - 1) (by omega)]
  · rw [B3 j (by omega), A3 j (by omega), List.getElem?_set_ne (by omega),
      List.getElem?_replicate, if_pos hj2]

theorem live_destroy_eq_nil {v : Vector α} {xs : List α} (hv : v.Holds xs)
    {old : Slots α} (h : LiveSame v.data_.buffer_ old) :
    live (destroy_n old 0 v.size_) = [] := by
  apply live_eq_nil
  intro j
  rw [peek_destroy_n]
  by_cases hj : 0 ≤ j ∧ j < 0 + v.size_
  · rw [if_pos hj]
  · rw [if_neg hj]
    have := h.2 j
    rw [hv.peek_ge (by rw [← hv.1]; omega)] at this
    simpa using this

/-- What a call of `RegularInsert` that returns has done: the storage it obtained, the
element it constructed, and the two transfers. -/
theorem RegularInsert_inv (T : ElemType σ α) {v : Vector α} {i : Nat} {a : Arg σ α} {w : σ}
    {v1 : Vector α} {u : Unit} {lk : List α} {w1 : σ}
    (h : RegularInsert T v (i : Int) a w = .done v1 u lk w1) :
    ∃ (c : Nat) (x : α) (w0 : σ) (old new new1 : Slots α),
      RawMemory.Allocate T (if v.size_ = 0 then 1 else v.size_ * 2 % 2 ^ 64) w =
        (.block ⟨List.replicate c none⟩ : Allocation α) ∧
      c = (if v.size_ = 0 then 1 else v.size_ * 2 % 2 ^ 64) ∧
      construct T v.data_.buffer_ a w = some (some x, w0) ∧ i < c ∧
      v1 = ⟨⟨new1⟩, v.size_⟩ ∧ lk = live (destroy_n old 0 v.size_) ∧
      LiveSame v.data_.buffer_ old ∧
      new.length = ((List.replicate c (none : Option α)).set i (some x)).length ∧
      (∀ j, j < 0 ∨ 0 + i ≤ j →
        new[j]? = ((List.replicate c (none : Option α)).set i (some x))[j]?) ∧
      (∀ k, k < i → ∃ x1 y, v.data_.buffer_[0 + k]? = some (some x1) ∧
        new[0 + k]? = some (some y) ∧ (T.Regular → y = x1)) ∧
      new1.length = new.length ∧
      (∀ j, j < i + 1 ∨ i + 1 + (v.size_ - i) ≤ j → new1[j]? = new[j]?) ∧
      (∀ k, k < v.size_ - i → ∃ x1 y, v.data_.buffer_[i + k]? = some (some x1) ∧
        new1[i + 1 + k]? = some (some y) ∧ (T.Regular → y = x1)) := by
  unfold RegularInsert at h
  generalize hc : (if v.size_ = 0 then 1 else v.size_ * 2 % 2 ^ 64) = c at h ⊢
  split at h
  · cases h
  · split at h <;> cases h
  · rename_i new_address halloc
    obtain ⟨rfl, _⟩ := Allocate_block halloc
    simp only [Int.toNat_ofNat, RawMemory.Capacity, List.length_replicate] at h
    split at h
    · cases h
    · cases h
    · rename_i x w0 hcons
      split at h
      · cases h
      · rename_i hguard
        have hic : i < c := by omega
        split at h
        · split at h
          · cases h
          · cases h
          · rename_i old new w2 h1
            split at h
            · cases h
            · cases h
            · rename_i old1 new1 w3 h2
              simp only [Outcome.done.injEq] at h
              obtain ⟨rfl, _, rfl, rfl⟩ := h
              obtain ⟨A0, A1, A2, A3, A4⟩ := uninitialized_move_n_ok T _ _ _ _ _ _ _ _ _ h1
              obtain ⟨B0, _, B2, B3, B4⟩ := uninitialized_move_n_ok T _ _ _ _ _ _ _ _ _ h2
              refine ⟨c, x, w0, old1, new, new1, halloc, rfl, hcons, hic, rfl, rfl,
                A0.trans B0, A2, A3, A4, B2, B3, fun k hk => ?_⟩
              obtain ⟨x1, y, e1, e2, e3⟩ := B4 k hk
              rw [A1 (i + k) (by omega)] at e1
              exact ⟨x1, y, e1, e2, e3⟩
        · split at h
          · cases h
          · cases h
          · rename_i new w2 h1
            split at h
            · cases h
            · cases h
            · rename_i new1 w3 h2
              simp only [Outcome.done.injEq] at h
              obtain ⟨rfl, _, rfl, rfl⟩ := h
              obtain ⟨A2, A3, A4⟩ := uninitialized_copy_n_ok T _ _ _ _ _ _ _ _ h1
              obtain ⟨B2, B3, B4⟩ := uninitialized_copy_n_ok T _ _ _ _ _ _ _ _ h2
              exact ⟨c, x, w0, v.data_.buffer_, new, new1, halloc, rfl, hcons, hic, rfl, rfl,
                LiveSame.refl _, A2, A3, A4, B2, B3, B4⟩

/-- The new block of a `RegularInsert` that returns holds the `size_ + 1` elements, so
that the doubling of the size did not wrap. -/
theorem RegularInsert_fits {v : Vector α} {i c : Nat} {x : α} {new new1 : Slots α}
    (hi : i ≤ v.size_) (hc : c = (if v.size_ = 0 then 1 else v.size_ * 2 % 2 ^ 64))
    (hic : i < c)
    (A2 : new.length = ((List.replicate c (none : Option α)).set i (some x)).length)
    (B2 : new1.length = new.length)
    (B4 : ∀ k, k < v.size_ - i → ∃ y : α, new1[i + 1 + k]? = some (some y)) :
    v.size_ + 1 ≤ c ∧ c = (if v.size_ = 0 then 1 else v.size_ * 2) := by
  have hlen : new1.length = c := by rw [B2, A2]; simp
  have hfit : v.size_ + 1 ≤ c := by
    by_cases hlast : i = v.size_
    · omega
    · obtain ⟨y, e⟩ := B4 (v.size_ - i - 1) (by omega)
      have hlt : i + 1 + (v.size_ - i - 1) < new1.length := by
        by_contra hge
        rw [List.getElem?_eq_none (Nat.le_of_not_lt hge)] at e
        cases e
      omega
  refine ⟨hfit, ?_⟩
  by_cases h0 : v.size_ = 0
  · rw [if_pos h0] at hc ⊢
    exact hc
  · rw [if_neg h0] at hc ⊢
    omega

theorem RegularInsert_done (T : ElemType σ α) (hT : T.Regular) {v : Vector α}
    {xs : List α} (hv : v.Holds xs) {i : Nat} (hi : i ≤ xs.length) {a : Arg σ α} {w : σ}
    {v1 : Vector α} {u : Unit} {lk : List α} {w1 : σ}
    (h : RegularInsert T v (i : Int) a w = .done v1 u lk w1) :
    ∃ x w0, construct T v.data_.buffer_ a w = some (some x, w0) ∧ v1.size_ = v.size_ ∧
      v1.data_.Capacity = (if v.size_ = 0 then 1 else v.size_ * 2) ∧ lk = [] ∧
      (∀ j, j < xs.length + 1 →
        v1.data_.buffer_[j]? = some (xs.take i ++ x :: xs.drop i)[j]?) ∧
      (∀ j, xs.length + 1 ≤ j → j < v1.data_.Capacity →
        v1.data_.buffer_[j]? = some none) := by
  have hbuf : ∀ j, j < xs.length → v.data_.buffer_[j]? = some xs[j]? := by
    intro j hj
    rw [hv.getElem? j, if_pos hj]
  obtain ⟨c, x, w0, old, new, new1, _, hc, hcons, hic, rfl, rfl, hls, A2, A3, A4, B2, B3, B4⟩ :=
    RegularInsert_inv T h
  obtain ⟨hfit, hceq⟩ := RegularInsert_fits (by rw [hv.1]; exact hi) hc hic A2 B2
    (fun k hk => let ⟨_, y, _, e, _⟩ := B4 k hk; ⟨y, e⟩)
  rw [hv.1] at B3 B4 hfit
  obtain ⟨r1, r2, r3⟩ := regular_insert_slots T hT hbuf hi hfit A2 A3 A4 B2 B3 B4
  refine ⟨x, w0, hcons, rfl, ?_, live_destroy_eq_nil hv hls, r2,
    fun j hj1 hj2 => r3 j hj1 (by simpa [RawMemory.Capacity, r1] using hj2)⟩
  show new1.length = _
  rw [r1, hceq]

theorem ReallocationInsert_done (T : ElemType σ α) (hT : T.Regular) {v : Vector α}
    {xs : List α} (hv : v.Holds xs) {i : Nat} (hi : i ≤ xs.length)
    {a : Arg σ α} {w : σ} {v1 : Vector α} {u : Unit} {lk : List α} {w1 : σ}
    (h : ReallocationInsert T v (i : Int) i a w = .done v1 u lk w1) :
    ∃ x w0, construct T v.data_.buffer_ a w = some (some x, w0) ∧ v1.size_ = v.size_ ∧
      v1.data_.Capacity = v.data_.Capacity ∧ xs.length < v.data_.Capacity ∧ lk = [] ∧
      (∀ j, j < xs.length + 1 →
        v1.data_.buffer_[j]? = some (xs.take i ++ x :: xs.drop i)[j]?) ∧
      (∀ j, xs.length + 1 ≤ j → j < v1.data_.Capacity →
        v1.data_.buffer_[j]? = some none) := by
  have hsz := hv.1
  have hbuf : ∀ j, j < xs.length → v.data_.buffer_[j]? = some xs[j]? := by
    intro j hj
    rw [hv.getElem? j, if_pos hj]
  have hraw : ∀ j, xs.length ≤ j → j < v.data_.Capacity →
      v.data_.buffer_[j]? = some none := by
    intro j hj1 hj2
    rw [hv.getElem? j, if_neg (by omega), if_pos hj2]
  unfold ReallocationInsert at h
  simp only [Int.toNat_ofNat, show ¬ ((i : Int) < 0) from by omega, if_false] at h
  split at h
  · rename_i hpos
    split at h
    · cases h
    · rename_i hlen
      split at h
      · cases h
      · cases h
      · rename_i x w0 hcons
        simp only [Outcome.done.injEq] at h
        obtain ⟨rfl, _, rfl, rfl⟩ := h
        have hcap : xs.length < v.data_.Capacity := by
          simp only [RawMemory.Capacity]; omega
        refine ⟨x, w0, hcons, rfl, by simp [RawMemory.Capacity], hcap, rfl, ?_, ?_⟩
        · intro j hj
          rw [getElem?_insertAt xs i x hi]
          by_cases h1 : j < i
          · rw [if_pos h1, List.getElem?_set_ne (by omega), hbuf j (by omega)]
          · rw [if_neg h1, if_pos (by omega), ← hpos,
              show i = j by omega, List.getElem?_set_self (by omega)]
        · intro j hj1 hj2
          simp only [RawMemory.Capacity, List.length_set] at hj2
          rw [List.getElem?_set_ne (by omega), hraw j (by omega) hj2]
  · rename_i hpos
    split at h
    · cases h
    · cases h
    · rename_i tmp w0 hcons
      split at h
      · cases h
      · rename_i hlen
        split at h
        · cases h
        · rename_i back hback
          split at h
          · cases h
          · rename_i y back1 w2 hmv
            split at h
            · cases h
            · cases h
            · rename_i mem2 w3 hmb
              split at h
              · cases h
              · rename_i d hd
                split at h
                · cases h
                · rename_i d1 s1 w4 hasg
                  simp only [Outcome.done.injEq] at h
                  obtain ⟨rfl, _, rfl, rfl⟩ := h
                  have hy : y = back := hT.2.1 _ _ _ _ _ hmv
                  have hd1 : d1 = tmp := hT.2.2.2 _ _ _ _ _ _ hasg
                  have hn : 0 < xs.length := by omega
                  have hcap : xs.length < v.data_.Capacity := by
                    simp only [RawMemory.Capacity]; omega
                  have hbk : v.data_.buffer_[xs.length - 1]? = some (some back) := by
                    rw [hsz] at hback
                    exact peek_eq_some.mp hback
                  unfold move_backward at hmb
                  rw [if_neg (by omega)] at hmb
                  have hmb' : move_backward_n T
                      ((v.data_.buffer_.set (v.size_ - 1) (some back1)).set v.size_ (some y))
                      (v.size_ - 1 - i) (v.size_ - 1) (v.size_ - 1 + 1) w2 = .ok mem2 w3 := by
                    rw [show v.size_ - 1 + 1 = v.size_ by omega]; exact hmb
                  have hls := move_backward_n_live T _ _ _ _ _ _ _ (Or.inl hmb)
                  obtain ⟨C1, C2⟩ := move_backward_n_ok T hT _ _ _ _ _ _ hmb'
                  have hl2 : mem2.length = v.data_.buffer_.length := by
                    rw [hls.1]; simp
                  rw [hsz] at C1 C2
                  refine ⟨tmp, w0, hcons, rfl, by simp [RawMemory.Capacity, hl2], hcap, rfl,
                    ?_, ?_⟩
                  · intro j hj
                    rw [getElem?_insertAt xs i tmp hi]
                    by_cases h1 : j < i
                    · rw [if_pos h1, List.getElem?_set_ne (by omega), C1 j (by omega),
                        List.getElem?_set_ne (by omega), List.getElem?_set_ne (by omega),
                        hbuf j (by omega)]
                    · rw [if_neg h1]
                      by_cases h2 : j = i
                      · subst h2
                        rw [if_pos rfl, List.getElem?_set_self (by rw [hl2]; omega), hd1]
                      · rw [if_neg h2, List.getElem?_set_ne (by omega)]
                        by_cases h3 : j = xs.length
                        · subst h3
                          rw [C1 _ (by omega),
                            List.getElem?_set_self (by simp; omega), hy, ← hbk,
                            hbuf _ (by omega)]
                        · obtain ⟨x1, e1, e2⟩ := C2 (j - 1) (by omega) (by omega)
                          rw [List.getElem?_set_ne (by omega),
                            List.getElem?_set_ne (by omega)] at e1
                          rw [show j - 1 + 1 = j by omega] at e2
                          rw [e2, ← e1, hbuf _ (by omega)]
                  · intro j hj1 hj2
                    simp only [RawMemory.Capacity, List.length_set, hl2] at hj2
                    rw [List.getElem?_set_ne (by omega), C1 j (by omega),
                      List.getElem?_set_ne (by omega), List.getElem?_set_ne (by omega),
                      hraw j (by omega) hj2]

theorem Emplace_done (T : ElemType σ α) (hT : T.Regular) {v : Vector α}
    {xs : List α} (hv : v.Holds xs) {i : Nat} (hi : i ≤ xs.length) (hi31 : i < 2 ^ 31)
    {a : Arg σ α} {w : σ} {v1 : Vector α} {ret : Int} {lk : List α} {w1 : σ}
    (h : Emplace T v i a w = .done v1 ret lk w1) :
    ∃ x w0, construct T v.data_.buffer_ a w = some (some x, w0) ∧
      v1.Holds (xs.take i ++ x :: xs.drop i) ∧ ret = (i : Int) ∧ lk = [] ∧
      v1.data_.Capacity =
        (if v.data_.Capacity ≤ v.size_ then (if v.size_ = 0 then 1 else v.size_ * 2)
         else v.data_.Capacity) := by
  unfold Emplace at h
  rw [if_neg (by rw [hv.1]; omega), toInt32_of_lt hi31] at h
  split at h
  · cases h
  · cases h
  · rename_i v2 u lk2 w2 hin
    simp only [Outcome.done.injEq] at h
    obtain ⟨rfl, rfl, rfl, rfl⟩ := h
    by_cases hfull : v.data_.Capacity ≤ v.size_
    · rw [if_pos hfull] at hin ⊢
      obtain ⟨x, w0, e1, e2, e3, e4, e5, e6⟩ := RegularInsert_done T hT hv hi hin
      refine ⟨x, w0, e1, ?_, rfl, e4, e3⟩
      have hc : xs.length + 1 ≤ v2.data_.Capacity := by
        rw [e3, hv.1]; split <;> omega
      exact holds_of_pointwise (by simp [length_insertAt xs i x hi, e2, hv.1])
        (by rw [length_insertAt xs i x hi]; exact hc)
        (fun j hj => e5 j (by rw [length_insertAt xs i x hi] at hj; exact hj))
        (fun j hj1 hj2 => e6 j (by rw [length_insertAt xs i x hi] at hj1; exact hj1) hj2)
    · rw [if_neg hfull] at hin ⊢
      obtain ⟨x, w0, e1, e2, e3, e3', e4, e5, e6⟩ := ReallocationInsert_done T hT hv hi hin
      refine ⟨x, w0, e1, ?_, rfl, e4, e3⟩
      exact holds_of_pointwise (by simp [length_insertAt xs i x hi, e2, hv.1])
        (by rw [length_insertAt xs i x hi, e3]; omega)
        (fun j hj => e5 j (by rw [length_insertAt xs i x hi] at hj; exact hj))
        (fun j hj1 hj2 => e6 j (by rw [length_insertAt xs i x hi] at hj1; exact hj1) hj2)

/-- The position returned by a call of `Emplace` that returns is the converted offset. -/
theorem Emplace_ret (T : ElemType σ α) {v : Vector α} {pos : Nat} {a : Arg σ α} {w : σ}
    {v1 : Vector α} {ret : Int} {lk : List α} {w1 : σ}
    (h : Emplace T v pos a w = .done v1 ret lk w1) : ret = toInt32 pos := by
  unfold Emplace at h
  split at h
  · cases h
  · split at h
    · cases h
    · cases h
    · simp only [Outcome.done.injEq] at h
      exact h.2.1.symm

theorem RegularInsert_defined (T : ElemType σ α) {v : Vector α}
    {xs : List α} (hv : v.Holds xs) {i : Nat} (hi : i ≤ xs.length) (hsz : v.size_ < 2 ^ 63)
    {a : Arg σ α} {w : σ} (ha : construct T v.data_.buffer_ a w ≠ none)
    (halloc : RawMemory.Allocate T (if v.size_ = 0 then 1 else v.size_ * 2 % 2 ^ 64) w ≠
      (.short : Allocation α)) :
    RegularInsert T v (i : Int) a w ≠ .undefined := by
  have hlive : ∀ j, j < xs.length → (peek v.data_.buffer_ j).isSome = true := by
    intro j hj
    rw [hv.peek_lt hj, List.getElem?_eq_getElem hj]; rfl
  have hc : xs.length + 1 ≤ (if v.size_ = 0 then 1 else v.size_ * 2 % 2 ^ 64) := by
    rw [← hv.1]; split <;> omega
  intro h
  unfold RegularInsert at h
  generalize (if v.size_ = 0 then 1 else v.size_ * 2 % 2 ^ 64) = c at h hc halloc
  split at h
  · cases h
  · rename_i hs
    exact halloc hs
  · rename_i new_address hblock
    obtain ⟨rfl, _⟩ := Allocate_block hblock
    simp only [Int.toNat_ofNat, RawMemory.Capacity, List.length_replicate] at h
    split at h
    · rename_i hcons
      exact ha hcons
    · cases h
    · rename_i x w0 hcons
      split at h
      · omega
      · split at h
        · split at h
          · rename_i h1
            exact uninitialized_move_n_defined T _ _ _ _ _ _
              (fun k hk => by rw [Nat.zero_add]; exact hlive k (by omega))
              (by simp; omega) h1
          · cases h
          · rename_i old new w2 h1
            obtain ⟨A0, _, A2, _, _⟩ := uninitialized_move_n_ok T _ _ _ _ _ _ _ _ _ h1
            split at h
            · rename_i h2
              refine uninitialized_move_n_defined T _ _ _ _ _ _ (fun k hk => ?_) ?_ h2
              · rw [A0.2]; exact hlive _ (by rw [hv.1] at hk; omega)
              · rw [A2, hv.1]; simp; omega
            · cases h
            · cases h
        · split at h
          · rename_i h1
            exact uninitialized_copy_n_defined T _ _ _ _ _ _
              (fun k hk => by rw [Nat.zero_add]; exact hlive k (by omega))
              (by simp; omega) h1
          · cases h
          · rename_i new w2 h1
            obtain ⟨A2, _, _⟩ := uninitialized_copy_n_ok T _ _ _ _ _ _ _ _ h1
            split at h
            · rename_i h2
              refine uninitialized_copy_n_defined T _ _ _ _ _ _ (fun k hk => ?_) ?_ h2
              · exact hlive _ (by rw [hv.1] at hk; omega)
              · rw [A2, hv.1]; simp; omega
            · cases h
            · cases h

theorem ReallocationInsert_defined (T : ElemType σ α) {v : Vector α}
    {xs : List α} (hv : v.Holds xs) {i : Nat} (hi : i ≤ xs.length)
    (hcap : xs.length < v.data_.Capacity) {a : Arg σ α} {w : σ}
    (ha : construct T v.data_.buffer_ a w ≠ none) :
    ReallocationInsert T v (i : Int) i a w ≠ .undefined := by
  have hsz := hv.1
  have hlive : ∀ j, j < xs.length → (peek v.data_.buffer_ j).isSome = true := by
    intro j hj
    rw [hv.peek_lt hj, List.getElem?_eq_getElem hj]; rfl
  have hcap' : xs.length < v.data_.buffer_.length := hcap
  intro h
  unfold ReallocationInsert at h
  simp only [Int.toNat_ofNat, show ¬ ((i : Int) < 0) from by omega, if_false] at h
  split at h
  · split at h
    · omega
    · split at h
      · rename_i hcons
        exact ha hcons
      · cases h
      · cases h
  · rename_i hpos
    split at h
    · rename_i hcons
      exact ha hcons
    · cases h
    · split at h
      · omega
      · split at h
        · rename_i hback
          have := hlive (v.size_ - 1) (by omega)
          rw [hback] at this
          cases this
        · rename_i back hback
          split at h
          · cases h
          · rename_i y back1 w2 hmv
            have hl1 : ∀ j, j < xs.length → (peek ((v.data_.buffer_.set (v.size_ - 1)
                (some back1)).set v.size_ (some y)) j).isSome = true := by
              intro j hj
              rw [peek_set_some, if_neg (by omega), peek_set_some]
              split
              · rfl
              · exact hlive j hj
            split at h
            · rename_i hmb
              unfold move_backward at hmb
              rw [if_neg (by omega)] at hmb
              have hmb1 : move_backward_n T
                  ((v.data_.buffer_.set (v.size_ - 1) (some back1)).set v.size_ (some y))
                  (v.size_ - 1 - i) (v.size_ - 1) (v.size_ - 1 + 1) w2 = .ub := by
                rw [show v.size_ - 1 + 1 = v.size_ by omega]; exact hmb
              exact move_backward_n_defined T _ _ _ _ (by omega)
                (fun j hj1 hj2 => hl1 j (by omega)) hmb1
            · cases h
            · rename_i mem2 w3 hmb
              unfold move_backward at hmb
              rw [if_neg (by omega)] at hmb
              have hls := move_backward_n_live T _ _ _ _ _ _ _ (Or.inl hmb)
              split at h
              · rename_i hd
                have := hl1 i (by omega)
                rw [← hls.2 i, hd] at this
                cases this
              · split at h <;> cases h

theorem Emplace_defined (T : ElemType σ α) {v : Vector α}
    {xs : List α} (hv : v.Holds xs) {i : Nat} (hi : i ≤ xs.length) (hi31 : i < 2 ^ 31)
    (hsz : v.size_ < 2 ^ 63) {a : Arg σ α} {w : σ}
    (ha : construct T v.data_.buffer_ a w ≠ none)
    (halloc : RawMemory.Allocate T (if v.size_ = 0 then 1 else v.size_ * 2 % 2 ^ 64) w ≠
      (.short : Allocation α)) :
    Emplace T v i a w ≠ .undefined := by
  intro h
  unfold Emplace at h
  rw [if_neg (by rw [hv.1]; omega), toInt32_of_lt hi31] at h
  split at h
  · rename_i hin
    by_cases hfull : v.data_.Capacity ≤ v.size_
    · rw [if_pos hfull] at hin
      exact RegularInsert_defined T hv hi hsz ha halloc hin
    · rw [if_neg hfull] at hin
      exact ReallocationInsert_defined T hv hi (by rw [← hv.1]; omega) ha hin
  · cases h
  · cases h

/-- No exception leaves `RegularInsert` once the storage has been obtained and the new
element constructed, when the constructor used by the transfer does not throw. -/
theorem RegularInsert_noraise (T : ElemType σ α)
    (hm : (T.nothrowMove || !T.copyConstructible) = true →
      ∀ x w, (T.moveCtor x w).1.isSome = true)
    (hcp : (T.nothrowMove || !T.copyConstructible) = false →
      ∀ x w, (T.copyCtor x w).1.isSome = true)
    {v : Vector α} {diff : Int} {a : Arg σ α} {w : σ} {x : α} {w0 : σ}
    (ha : construct T v.data_.buffer_ a w = some (some x, w0))
    (halloc : RawMemory.Allocate T (if v.size_ = 0 then 1 else v.size_ * 2 % 2 ^ 64) w ≠
      (.bad_alloc : Allocation α))
    {v1 : Vector α} {lk : List α} {w1 : σ} :
    RegularInsert T v diff a w ≠ .raised v1 lk w1 := by
  intro h
  unfold RegularInsert at h
  generalize (if v.size_ = 0 then 1 else v.size_ * 2 % 2 ^ 64) = c at h halloc
  rw [ha] at h
  split at h
  · rename_i hb
    exact halloc hb
  · cases h
  · simp only at h
    split at h
    · cases h
    · split at h
      · rename_i hbr
        split at h
        · cases h
        · rename_i h1
          exact uninitialized_move_n_noThrow T (hm hbr) _ _ _ _ _ _ _ _ h1
        · split at h
          · cases h
          · rename_i h2
            exact uninitialized_move_n_noThrow T (hm hbr) _ _ _ _ _ _ _ _ h2
          · cases h
      · rename_i hbr
        have hbr1 : (T.nothrowMove || !T.copyConstructible) = false := by
          cases hx : (T.nothrowMove || !T.copyConstructible)
          · rfl
          · exact absurd hx hbr
        split at h
        · cases h
        · rename_i h1
          exact uninitialized_copy_n_noThrow T (hcp hbr1) _ _ _ _ _ _ _ _ h1
        · split at h
          · cases h
          · rename_i h2
            exact uninitialized_copy_n_noThrow T (hcp hbr1) _ _ _ _ _ _ _ _ h2
          · cases h

/-- No exception leaves `ReallocationInsert` once the new element has been constructed,
when the move operations of `T` do not throw. -/
theorem ReallocationInsert_noraise (T : ElemType σ α)
    (hm : ∀ x w, (T.moveCtor x w).1.isSome = true)
    (hma : ∀ d s w, (T.moveAssign d s w).1 = true)
    {v : Vector α} {diff : Int} {pos : Nat} {a : Arg σ α} {w : σ} {x : α} {w0 : σ}
    (ha : construct T v.data_.buffer_ a w = some (some x, w0))
    {v1 : Vector α} {lk : List α} {w1 : σ} :
    ReallocationInsert T v diff pos a w ≠ .raised v1 lk w1 := by
  intro h
  unfold ReallocationInsert at h
  rw [ha] at h
  simp only at h
  split at h
  · split at h <;> cases h
  · split at h
    · cases h
    · split at h
      · cases h
      · rename_i back hback
        split at h
        · rename_i back1 w2 hmv
          have := hm back w0
          rw [hmv] at this
          cases this
        · split at h
          · cases h
          · split at h
            · cases h
            · rename_i mem2 w3 hmb
              unfold move_backward at hmb
              split at hmb
              · cases hmb
              · exact move_backward_n_noThrow T hma _ _ _ _ _ _ _ hmb
            · split at h
              · cases h
              · rename_i d hd
                split at h
                · rename_i d1 s1 w4 hasg
                  have hd1 := congrArg Prod.fst hasg
                  rw [hma] at hd1
                  cases hd1
                · cases h

theorem map_some_filterMap_id : ∀ (l : Slots α), (∀ o ∈ l, o ≠ none) →
    (l.filterMap id).map some = l
  | [], _ => rfl
  | none :: _, h => absurd rfl (h none (List.mem_cons_self _ _))
  | some x :: l, h => by
    rw [List.filterMap_cons_some (by rfl), List.map_cons,
      map_some_filterMap_id l (fun o ho => h o (List.mem_cons_of_mem _ ho))]

theorem Vector.WF.holds {v : Vector α} (h : v.WF) :
    v.Holds (live (v.data_.buffer_.take v.size_)) := by
  obtain ⟨h1, h2, h3⟩ := h
  have hsome : ∀ o ∈ v.data_.buffer_.take v.size_, o ≠ none := by
    intro o ho
    obtain ⟨j, hj⟩ := List.mem_iff_getElem?.mp ho
    rw [List.getElem?_take] at hj
    split at hj
    · rename_i hlt
      intro ho
      subst ho
      have := h2 j hlt
      rw [peek_eq_none.mpr (Or.inr hj)] at this
      cases this
    · cases hj
  have hmap := map_some_filterMap_id _ hsome
  have hlen : (live (v.data_.buffer_.take v.size_)).length = v.size_ := by
    have := congrArg List.length hmap
    rw [List.length_map, List.length_take] at this
    have h1' : v.size_ ≤ v.data_.buffer_.length := h1
    rw [Nat.min_eq_left h1'] at this
    exact this
  refine ⟨hlen.symm, ?_, by rw [hlen]; exact h1⟩
  have hdrop : v.data_.buffer_.drop v.size_ =
      List.replicate (v.data_.Capacity - v.size_) none := by
    rw [List.eq_replicate_iff]
    refine ⟨by simp [RawMemory.Capacity], fun o ho => ?_⟩
    obtain ⟨j, hj⟩ := List.mem_iff_getElem?.mp ho
    rw [List.getElem?_drop] at hj
    have := h3 (v.size_ + j) (by omega)
    rcases peek_eq_none.mp this with e | e
    · rw [e] at hj; cases hj
    · rw [e] at hj; exact (Option.some.inj hj).symm
  rw [hlen]
  unfold live
  rw [hmap, ← hdrop, List.take_append_drop]

/-- Without any assumption on what the constructors of `T` return: after a call of
`RegularInsert` that returns, the slots `0 .. size_` of the new storage are live. -/
theorem RegularInsert_live (T : ElemType σ α) {v : Vector α} {i : Nat}
    (hi : i ≤ v.size_) {a : Arg σ α} {w : σ}
    {v1 : Vector α} {u : Unit} {lk : List α} {w1 : σ}
    (h : RegularInsert T v (i : Int) a w = .done v1 u lk w1) :
    v1.size_ = v.size_ ∧
    v1.data_.Capacity = (if v.size_ = 0 then 1 else v.size_ * 2) ∧
    (∀ j, j ≤ v.size_ → (peek v1.data_.buffer_ j).isSome = true) ∧
    (∀ j, v.size_ < j → peek v1.data_.buffer_ j = none) := by
  obtain ⟨c, x, w0, old, new, new1, _, hc, hcons, hic, rfl, rfl, hls, A2, A3, A4, B2, B3, B4⟩ :=
    RegularInsert_inv T h
  have B4' : ∀ k, k < v.size_ - i → ∃ y : α, new1[i + 1 + k]? = some (some y) :=
    fun k hk => let ⟨_, y, _, e, _⟩ := B4 k hk; ⟨y, e⟩
  obtain ⟨hfit, hceq⟩ := RegularInsert_fits hi hc hic A2 B2 B4'
  refine ⟨rfl, ?_, fun j hj => ?_, fun j hj => ?_⟩
  · show new1.length = _
    rw [B2, A2, ← hceq]; simp
  · show (peek new1 j).isSome = true
    by_cases h1 : j < i
    · obtain ⟨_, y, _, e, _⟩ := A4 j h1
      rw [Nat.zero_add, ← B3 j (by omega)] at e
      rw [peek_eq_some.mpr e]; rfl
    · by_cases h2 : j = i
      · subst h2
        have : new1[j]? = some (some x) := by
          rw [B3 j (by omega), A3 j (by omega), List.getElem?_set_self (by simp; omega)]
        rw [peek_eq_some.mpr this]; rfl
      · obtain ⟨y, e⟩ := B4' (j - i - 1) (by omega)
        rw [show i + 1 + (j - i - 1) = j by omega] at e
        rw [peek_eq_some.mpr e]; rfl
  · show peek new1 j = none
    apply peek_eq_none.mpr
    rw [B3 j (by omega), A3 j (by omega), List.getElem?_set_ne (by omega),
      List.getElem?_replicate]
    split
    · exact Or.inr rfl
    · exact Or.inl rfl

/-- With a negative offset `RegularInsert` does not return: once the new element has
been constructed its placement touches memory before the block. -/
theorem RegularInsert_negative (T : ElemType σ α) {v : Vector α} {diff : Int}
    (hneg : diff < 0) {a : Arg σ α} {w : σ} {v1 : Vector α} {u : Unit} {lk : List α}
    {w1 : σ} : RegularInsert T v diff a w ≠ .done v1 u lk w1 := by
  intro h
  unfold RegularInsert at h
  generalize (if v.size_ = 0 then 1 else v.size_ * 2 % 2 ^ 64) = c at h
  split at h
  · cases h
  · split at h <;> cases h
  · split at h
    · cases h
    · cases h
    · rw [if_pos (Or.inl hneg)] at h
      cases h

/-- The same, as an equation: with a negative offset, a storage and a constructed
element `RegularInsert` has undefined behaviour. -/
theorem RegularInsert_negative_undefined (T : ElemType σ α) {v : Vector α} {diff : Int}
    (hneg : diff < 0) {a : Arg σ α} {w : σ} {x : α} {w0 : σ}
    (ha : construct T v.data_.buffer_ a w = some (some x, w0))
    (halloc : RawMemory.Allocate T (if v.size_ = 0 then 1 else v.size_ * 2 % 2 ^ 64) w ≠
      (.bad_alloc : Allocation α)) :
    RegularInsert T v diff a w = .undefined := by
  unfold RegularInsert
  generalize (if v.size_ = 0 then 1 else v.size_ * 2 % 2 ^ 64) = c at halloc ⊢
  rw [ha]
  split
  · rename_i hb
    exact absurd hb halloc
  · rfl
  · simp only [if_pos (Or.inl hneg : diff < 0 ∨ _)]

theorem construct_value (T : ElemType σ α) (hT : T.Regular) {mem : Slots α} {a : Arg σ α}
    {w w0 : σ} {x : α} (h : construct T mem a w = some (some x, w0)) (x0 : α)
    (ha : a = .copyOf (.obj x0) ∨ a = .moveOf x0 ∨
      ∃ k, a = .copyOf (.own k) ∧ peek mem k = some x0) : x = x0 := by
  rcases ha with rfl | rfl | ⟨k, rfl, hk⟩
  · simp only [construct, Option.some.injEq] at h
    exact hT.1 _ _ _ _ h
  · simp only [construct, Option.some.injEq, Prod.mk.injEq] at h
    have : T.moveCtor x0 w = (some x, (T.moveCtor x0 w).2.1, w0) := by
      rw [← h.1, ← h.2]
    exact hT.2.1 _ _ _ _ _ this
  · simp only [construct, hk, Option.some.injEq] at h
    exact hT.1 _ _ _ _ h

theorem ReallocationInsert_end_done (T : ElemType σ α) {v : Vector α} {diff : Int}
    {a : Arg σ α} {w : σ} {v1 : Vector α} {u : Unit} {lk : List α} {w1 : σ}
    (h : ReallocationInsert T v diff v.size_ a w = .done v1 u lk w1) :
    v1.size_ = v.size_ ∧ v1.data_.Capacity = v.data_.Capacity := by
  unfold ReallocationInsert at h
  simp only [if_true] at h
  split at h
  · cases h
  · split at h
    · cases h
    · cases h
    · simp only [Outcome.done.injEq] at h
      obtain ⟨rfl, _, _, _⟩ := h
      exact ⟨rfl, by simp [RawMemory.Capacity]⟩

/-- An `Emplace` at `end()` into spare capacity: the element is constructed in slot
`size_`; the position returned is the converted offset. -/
theorem Emplace_end_inplace (T : ElemType σ α) {v : Vector α} (hcap : v.size_ < v.Capacity)
    {a : Arg σ α} {w : σ} {x : α} {w1 : σ}
    (ha : construct T v.data_.buffer_ a w = some (some x, w1)) :
    Emplace T v v.size_ a w =
      .done ⟨⟨v.data_.buffer_.set v.size_ (some x)⟩, v.size_ + 1⟩ (toInt32 v.size_) [] w1 := by
  have hcap1 : ¬ v.data_.Capacity ≤ v.size_ := by
    unfold Vector.Capacity at hcap; omega
  have hcap2 : ¬ v.data_.buffer_.length ≤ v.size_ := hcap1
  unfold Emplace
  rw [if_neg (Nat.lt_irrefl _)]
  simp only [if_neg hcap1]
  unfold ReallocationInsert
  simp only [if_true, if_neg hcap2, ha]

/-- An `Emplace` into a full vector at a position whose converted offset is negative has
undefined behaviour once the storage is obtained and the new element constructed. -/
theorem Emplace_full_negative (T : ElemType σ α) (v : Vector α) (pos : Nat)
    (hpos : pos ≤ v.size_) (hfull : v.Capacity ≤ v.size_) (hneg : toInt32 pos < 0)
    (a : Arg σ α) (w : σ) (x : α) (w0 : σ)
    (ha : construct T v.data_.buffer_ a w = some (some x, w0))
    (halloc : RawMemory.Allocate T (if v.size_ = 0 then 1 else v.size_ * 2 % 2 ^ 64) w ≠
      (.bad_alloc : Allocation α)) :
    Emplace T v pos a w = .undefined := by
  unfold Emplace
  rw [if_neg (by omega)]
  simp only [if_pos (show v.data_.Capacity ≤ v.size_ from hfull),
    RegularInsert_negative_undefined T hneg ha halloc]

theorem EmplaceBack_capacity (T : ElemType σ α) {v : Vector α}
    (hv : v.size_ ≤ v.Capacity) {a : Arg σ α} {w : σ} {v1 : Vector α} {ret : Int}
    {lk : List α} {w1 : σ} (h : EmplaceBack T v a w = .done v1 ret lk w1) :
    v1.size_ ≤ v1.Capacity ∧ GrowthStep v v1 := by
  unfold EmplaceBack Emplace at h
  rw [if_neg (Nat.lt_irrefl _)] at h
  unfold GrowthStep Vector.Capacity at *
  split at h
  · cases h
  · cases h
  · rename_i v2 u lk2 w2 hin
    simp only [Outcome.done.injEq] at h
    obtain ⟨rfl, _, _, _⟩ := h
    by_cases hfull : v.data_.Capacity ≤ v.size_
    · rw [if_pos hfull] at hin
      rcases toInt32_cases v.size_ with hneg | ⟨d, hd, hdle, _⟩
      · exact absurd hin (RegularInsert_negative T hneg)
      · rw [hd] at hin
        obtain ⟨e1, e2, _, _⟩ := RegularInsert_live T hdle hin
        have heq : v.size_ = v.data_.Capacity := Nat.le_antisymm hv hfull
        simp only [e1, e2]
        rw [heq]
        split <;> omega
    · rw [if_neg hfull] at hin
      obtain ⟨e1, e2⟩ := ReallocationInsert_end_done T hin
      simp only [e1, e2]
      omega

/-- Counterexample to C2 as stated.  On a heap that cannot provide the doubled storage,
`PushBack(T&&)` on the full one-element vector throws `std::bad_alloc` although the move
constructor is non-throwing.  And on a full vector of `2 ^ 31` elements the offset of
`end()` does not fit the `int` that `Emplace` keeps it in: the new element is placed
`2 ^ 31` slots before the new block, which is undefined behaviour. -/
theorem PushBack_move_full_can_fail :
    (scarceT.nothrowMove = true ∧ 0 < (mk [1] 0 : Vector Nat).size_ ∧
      (mk [1] 0 : Vector Nat).size_ = (mk [1] 0 : Vector Nat).Capacity ∧
      PushBackMove scarceT (mk [1] 0) 2 () = .raised (mk [1] 0) [] ()) ∧
    (plainT.nothrowMove = true ∧ 0 < full31.size_ ∧ full31.size_ = full31.Capacity ∧
      PushBackMove plainT full31 1 () = .undefined) := by
  have hcap : full31.Capacity = 2 ^ 31 := by
    simp only [full31, Vector.Capacity, RawMemory.Capacity, List.length_replicate]
  have hsize : full31.size_ = 2 ^ 31 := rfl
  refine ⟨by decide, rfl, by rw [hsize]; decide, by rw [hcap, hsize], ?_⟩
  exact Emplace_full_negative plainT full31 full31.size_ (Nat.le_refl _)
    (by rw [hcap, hsize]) (by rw [hsize]; decide) (.moveOf 1) () 1 () rfl
    (by rw [hsize]; decide)

/-- C2, amended: on a non-empty vector with `size == capacity`, fewer than `2 ^ 31`
elements and an element type whose move constructor is non-throwing, `PushBack(T&&)`
does one of two things, whatever the copy operations of the type do.  When the
allocation of the doubled storage fails, `std::bad_alloc` leaves the call with the vector
as it was.  When the allocation yields the storage, the call returns normally; afterwards
the size is one more, the capacity has doubled, the slots `0 .. size` (the prior elements
and the appended one) hold live objects, the invariant holds, and, when moves carry the
value, the vector holds the old elements followed by the appended value. -/
theorem PushBack_move_full_succeeds (T : ElemType σ α) (hnt : T.nothrowMove = true)
    (v : Vector α) (hwf : v.WF) (hne : 0 < v.size_) (hfull : v.size_ = v.Capacity)
    (hsz : v.size_ < 2 ^ 31) (x : α) (w : σ) :
    (RawMemory.Allocate T (2 * v.size_) w = (.bad_alloc : Allocation α) →
      PushBackMove T v x w = .raised v [] w) ∧
    ((RawMemory.Allocate T (2 * v.size_) w : Allocation α).isBlock = true →
      ∃ v1 w1, PushBackMove T v x w = .done v1 v.size_ [] w1 ∧
        v1.size_ = v.size_ + 1 ∧ v1.Capacity = 2 * v.Capacity ∧
        (∀ i, i ≤ v.size_ → (peek v1.data_.buffer_ i).isSome = true) ∧ v1.WF ∧
        (T.Regular → ∀ xs, v.Holds xs → v1.Holds (xs ++ [x]))) := by
  have hholds := hwf.holds
  have hlen := hholds.1
  have hgrow : (if v.size_ = 0 then 1 else v.size_ * 2 % 2 ^ 64) = 2 * v.size_ := by
    rw [if_neg (by omega), Nat.mod_eq_of_lt (by omega), Nat.mul_comm]
  have hcapsz : v.data_.Capacity ≤ v.size_ := by rw [hfull]; exact Nat.le_refl _
  constructor
  · intro hbad
    unfold PushBackMove EmplaceBack Emplace
    rw [if_neg (Nat.lt_irrefl _)]
    simp only [if_pos hcapsz]
    unfold RegularInsert
    rw [hgrow, hbad]
  intro hblock
  have hnb : RawMemory.Allocate T (if v.size_ = 0 then 1 else v.size_ * 2 % 2 ^ 64) w ≠
      (.bad_alloc : Allocation α) := by
    rw [hgrow]; intro hb; rw [hb] at hblock; cases hblock
  have hns : RawMemory.Allocate T (if v.size_ = 0 then 1 else v.size_ * 2 % 2 ^ 64) w ≠
      (.short : Allocation α) := by
    rw [hgrow]; intro hb; rw [hb] at hblock; cases hblock
  have hcons : ∃ y w0, construct T v.data_.buffer_ (.moveOf x) w = some (some y, w0) := by
    have := T.nothrow_sound hnt x w
    obtain ⟨y, hy⟩ := Option.isSome_iff_exists.mp this
    exact ⟨y, (T.moveCtor x w).2.2, by simp only [construct, hy]⟩
  obtain ⟨y, w0, hy⟩ := hcons
  have hdef : Emplace T v v.size_ (.moveOf x) w ≠ .undefined :=
    Emplace_defined T hholds (Nat.le_of_eq hlen) hsz (by omega)
      (by rw [hy]; exact Option.some_ne_none _) hns
  unfold PushBackMove EmplaceBack
  unfold Emplace at hdef ⊢
  rw [if_neg (Nat.lt_irrefl _), toInt32_of_lt hsz] at hdef ⊢
  simp only [if_pos hcapsz] at hdef ⊢
  rcases hr : RegularInsert T v (v.size_ : Int) (.moveOf x) w with
    ⟨v2, u, lk, w2⟩ | ⟨v2, lk, w2⟩ | _
  · obtain ⟨e1, e2, e3, e4⟩ := RegularInsert_live T (Nat.le_refl _) hr
    have hlk : lk = [] := by
      obtain ⟨_, _, _, old, _, _, _, _, _, _, _, rfl, hls, _⟩ := RegularInsert_inv T hr
      exact live_destroy_eq_nil hholds hls
    subst hlk
    have hcap : v2.data_.Capacity = 2 * v.Capacity := by
      rw [e2, if_neg (by omega), hfull]; omega
    refine ⟨⟨v2.data_, v2.size_ + 1⟩, w2, rfl, by simp [e1], hcap, e3, ?_, ?_⟩
    · refine ⟨?_, fun i hi => e3 i ?_, fun i hi => e4 i ?_⟩
      · show v2.size_ + 1 ≤ v2.data_.Capacity
        rw [hcap, e1, hfull]
        have : 0 < v.Capacity := by rw [← hfull]; exact hne
        omega
      · simp only [e1] at hi; omega
      · simp only [e1] at hi; omega
    · intro hT xs hxs
      have hE : Emplace T v v.size_ (.moveOf x) w =
          .done ⟨v2.data_, v2.size_ + 1⟩ (v.size_ : Int) [] w2 := by
        unfold Emplace
        rw [if_neg (Nat.lt_irrefl _), toInt32_of_lt hsz]
        simp only [if_pos hcapsz, hr]
      obtain ⟨x', w0', c1, c2, _⟩ := Emplace_done T hT hxs (Nat.le_of_eq hxs.1) hsz hE
      have hx' : x' = x := construct_value T hT c1 x (Or.inr (Or.inl rfl))
      rw [hx', hxs.1, List.take_length, List.drop_length] at c2
      exact c2
  · exact absurd hr (RegularInsert_noraise T (fun _ => T.nothrow_sound hnt)
      (fun hb => by rw [hnt] at hb; cases hb) hy hnb)
  · rw [hr] at hdef
    exact absurd rfl hdef

/-- The third scenario of `TestPushBackStrongException`: `PushBack(std::move(a))` on
`Vector<ThrowObj> v(1)` while every copy throws. -/
theorem PushBack_move_full_succeeds_witness :
    (ThrowObj.nothrowMove = true ∧ (mk [DEFAULT_COOKIE] 0).WF ∧
      0 < (mk [DEFAULT_COOKIE] 0).size_ ∧
      (mk [DEFAULT_COOKIE] 0).size_ = (mk [DEFAULT_COOKIE] 0).Capacity ∧
      (mk [DEFAULT_COOKIE] 0).size_ < 2 ^ 31 ∧
      (RawMemory.Allocate ThrowObj (2 * (mk [DEFAULT_COOKIE] 0).size_) copyThrows :
        Allocation Nat).isBlock = true) ∧
    PushBackMove ThrowObj (mk [DEFAULT_COOKIE] 0) DEFAULT_COOKIE copyThrows =
      .done (mk [DEFAULT_COOKIE, DEFAULT_COOKIE] 0) 1 [] copyThrows ∧
    ∃ v1 w1, PushBackMove ThrowObj (mk [DEFAULT_COOKIE] 0) DEFAULT_COOKIE copyThrows =
        .done v1 (mk [DEFAULT_COOKIE] 0).size_ [] w1 ∧
      v1.size_ = (mk [DEFAULT_COOKIE] 0).size_ + 1 ∧
      v1.Capacity = 2 * (mk [DEFAULT_COOKIE] 0).Capacity ∧
      (∀ i, i ≤ (mk [DEFAULT_COOKIE] 0).size_ → (peek v1.data_.buffer_ i).isSome = true) ∧
      v1.WF ∧
      (ThrowObj.Regular → ∀ xs, (mk [DEFAULT_COOKIE] 0).Holds xs →
        v1.Holds (xs ++ [DEFAULT_COOKIE])) :=
  have hwf : (mk [DEFAULT_COOKIE] 0).WF :=
    Vector.Holds.wf (show (mk [DEFAULT_COOKIE] 0).Holds [DEFAULT_COOKIE] from
      ⟨rfl, rfl, Nat.le_refl _⟩)
  ⟨⟨rfl, hwf, by decide, rfl, by decide, by decide⟩, by decide,
    (PushBack_move_full_succeeds ThrowObj rfl (mk [DEFAULT_COOKIE] 0) hwf (by decide) rfl
      (by decide) DEFAULT_COOKIE copyThrows).2 (by decide)⟩

/-- A call of `Emplace` at a position below `2 ^ 31` returns when no operation of `T`
throws, the arguments construct an element and, on a full vector, the allocation yields
the storage. -/
theorem Emplace_returns (T : ElemType σ α) (hT : T.Regular) (hN : T.NoThrow)
    {v : Vector α} {xs : List α} (hv : v.Holds xs) {i : Nat} (hi : i ≤ xs.length)
    (hi31 : i < 2 ^ 31) (hsz : v.size_ < 2 ^ 63) {a : Arg σ α} {w : σ} {x : α} {w0 : σ}
    (ha : construct T v.data_.buffer_ a w = some (some x, w0))
    (halloc : v.Capacity ≤ v.size_ →
      (RawMemory.Allocate T (if v.size_ = 0 then 1 else v.size_ * 2 % 2 ^ 64) w :
        Allocation α).isBlock = true) :
    ∃ v1 w1, Emplace T v i a w = .done v1 (i : Int) [] w1 ∧
      v1.Holds (xs.take i ++ x :: xs.drop i) := by
  rcases hr : Emplace T v i a w with ⟨v1, ret, lk, w1⟩ | ⟨v1, lk, w1⟩ | _
  · obtain ⟨x1, w2, c1, c2, c3, c4, _⟩ := Emplace_done T hT hv hi hi31 hr
    rw [ha] at c1
    simp only [Option.some.injEq, Prod.mk.injEq] at c1
    obtain ⟨rfl, _⟩ := c1
    subst c3 c4
    exact ⟨v1, w1, rfl, c2⟩
  · exfalso
    unfold Emplace at hr
    rw [if_neg (by rw [hv.1]; omega)] at hr
    split at hr
    · cases hr
    · rename_i v2 lk2 w2 hin
      by_cases hfull : v.data_.Capacity ≤ v.size_
      · rw [if_pos hfull] at hin
        have hb := halloc hfull
        refine RegularInsert_noraise T (fun _ => hN.2.2.1) (fun _ => hN.2.1) ha ?_ hin
        intro hbad
        rw [hbad] at hb
        cases hb
      · rw [if_neg hfull] at hin
        exact ReallocationInsert_noraise T hN.2.2.1 hN.2.2.2.2 ha hin
    · cases hr
  · exfalso
    refine Emplace_defined T hv hi hi31 hsz (by rw [ha]; exact Option.some_ne_none _) ?_ hr
    intro hs
    by_cases hfull : v.Capacity ≤ v.size_
    · have hb := halloc hfull
      rw [hs] at hb
      cases hb
    · -- without a full vector the storage is not asked for: the call is in place
      have hcap : xs.length < v.data_.Capacity := by
        unfold Vector.Capacity at hfull
        rw [← hv.1]; omega
      unfold Emplace at hr
      rw [if_neg (by rw [hv.1]; omega), toInt32_of_lt hi31,
        if_neg (by rw [hv.1]; omega)] at hr
      split at hr
      · rename_i hin
        exact ReallocationInsert_defined T hv hi hcap
          (by rw [ha]; exact Option.some_ne_none _) hin
      · cases hr
      · cases hr

/-- The behaviour of `Emplace` (hence `Insert`) at a position `i ≤ size` below `2 ^ 31`,
on a vector holding `xs`, for an element type whose copies and moves carry the value.
When the call returns, the vector holds `take i xs ++ [x] ++ drop i xs`, where `x` is the
object constructed from the arguments (the inserted value itself for `Insert`, the
pre-call `v[k]` for a reference to an own element); the size is one more and the position
returned is `i`.  The call does return when no operation of `T` throws, the arguments
construct an element and, on a full vector, the allocation yields the storage.  The
statement does not depend on the path taken: `Holds` admits `size == capacity` (new
storage) and `size < capacity` (in-place shift by `move_backward`). -/
theorem Emplace_inserts_at (T : ElemType σ α) (hT : T.Regular) (v : Vector α)
    (xs : List α) (hv : v.Holds xs) (i : Nat) (hi : i ≤ v.size_) (hi31 : i < 2 ^ 31)
    (a : Arg σ α) (w : σ) :
    (∀ v1 ret lk w1, Emplace T v i a w = .done v1 ret lk w1 →
      ∃ x w0, construct T v.data_.buffer_ a w = some (some x, w0) ∧
        (∀ x0, (a = .copyOf (.obj x0) ∨ a = .moveOf x0 ∨
            ∃ k, a = .copyOf (.own k) ∧ xs[k]? = some x0) → x = x0) ∧
        v1.Holds (xs.take i ++ [x] ++ xs.drop i) ∧
        v1.size_ = v.size_ + 1 ∧ ret = (i : Int)) ∧
    (T.NoThrow → v.size_ < 2 ^ 63 →
      (v.Capacity ≤ v.size_ →
        (RawMemory.Allocate T (if v.size_ = 0 then 1 else v.size_ * 2 % 2 ^ 64) w :
          Allocation α).isBlock = true) →
      ∀ x w0, construct T v.data_.buffer_ a w = some (some x, w0) →
        ∃ v1 w1, Emplace T v i a w = .done v1 (i : Int) [] w1 ∧
          v1.Holds (xs.take i ++ [x] ++ xs.drop i)) := by
  have hi' : i ≤ xs.length := by rw [← hv.1]; exact hi
  refine ⟨fun v1 ret lk w1 h => ?_, fun hN hsz halloc x w0 ha => ?_⟩
  · obtain ⟨x, w0, c1, c2, c3, _, _⟩ := Emplace_done T hT hv hi' hi31 h
    refine ⟨x, w0, c1, fun x0 hx0 => ?_, ?_, ?_, c3⟩
    · refine construct_value T hT c1 x0 ?_
      rcases hx0 with e | e | ⟨k, e, hk⟩
      · exact Or.inl e
      · exact Or.inr (Or.inl e)
      · refine Or.inr (Or.inr ⟨k, e, ?_⟩)
        have hlt : k < xs.length := by
          by_contra hge
          rw [List.getElem?_eq_none (Nat.le_of_not_lt hge)] at hk
          cases hk
        rw [hv.peek_lt hlt, hk]
    · rw [List.append_assoc, List.singleton_append]
      exact c2
    · rw [c2.1, length_insertAt xs i x hi', hv.1]
  · obtain ⟨v1, w1, e1, e2⟩ := Emplace_returns T hT hN hv hi' hi31 hsz ha halloc
    refine ⟨v1, w1, e1, ?_⟩
    rw [List.append_assoc, List.singleton_append]
    exact e2

theorem spare31_capacity : spare31.Capacity = 2 ^ 31 + 1 := by
  show (List.replicate (2 ^ 31) (some 0) ++ [none]).length = 2 ^ 31 + 1
  rw [List.length_append, List.length_replicate, List.length_singleton]

/-- C3 (the code does not do what the claim says): `Emplace` keeps the offset of the
position in an `int`.  At a position `pos ≥ 2 ^ 31` a call that returns does not return
the position `pos`: it returns the converted offset `toInt32 pos`, which is below
`2 ^ 31` (negative, a position before `begin()`, for `2 ^ 31 ≤ pos < 2 ^ 32`). -/
theorem Emplace_position_wraps (T : ElemType σ α) (v : Vector α) (pos : Nat)
    (hpos : 2 ^ 31 ≤ pos) (a : Arg σ α) (w : σ) (v1 : Vector α) (ret : Int)
    (lk : List α) (w1 : σ) (h : Emplace T v pos a w = .done v1 ret lk w1) :
    ret = toInt32 pos ∧ ret < 2 ^ 31 ∧ ret ≠ (pos : Int) ∧
      (pos < 2 ^ 32 → ret = (pos : Int) - 2 ^ 32) := by
  have hret := Emplace_ret T h
  subst hret
  exact ⟨rfl, toInt32_lt pos, toInt32_ne_of_le hpos, fun hlt => (toInt32_neg hpos hlt).1⟩

/-- The failing input: `Emplace(end(), 9)` on a vector of `2 ^ 31` elements with one
spare slot.  The element is constructed in slot `2 ^ 31` and the call returns the
position `begin() - 2 ^ 31`. -/
theorem Emplace_position_wraps_witness :
    (2 ^ 31 ≤ 2 ^ 31 ∧
      Emplace plainT spare31 (2 ^ 31) (.moveOf 9) () =
        .done ⟨⟨spare31.data_.buffer_.set (2 ^ 31) (some 9)⟩, 2 ^ 31 + 1⟩
          (-2147483648) [] ()) ∧
    ((-2147483648 : Int) = toInt32 (2 ^ 31) ∧ (-2147483648 : Int) < 2 ^ 31 ∧
      (-2147483648 : Int) ≠ ((2 ^ 31 : Nat) : Int) ∧
      (2 ^ 31 < 2 ^ 32 → (-2147483648 : Int) = ((2 ^ 31 : Nat) : Int) - 2 ^ 32)) :=
  have hcap : spare31.size_ < spare31.Capacity := by
    rw [spare31_capacity]
    exact Nat.lt_succ_self _
  have hE : Emplace plainT spare31 (2 ^ 31) (.moveOf 9) () =
      .done ⟨⟨spare31.data_.buffer_.set (2 ^ 31) (some 9)⟩, 2 ^ 31 + 1⟩
        (-2147483648) [] () :=
    Emplace_end_inplace plainT hcap rfl
  ⟨⟨Nat.le_refl _, hE⟩,
    Emplace_position_wraps plainT spare31 (2 ^ 31) (Nat.le_refl _) (.moveOf 9) () _ _ _ _ hE⟩

/-- Two concrete insertions below `2 ^ 31`: one in the middle through a new storage and
one through the spare capacity. -/
theorem Emplace_inserts_at_witness :
    (plainT.Regular ∧ (mk [1, 2, 3] 0).Holds [1, 2, 3] ∧ 1 ≤ (mk [1, 2, 3] 0).size_ ∧
      1 < 2 ^ 31) ∧
    Emplace plainT (mk [1, 2, 3] 0) 1 (.moveOf 9) () = .done (mk [1, 9, 2, 3] 2) 1 [] () ∧
    Emplace plainT (mk [1, 2, 3] 2) 0 (.copyOf (.own 2)) () =
      .done (mk [3, 1, 2, 3] 1) 0 [] () ∧
    (∃ x w0, construct plainT (mk [1, 2, 3] 0).data_.buffer_ (.moveOf 9) () =
          some (some x, w0) ∧
        (∀ x0, ((.moveOf 9 : Arg Unit Nat) = .copyOf (.obj x0) ∨
            (.moveOf 9 : Arg Unit Nat) = .moveOf x0 ∨
            ∃ k, (.moveOf 9 : Arg Unit Nat) = .copyOf (.own k) ∧ [1, 2, 3][k]? = some x0) →
          x = x0) ∧
        (mk [1, 9, 2, 3] 2).Holds (List.take 1 [1, 2, 3] ++ [x] ++ List.drop 1 [1, 2, 3]) ∧
        (mk [1, 9, 2, 3] 2).size_ = (mk [1, 2, 3] 0).size_ + 1 ∧ (1 : Int) = ((1 : Nat) : Int)) ∧
    (∃ x w0, construct plainT (mk [1, 2, 3] 2).data_.buffer_ (.copyOf (.own 2)) () =
          some (some x, w0) ∧
        (∀ x0, ((.copyOf (.own 2) : Arg Unit Nat) = .copyOf (.obj x0) ∨
            (.copyOf (.own 2) : Arg Unit Nat) = .moveOf x0 ∨
            ∃ k, (.copyOf (.own 2) : Arg Unit Nat) = .copyOf (.own k) ∧
              [1, 2, 3][k]? = some x0) → x = x0) ∧
        (mk [3, 1, 2, 3] 1).Holds (List.take 0 [1, 2, 3] ++ [x] ++ List.drop 0 [1, 2, 3]) ∧
        (mk [3, 1, 2, 3] 1).size_ = (mk [1, 2, 3] 2).size_ + 1 ∧ (0 : Int) = ((0 : Nat) : Int)) :=
  have hreg : plainT.Regular :=
    ⟨fun _ _ _ _ h => by cases h; rfl, fun _ _ _ _ _ h => by cases h; rfl,
      fun _ _ _ _ _ h => by cases h; rfl, fun _ _ _ _ _ _ h => by cases h; rfl⟩
  ⟨⟨hreg, ⟨rfl, rfl, by decide⟩, by decide, by decide⟩, by decide, by decide,
    (Emplace_inserts_at plainT hreg (mk [1, 2, 3] 0) [1, 2, 3] ⟨rfl, rfl, by decide⟩ 1
      (by decide) (by decide) (.moveOf 9) ()).1 (mk [1, 9, 2, 3] 2) 1 [] () (by decide),
    (Emplace_inserts_at plainT hreg (mk [1, 2, 3] 2) [1, 2, 3] ⟨rfl, rfl, by decide⟩ 0
      (by decide) (by decide) (.copyOf (.own 2)) ()).1 (mk [3, 1, 2, 3] 1) 0 [] () (by decide)⟩

theorem appends_chain (T : ElemType σ α) : ∀ (args : List (Arg σ α)) (v : Vector α)
    (w : σ) (vs : List (Vector α)), v.size_ ≤ v.Capacity → appends T v args w = some vs →
    List.Chain GrowthStep v vs := by
  intro args
  induction args with
  | nil =>
    intro v w vs _ h
    simp only [appends, Option.some.injEq] at h
    subst h
    exact List.Chain.nil
  | cons a rest ih =>
    intro v w vs hv h
    rw [appends] at h
    split at h
    · rename_i v1 ret lk w1 hstep
      obtain ⟨h1, h2⟩ := EmplaceBack_capacity T hv hstep
      split at h
      · rename_i vs1 hrest
        simp only [Option.some.injEq] at h
        subst h
        exact List.Chain.cons h2 (ih v1 w1 vs1 h1 hrest)
      · cases h
    · cases h

/-- C4: along any run of appends that all return, started on a vector with
`size ≤ capacity`, each capacity is at least the one before, and a capacity that differs
from the one before equals `max (2 * previous) 1`: the starting vector followed by the
vectors after each append form a chain for `GrowthStep`. -/
theorem appends_capacity_growth (T : ElemType σ α) (v : Vector α)
    (hv : v.size_ ≤ v.Capacity) (args : List (Arg σ α)) (w : σ) (vs : List (Vector α))
    (h : appends T v args w = some vs) :
    vs.length = args.length ∧ List.Chain GrowthStep v vs := by
  refine ⟨?_, appends_chain T args v w vs hv h⟩
  clear hv
  induction args generalizing v w vs with
  | nil =>
    simp only [appends, Option.some.injEq] at h
    subst h
    rfl
  | cons a rest ih =>
    rw [appends] at h
    split at h
    · split at h
      · rename_i vs1 hrest
        simp only [Option.some.injEq] at h
        subst h
        simp only [List.length_cons, ih _ _ _ hrest]
      · cases h
    · cases h

/-- Five appends to an empty vector: the capacities run 0, 1, 2, 4, 4, 8. -/
theorem appends_capacity_growth_witness :
    (Vector.empty : Vector Nat).size_ ≤ (Vector.empty : Vector Nat).Capacity ∧
    appends plainT Vector.empty
      [.moveOf 1, .copyOf (.obj 2), .moveOf 3, .copyOf (.own 0), .moveOf 5] () =
      some [mk [1] 0, mk [1, 2] 0, mk [1, 2, 3] 1, mk [1, 2, 3, 1] 0,
        mk [1, 2, 3, 1, 5] 3] ∧
    List.Chain GrowthStep (Vector.empty : Vector Nat)
      [mk [1] 0, mk [1, 2] 0, mk [1, 2, 3] 1, mk [1, 2, 3, 1] 0, mk [1, 2, 3, 1, 5] 3] :=
  ⟨by decide, by decide,
    (appends_capacity_growth plainT Vector.empty (by decide)
      [.moveOf 1, .copyOf (.obj 2), .moveOf 3, .copyOf (.own 0), .moveOf 5] ()
      [mk [1] 0, mk [1, 2] 0, mk [1, 2, 3] 1, mk [1, 2, 3, 1] 0, mk [1, 2, 3, 1, 5] 3]
      (by decide)).2⟩

theorem Vector.WF.of_liveSame {v : Vector α} (hv : v.WF) {old : Slots α}
    (h : LiveSame v.data_.buffer_ old) : (Vector.mk ⟨old⟩ v.size_).WF := by
  obtain ⟨h1, h2, h3⟩ := hv
  refine ⟨?_, fun i hi => ?_, fun i hi => ?_⟩
  · show v.size_ ≤ old.length
    rw [h.1]; exact h1
  · show (peek old i).isSome = true
    rw [h.2 i]; exact h2 i hi
  · show peek old i = none
    have := h.2 i
    rw [h3 i hi] at this
    simpa using this

theorem live_eq_nil_of_throw {new : Slots α} {c dfirst n : Nat}
    (h : ∀ j, new[j]? = (List.replicate c (none : Option α))[j]? ∨
      (dfirst ≤ j ∧ j < dfirst + n ∧ new[j]? = some none)) : live new = [] := by
  apply live_eq_nil
  intro j
  apply peek_eq_none.mpr
  rcases h j with e | ⟨_, _, e⟩
  · rw [e, List.getElem?_replicate]
    split
    · exact Or.inr rfl
    · exact Or.inl rfl
  · exact Or.inr e

/-- Counterexample to C5 as stated, with a move-only type whose move constructor can
throw: `Reserve(3)` on the vector `[1, 7]` moves the element `1` into the new storage
before the move of `7` throws; the exception leaves the vector with its element of
index 0 in the moved-from state. -/
theorem Reserve_move_only_throw_changes_element :
    (mk [1, 7] 0 : Vector Nat).Capacity < 3 ∧
    Reserve moveOnlyT (mk [1, 7] 0) 3 () = .raised (mk [0, 7] 0) [] () ∧
    peek (mk [0, 7] 0 : Vector Nat).data_.buffer_ 0 ≠
      peek (mk [1, 7] 0 : Vector Nat).data_.buffer_ 0 := by
  decide

/-- C5, amended: when an exception leaves `Reserve(n)`, `n > capacity`, on a vector that
satisfies the invariant (the allocation of the new storage failed or the transfer of the
elements threw), the size and the capacity are as before, the invariant still holds
(every slot below `size_` holds a live object) and nothing is leaked.  When `T` is
copy-constructible or its move constructor is non-throwing, the vector is exactly as
before the call.  Otherwise either the vector is exactly as before the call, or the move
of one element `k` threw: then every element after `k` is as before, every element
before `k` is in the state in which its completed move left it, and the element `k` is in
the state in which the failed move left it. -/
theorem Reserve_throw_guarantee (T : ElemType σ α) (v : Vector α) (hv : v.WF) (n : Nat)
    (hn : v.Capacity < n) (w : σ) (v1 : Vector α) (lk : List α) (w1 : σ)
    (h : Reserve T v n w = .raised v1 lk w1) :
    v1.size_ = v.size_ ∧ v1.Capacity = v.Capacity ∧ v1.WF ∧ lk = [] ∧
      (T.copyConstructible = true ∨ T.nothrowMove = true → v1 = v) ∧
      (v1 = v ∨
        (T.nothrowMove = false ∧ T.copyConstructible = false ∧
          ∃ k, k < v.size_ ∧
            (∀ j, k < j → v1.data_.buffer_[j]? = v.data_.buffer_[j]?) ∧
            (∀ j, j < k → ∃ x wj, peek v.data_.buffer_ j = some x ∧
              (T.moveCtor x wj).1.isSome = true ∧
              peek v1.data_.buffer_ j = some (T.moveCtor x wj).2.1) ∧
            (∃ x wk, peek v.data_.buffer_ k = some x ∧ (T.moveCtor x wk).1 = none ∧
              peek v1.data_.buffer_ k = some (T.moveCtor x wk).2.1))) := by
  unfold Reserve at h
  rw [if_neg (by unfold Vector.Capacity at hn; omega)] at h
  split at h
  · simp only [Outcome.raised.injEq] at h
    obtain ⟨rfl, rfl, rfl⟩ := h
    exact ⟨rfl, rfl, hv, rfl, fun _ => rfl, Or.inl rfl⟩
  · cases h
  · rename_i data halloc
    obtain ⟨rfl, _⟩ := Allocate_block halloc
    unfold IsNothrowMoveOrCopyConstructible at h
    split at h
    · cases h
    · rename_i old new w2 hstep
      simp only [Outcome.raised.injEq] at h
      obtain ⟨rfl, rfl, rfl⟩ := h
      split at hstep
      · rename_i hbr
        obtain ⟨A0, A1, A2⟩ := uninitialized_move_n_throw T _ _ _ _ _ _ _ _ _ hstep
        obtain ⟨k, hk, S1, S2, x, wk, S3, S4, S5⟩ :=
          uninitialized_move_n_throw_src T _ _ _ _ _ _ _ _ _ hstep
        have hnt : T.nothrowMove = false := by
          cases hx : T.nothrowMove
          · rfl
          · exact absurd hstep (uninitialized_move_n_nothrow T hx _ _ _ _ _ _ _ _)
        have hcc : T.copyConstructible = false := by
          cases hx : T.copyConstructible
          · rfl
          · rw [hnt, hx] at hbr
            cases hbr
        refine ⟨rfl, A0.1, hv.of_liveSame A0, live_eq_nil_of_throw A2, fun hc => ?_,
          Or.inr ⟨hnt, hcc, k, hk, fun j hj => S1 j (Or.inr (by omega)), fun j hj => ?_,
            ⟨x, wk, ?_, S4, ?_⟩⟩⟩
        · rcases hc with hc | hc
          · rw [hcc] at hc; cases hc
          · rw [hnt] at hc; cases hc
        · obtain ⟨x1, wj, e1, e2, e3⟩ := S2 j hj
          rw [Nat.zero_add] at e1 e3
          exact ⟨x1, wj, peek_eq_some.mpr e1, e2, peek_eq_some.mpr e3⟩
        · rw [Nat.zero_add] at S3
          exact peek_eq_some.mpr S3
        · rw [Nat.zero_add] at S5
          exact peek_eq_some.mpr S5
      · rename_i hbr
        split at hstep
        · cases hstep
        · rename_i dst w3 hcopy
          simp only [Step.throw.injEq, Prod.mk.injEq] at hstep
          obtain ⟨⟨rfl, rfl⟩, rfl⟩ := hstep
          obtain ⟨_, A2⟩ := uninitialized_copy_n_throw T _ _ _ _ _ _ _ _ hcopy
          exact ⟨rfl, rfl, hv, live_eq_nil_of_throw A2, fun _ => rfl, Or.inl rfl⟩
        · cases hstep
    · cases h

/-- Two concrete throwing calls.  A move-only transfer that throws on the second
element leaves the first of `[1, 7]` in its moved-from state `0`; a copying transfer that
throws on the second element leaves the vector `[1, 7]` untouched. -/
theorem Reserve_throw_guarantee_witness :
    ((mk [1, 7] 0 : Vector Nat).WF ∧ (mk [1, 7] 0 : Vector Nat).Capacity < 3 ∧
      Reserve moveOnlyT (mk [1, 7] 0) 3 () = .raised (mk [0, 7] 0) [] () ∧
      (mk [1, 7] 0 : Vector Nat).Capacity < 5 ∧
      Reserve copyingT (mk [1, 7] 0) 5 () = .raised (mk [1, 7] 0) [] ()) ∧
    ((mk [0, 7] 0 : Vector Nat).size_ = (mk [1, 7] 0 : Vector Nat).size_ ∧
      (mk [0, 7] 0 : Vector Nat).Capacity = (mk [1, 7] 0 : Vector Nat).Capacity ∧
      (mk [0, 7] 0 : Vector Nat).WF ∧ ([] : List Nat) = [] ∧
      (moveOnlyT.copyConstructible = true ∨ moveOnlyT.nothrowMove = true →
        (mk [0, 7] 0 : Vector Nat) = mk [1, 7] 0) ∧
      ((mk [0, 7] 0 : Vector Nat) = mk [1, 7] 0 ∨
        (moveOnlyT.nothrowMove = false ∧ moveOnlyT.copyConstructible = false ∧
          ∃ k, k < (mk [1, 7] 0 : Vector Nat).size_ ∧
            (∀ j, k < j → (mk [0, 7] 0 : Vector Nat).data_.buffer_[j]? =
              (mk [1, 7] 0 : Vector Nat).data_.buffer_[j]?) ∧
            (∀ j, j < k → ∃ x wj, peek (mk [1, 7] 0 : Vector Nat).data_.buffer_ j = some x ∧
              (moveOnlyT.moveCtor x wj).1.isSome = true ∧
              peek (mk [0, 7] 0 : Vector Nat).data_.buffer_ j =
                some (moveOnlyT.moveCtor x wj).2.1) ∧
            (∃ x wk, peek (mk [1, 7] 0 : Vector Nat).data_.buffer_ k = some x ∧
              (moveOnlyT.moveCtor x wk).1 = none ∧
              peek (mk [0, 7] 0 : Vector Nat).data_.buffer_ k =
                some (moveOnlyT.moveCtor x wk).2.1)))) ∧
    ((mk [1, 7] 0 : Vector Nat) = mk [1, 7] 0 ∧ ([] : List Nat) = []) :=
  have hwf : (mk [1, 7] 0 : Vector Nat).WF :=
    Vector.Holds.wf (show (mk [1, 7] 0).Holds [1, 7] from ⟨rfl, rfl, by decide⟩)
  ⟨⟨hwf, by decide, by decide, by decide, by decide⟩,
    Reserve_throw_guarantee moveOnlyT (mk [1, 7] 0) hwf 3 (by decide) () (mk [0, 7] 0) [] ()
      (by decide),
    ⟨(Reserve_throw_guarantee copyingT (mk [1, 7] 0) hwf 5 (by decide) () (mk [1, 7] 0) [] ()
      (by decide)).2.2.2.2.1 (Or.inl rfl),
     (Reserve_throw_guarantee copyingT (mk [1, 7] 0) hwf 5 (by decide) () (mk [1, 7] 0) [] ()
      (by decide)).2.2.2.1⟩⟩

/-- C6 (the code does not do what the claim says): on a vector with
`capacity ≤ size` and an argument from which the new element `x` can be constructed,
every exception that leaves `Emplace` after the new storage has been obtained leaks `x`:
the new storage is deallocated while `x` is still live in it, its destructor never runs.
The one exception that leaks nothing is the `bad_alloc` of the allocation itself, thrown
before `x` is constructed; it leaves the vector and the world as they were. -/
theorem Emplace_full_throw_leaks_new_element (T : ElemType σ α) (v : Vector α) (i : Nat)
    (hi : i ≤ v.size_) (hfull : v.Capacity ≤ v.size_) (a : Arg σ α) (w : σ) (x : α)
    (w0 : σ)
    (hc : construct T v.data_.buffer_ a w = some (some x, w0))
    (v1 : Vector α) (lk : List α) (w1 : σ) (h : Emplace T v i a w = .raised v1 lk w1) :
    (RawMemory.Allocate T (if v.size_ = 0 then 1 else v.size_ * 2 % 2 ^ 64) w ≠
        (.bad_alloc : Allocation α) → x ∈ lk) ∧
      (RawMemory.Allocate T (if v.size_ = 0 then 1 else v.size_ * 2 % 2 ^ 64) w =
        (.bad_alloc : Allocation α) → v1 = v ∧ lk = [] ∧ w1 = w) := by
  unfold Emplace at h
  rw [if_neg (by omega)] at h
  simp only [if_pos (show v.data_.Capacity ≤ v.size_ from hfull)] at h
  unfold RegularInsert at h
  generalize (if v.size_ = 0 then 1 else v.size_ * 2 % 2 ^ 64) = c at h ⊢
  generalize toInt32 i = diff at h
  rw [hc] at h
  refine ⟨fun halloc => ?_, fun hbad => ?_⟩
  swap
  · rw [hbad] at h
    simp only [Outcome.raised.injEq] at h
    obtain ⟨rfl, rfl, rfl⟩ := h
    exact ⟨rfl, rfl, rfl⟩
  split at h
  · cases h
  · rename_i v2 lk2 w2 hin
    simp only [Outcome.raised.injEq] at h
    obtain ⟨rfl, rfl, rfl⟩ := h
    split at hin
    · rename_i hb
      exact absurd hb halloc
    · cases hin
    · rename_i new_address hblock
      obtain ⟨rfl, _⟩ := Allocate_block hblock
      simp only [RawMemory.Capacity, List.length_replicate] at hin
      split at hin
      · cases hin
      · rename_i hguard
        have hcap : diff.toNat < c := by omega
        have hmem : ((List.replicate c (none : Option α)).set diff.toNat (some x))[diff.toNat]? =
            some (some x) := List.getElem?_set_self (by simp; omega)
        generalize diff.toNat = d at hin hcap hmem
        split at hin
        · split at hin
          · cases hin
          · rename_i old new w3 h1
            simp only [Outcome.raised.injEq] at hin
            obtain ⟨_, rfl, _⟩ := hin
            obtain ⟨_, _, A2⟩ := uninitialized_move_n_throw T _ _ _ _ _ _ _ _ _ h1
            rcases A2 d with e | ⟨_, e, _⟩
            · exact mem_live (e.trans hmem)
            · omega
          · rename_i old new w3 h1
            obtain ⟨_, _, _, A3, _⟩ := uninitialized_move_n_ok T _ _ _ _ _ _ _ _ _ h1
            split at hin
            · cases hin
            · rename_i old1 new1 w4 h2
              simp only [Outcome.raised.injEq] at hin
              obtain ⟨_, rfl, _⟩ := hin
              obtain ⟨_, _, B2⟩ := uninitialized_move_n_throw T _ _ _ _ _ _ _ _ _ h2
              rcases B2 d with e | ⟨e, _, _⟩
              · exact mem_live (e.trans ((A3 d (by omega)).trans hmem))
              · omega
            · cases hin
        · split at hin
          · cases hin
          · rename_i new w3 h1
            simp only [Outcome.raised.injEq] at hin
            obtain ⟨_, rfl, _⟩ := hin
            obtain ⟨_, A2⟩ := uninitialized_copy_n_throw T _ _ _ _ _ _ _ _ h1
            rcases A2 d with e | ⟨_, e, _⟩
            · exact mem_live (e.trans hmem)
            · omega
          · rename_i new w3 h1
            obtain ⟨_, A3, _⟩ := uninitialized_copy_n_ok T _ _ _ _ _ _ _ _ h1
            split at hin
            · cases hin
            · rename_i new1 w4 h2
              simp only [Outcome.raised.injEq] at hin
              obtain ⟨_, rfl, _⟩ := hin
              obtain ⟨_, B2⟩ := uninitialized_copy_n_throw T _ _ _ _ _ _ _ _ h2
              rcases B2 d with e | ⟨e, _, _⟩
              · exact mem_live (e.trans ((A3 d (by omega)).trans hmem))
              · omega
            · cases hin
  · cases h

/-- The failing input of the leak: `Emplace(begin(), 5)` on the full vector `[7]` of a type
whose copy of `7` throws; the vector is unchanged and the new element `5` is leaked. -/
theorem Emplace_full_throw_leaks_new_element_witness :
    (0 ≤ (mk [7] 0 : Vector Nat).size_ ∧
      (mk [7] 0 : Vector Nat).Capacity ≤ (mk [7] 0 : Vector Nat).size_ ∧
      construct copyingT (mk [7] 0).data_.buffer_ (.moveOf 5) () = some (some 5, ()) ∧
      Emplace copyingT (mk [7] 0) 0 (.moveOf 5) () = .raised (mk [7] 0) [5] () ∧
      RawMemory.Allocate copyingT
        (if (mk [7] 0 : Vector Nat).size_ = 0 then 1
          else (mk [7] 0 : Vector Nat).size_ * 2 % 2 ^ 64) () ≠
        (.bad_alloc : Allocation Nat)) ∧
    5 ∈ [5] :=
  ⟨⟨by decide, by decide, by decide, by decide, by decide⟩,
    (Emplace_full_throw_leaks_new_element copyingT (mk [7] 0) 0 (by decide) (by decide)
      (.moveOf 5) () 5 () (by decide) (mk [7] 0) [5] () (by decide)).1 (by decide)⟩

/-- C7 (the code does not do what the claim says): in-place insertion before `end()`.
Once the last element has been move-constructed into slot `size_`, every exception that
leaves `Emplace` (a move assignment of the shift, or the final one, threw) leaves `size_`
as it was before the call although slot `size_` holds a live object: that object is not
counted, and the invariant of the vector is broken. -/
theorem Emplace_shift_throw_size_not_incremented (T : ElemType σ α) (v : Vector α)
    (i : Nat) (hi : i < v.size_) (hcap : v.size_ < v.Capacity) (a : Arg σ α) (w : σ)
    (tmp : α) (w0 : σ) (hc : construct T v.data_.buffer_ a w = some (some tmp, w0))
    (back y back1 : α) (w2 : σ) (hback : peek v.data_.buffer_ (v.size_ - 1) = some back)
    (hmv : T.moveCtor back w0 = (some y, back1, w2))
    (v1 : Vector α) (lk : List α) (w1 : σ) (h : Emplace T v i a w = .raised v1 lk w1) :
    v1.size_ = v.size_ ∧ (peek v1.data_.buffer_ v1.size_).isSome = true ∧ ¬ v1.WF := by
  have hcap' : v.size_ < v.data_.buffer_.length := hcap
  have key : v1.size_ = v.size_ ∧ (peek v1.data_.buffer_ v1.size_).isSome = true := by
    unfold Emplace at h
    rw [if_neg (by omega)] at h
    simp only [if_neg (show ¬ v.data_.Capacity ≤ v.size_ from by
      unfold Vector.Capacity at hcap; omega)] at h
    unfold ReallocationInsert at h
    simp only [if_neg (show ¬ i = v.size_ by omega), hc, hback, hmv] at h
    rw [if_neg (by omega)] at h
    rcases toInt32_cases i with hneg | ⟨d, hd, hdle, _⟩
    · rw [if_pos hneg] at h
      cases h
    rw [hd] at h
    simp only [Int.toNat_ofNat, show ¬ ((d : Int) < 0) from by omega, if_false] at h
    have hl1 : peek ((v.data_.buffer_.set (v.size_ - 1) (some back1)).set v.size_ (some y))
        v.size_ = some y := by
      rw [peek_set_some, if_pos ⟨rfl, by simpa using hcap'⟩]
    split at h
    · cases h
    · rename_i v2 lk2 w3 hin
      simp only [Outcome.raised.injEq] at h
      obtain ⟨rfl, rfl, rfl⟩ := h
      split at hin
      · cases hin
      · rename_i mem2 w4 hmb
        simp only [Outcome.raised.injEq] at hin
        obtain ⟨rfl, _, _⟩ := hin
        unfold move_backward at hmb
        rw [if_neg (by omega)] at hmb
        have hls := move_backward_n_live T _ _ _ _ _ _ _ (Or.inr hmb)
        refine ⟨rfl, ?_⟩
        show (peek mem2 v.size_).isSome = true
        rw [hls.2, hl1]; rfl
      · rename_i mem2 w4 hmb
        unfold move_backward at hmb
        rw [if_neg (by omega)] at hmb
        have hls := move_backward_n_live T _ _ _ _ _ _ _ (Or.inl hmb)
        split at hin
        · cases hin
        · split at hin
          · simp only [Outcome.raised.injEq] at hin
            obtain ⟨rfl, _, _⟩ := hin
            refine ⟨rfl, ?_⟩
            show (peek (mem2.set d (some _)) v.size_).isSome = true
            rw [peek_set_some, if_neg (by omega), hls.2, hl1]; rfl
          · cases hin
    · cases h
  refine ⟨key.1, key.2, fun hwf => ?_⟩
  have := hwf.2.2 v1.size_ (Nat.le_refl _)
  rw [this] at key
  exact absurd key.2 (by simp)

/-- The failing input of the uncounted object: `Emplace(begin(), 5)` on `[7, 2]` with one spare slot, for a
type whose move assignment from `7` throws.  The exception leaves size 2 and three live
objects, in slots 0, 1 and 2. -/
theorem Emplace_shift_throw_size_not_incremented_witness :
    (0 < (mk [7, 2] 1 : Vector Nat).size_ ∧
      (mk [7, 2] 1 : Vector Nat).size_ < (mk [7, 2] 1 : Vector Nat).Capacity ∧
      Emplace moveOnlyT (mk [7, 2] 1) 0 (.moveOf 5) () =
        .raised ⟨⟨[some 7, some 0, some 2]⟩, 2⟩ [] ()) ∧
    ((2 : Nat) = (mk [7, 2] 1 : Vector Nat).size_ ∧
      (peek [some 7, some 0, some 2] 2).isSome = true ∧
      ¬ (Vector.mk ⟨[some 7, some 0, some 2]⟩ 2).WF) :=
  ⟨⟨by decide, by decide, by decide⟩,
    Emplace_shift_throw_size_not_incremented moveOnlyT (mk [7, 2] 1) 0 (by decide)
      (by decide) (.moveOf 5) () 5 () (by decide) 2 2 0 () (by decide) (by decide)
      ⟨⟨[some 7, some 0, some 2]⟩, 2⟩ [] () (by decide)⟩

/-- The converted offset of a position, when it is not negative, is not beyond the
position. -/
theorem toInt32_natCast_le {pos d : Nat} (hd : toInt32 pos = (d : Int)) :
    d ≤ pos ∧ d < 2 ^ 31 := by
  obtain ⟨h1, h2⟩ := toInt32_nonneg (by rw [hd]; exact Int.ofNat_nonneg d)
  rw [hd] at h1
  have h3 : d = pos % 2 ^ 32 := by exact_mod_cast h1
  have := Nat.mod_le pos (2 ^ 32)
  omega

theorem Erase_done (T : ElemType σ α) (hT : T.Regular) {v : Vector α} {xs : List α}
    (hv : v.Holds xs) {pos d : Nat} (hpos : pos < xs.length) (hd : toInt32 pos = (d : Int))
    {w : σ} {v1 : Vector α} {ret : Int}
    {lk : List α} {w1 : σ} (h : Erase T v pos w = .done v1 ret lk w1) :
    v1.Holds (xs.eraseIdx d) ∧ v1.size_ = v.size_ - 1 ∧
      v1.data_.Capacity = v.data_.Capacity ∧ ret = (d : Int) ∧ lk = [] := by
  have hsz := hv.1
  have hcap := hv.2.2
  have hi : d < xs.length := by have := (toInt32_natCast_le hd).1; omega
  unfold Erase at h
  rw [if_neg (by omega), hd] at h
  simp only [Int.toNat_ofNat, show ¬ ((d : Int) < 0) from by omega, if_false] at h
  split at h
  · cases h
  · cases h
  · rename_i mem w2 hmv
    simp only [Outcome.done.injEq] at h
    obtain ⟨rfl, rfl, rfl, rfl⟩ := h
    unfold move at hmv
    rw [if_neg (by omega)] at hmv
    have hls := move_n_live T _ _ _ _ _ _ _ (Or.inl hmv)
    obtain ⟨C1, C2⟩ := move_n_ok T hT _ _ _ _ _ _ hmv
    have hlen : (xs.eraseIdx d).length = xs.length - 1 := List.length_eraseIdx_of_lt hi
    have hcap1 : (mem.set (v.size_ - 1) none).length = v.data_.Capacity := by
      rw [List.length_set, hls.1]; rfl
    refine ⟨holds_of_pointwise (by simp only [hlen, hsz]) ?_ ?_ ?_, rfl, hcap1, rfl, rfl⟩
    · show (xs.eraseIdx d).length ≤ (mem.set (v.size_ - 1) none).length
      rw [hcap1, hlen]; omega
    · intro j hj
      rw [hlen] at hj
      show (mem.set (v.size_ - 1) none)[j]? = _
      rw [List.getElem?_set_ne (by omega), List.getElem?_eraseIdx]
      by_cases h1 : j < d
      · rw [if_pos h1, C1 j (Or.inl h1), hv.getElem? j, if_pos (by omega)]
      · rw [if_neg h1]
        obtain ⟨x, e1, e2⟩ := C2 j (by omega) (by omega)
        rw [e2, ← e1, hv.getElem? (j + 1), if_pos (by omega)]
    · intro j hj1 hj2
      rw [hlen] at hj1
      change j < (mem.set (v.size_ - 1) none).length at hj2
      rw [hcap1] at hj2
      show (mem.set (v.size_ - 1) none)[j]? = _
      by_cases h1 : j = v.size_ - 1
      · rw [h1, List.getElem?_set_self (by rw [hls.1]; show v.size_ - 1 < v.data_.Capacity; omega)]
      · rw [List.getElem?_set_ne (by omega), C1 j (by omega), hv.getElem? j,
          if_neg (by omega), if_pos hj2]

theorem Erase_defined (T : ElemType σ α) {v : Vector α} {xs : List α}
    (hv : v.Holds xs) {pos d : Nat} (hpos : pos < xs.length) (hd : toInt32 pos = (d : Int))
    (w : σ) : Erase T v pos w ≠ .undefined := by
  have hi : d < xs.length := by have := (toInt32_natCast_le hd).1; omega
  intro h
  unfold Erase at h
  rw [if_neg (by rw [hv.1]; omega), hd] at h
  simp only [Int.toNat_ofNat, show ¬ ((d : Int) < 0) from by omega, if_false] at h
  split at h
  · rename_i hmv
    unfold move at hmv
    rw [if_neg (by rw [hv.1]; omega)] at hmv
    refine move_n_defined T _ _ _ _ (fun j hj1 hj2 => ?_) hmv
    have hj : j < xs.length := by rw [hv.1] at hj2; omega
    rw [hv.peek_lt hj, List.getElem?_eq_getElem hj]; rfl
  · cases h
  · cases h

/-- A call of `Erase` whose converted offset is not negative returns when the move
assignment of `T` does not throw. -/
theorem Erase_returns (T : ElemType σ α) (hT : T.Regular)
    (hma : ∀ d s w, (T.moveAssign d s w).1 = true) {v : Vector α} {xs : List α}
    (hv : v.Holds xs) {pos d : Nat} (hpos : pos < xs.length) (hd : toInt32 pos = (d : Int))
    (w : σ) :
    ∃ v1 w1, Erase T v pos w = .done v1 (d : Int) [] w1 ∧ v1.Holds (xs.eraseIdx d) := by
  rcases hr : Erase T v pos w with ⟨v1, ret, lk, w1⟩ | ⟨v1, lk, w1⟩ | _
  · obtain ⟨c1, _, _, c4, c5⟩ := Erase_done T hT hv hpos hd hr
    subst c4 c5
    exact ⟨v1, w1, rfl, c1⟩
  · exfalso
    unfold Erase at hr
    split at hr
    · cases hr
    · split at hr
      · cases hr
      · split at hr
        · cases hr
        · rename_i mem w2 hmv
          unfold move at hmv
          split at hmv
          · cases hmv
          · exact move_n_noThrow T hma _ _ _ _ _ _ _ hmv
        · cases hr
  · exact absurd hr (Erase_defined T hv hpos hd w)

/-- A call of `Erase` whose converted offset is negative has undefined behaviour. -/
theorem Erase_negative (T : ElemType σ α) {v : Vector α} {pos : Nat} (hpos : pos < v.size_)
    (hneg : toInt32 pos < 0) (w : σ) : Erase T v pos w = .undefined := by
  unfold Erase
  rw [if_neg (by omega), if_pos hneg]

/-- The behaviour of `Erase` at a position `i < size` below `2 ^ 31`, on a vector holding
`xs`, for an element type whose moves carry the value.  When the call returns, the
vector holds `xs` without its member of index `i` (the members before `i` as they were,
those after `i` one slot to the left, in order), the size is one less, the capacity is
unchanged and the position returned is `i`.  The call has no undefined behaviour, and it
does return when the move assignment of `T` does not throw. -/
theorem Erase_removes_at (T : ElemType σ α) (hT : T.Regular) (v : Vector α)
    (xs : List α) (hv : v.Holds xs) (i : Nat) (hi : i < v.size_) (hi31 : i < 2 ^ 31)
    (w : σ) :
    Erase T v i w ≠ .undefined ∧
    (∀ v1 ret lk w1, Erase T v i w = .done v1 ret lk w1 →
      v1.Holds (xs.take i ++ xs.drop (i + 1)) ∧ v1.size_ = v.size_ - 1 ∧
        v1.Capacity = v.Capacity ∧ ret = (i : Int)) ∧
    ((∀ d s w, (T.moveAssign d s w).1 = true) →
      ∃ v1 w1, Erase T v i w = .done v1 (i : Int) [] w1) := by
  have hi' : i < xs.length := by rw [← hv.1]; exact hi
  have hd := toInt32_of_lt hi31
  refine ⟨Erase_defined T hv hi' hd w, fun v1 ret lk w1 h => ?_, fun hma => ?_⟩
  · obtain ⟨c1, c2, c3, c4, _⟩ := Erase_done T hT hv hi' hd h
    rw [List.eraseIdx_eq_take_drop_succ] at c1
    exact ⟨c1, c2, c3, c4⟩
  · obtain ⟨v1, w1, e, _⟩ := Erase_returns T hT hma hv hi' hd w
    exact ⟨v1, w1, e⟩

/-- A concrete erasure below `2 ^ 31`: the first of three elements. -/
theorem Erase_removes_at_witness :
    (plainT.Regular ∧ (mk [1, 2, 3] 2).Holds [1, 2, 3] ∧ 0 < (mk [1, 2, 3] 2).size_ ∧
      0 < 2 ^ 31) ∧
    Erase plainT (mk [1, 2, 3] 2) 0 () = .done (mk [2, 3] 3) 0 [] () ∧
    ((mk [2, 3] 3).Holds (List.take 0 [1, 2, 3] ++ List.drop (0 + 1) [1, 2, 3]) ∧
      (mk [2, 3] 3).size_ = (mk [1, 2, 3] 2).size_ - 1 ∧
      (mk [2, 3] 3).Capacity = (mk [1, 2, 3] 2).Capacity ∧ (0 : Int) = ((0 : Nat) : Int)) :=
  have hreg : plainT.Regular :=
    ⟨fun _ _ _ _ h => by cases h; rfl, fun _ _ _ _ _ h => by cases h; rfl,
      fun _ _ _ _ _ h => by cases h; rfl, fun _ _ _ _ _ _ h => by cases h; rfl⟩
  ⟨⟨hreg, ⟨rfl, rfl, by decide⟩, by decide, by decide⟩, by decide,
    (Erase_removes_at plainT hreg (mk [1, 2, 3] 2) [1, 2, 3] ⟨rfl, rfl, by decide⟩ 0
      (by decide) (by decide) ()).2.1 (mk [2, 3] 3) 0 [] () (by decide)⟩

theorem mk_size (xs : List α) (k : Nat) : (mk xs k).size_ = xs.length := rfl

theorem mk_capacity (xs : List α) (k : Nat) : (mk xs k).Capacity = xs.length + k := by
  show (xs.map some ++ List.replicate k none).length = xs.length + k
  rw [List.length_append, List.length_map, List.length_replicate]

theorem mk_holds (xs : List α) (k : Nat) : (mk xs k).Holds xs := by
  have hcap : (mk xs k).data_.Capacity = xs.length + k := mk_capacity xs k
  refine ⟨rfl, ?_, ?_⟩
  · rw [hcap, Nat.add_sub_cancel_left]
    rfl
  · rw [hcap]
    exact Nat.le_add_right _ _

theorem plainT_regular : plainT.Regular :=
  ⟨fun _ _ _ _ h => by cases h; rfl, fun _ _ _ _ _ h => by cases h; rfl,
    fun _ _ _ _ _ h => by cases h; rfl, fun _ _ _ _ _ _ h => by cases h; rfl⟩

theorem plainT_noThrow : plainT.NoThrow :=
  ⟨fun _ => rfl, fun _ _ => rfl, fun _ _ => rfl, fun _ _ _ => rfl, fun _ _ _ => rfl⟩

/-- C8 (the code does not do what the claim says): `Erase` keeps the offset of the
position in an `int` and works at the converted offset.  On a vector holding `xs`, at a
position `pos < size`, for an element type whose moves carry the value: when the
converted offset is negative (`2 ^ 31 ≤ pos < 2 ^ 32`) the call has undefined behaviour
(`std::move` runs over memory before the block); when it is a natural number `d`, a call
that returns has removed the member of index `d` and returns the position `d`, and the
call does return when no operation of `T` throws.  For `pos ≥ 2 ^ 31` the offset `d`
differs from `pos`: another element than the one at `pos` is removed. -/
theorem Erase_acts_at_converted_offset (T : ElemType σ α) (hT : T.Regular) (v : Vector α)
    (xs : List α) (hv : v.Holds xs) (pos : Nat) (hpos : pos < v.size_) (w : σ) :
    (toInt32 pos < 0 → Erase T v pos w = .undefined) ∧
    (∀ d : Nat, toInt32 pos = (d : Int) →
      (2 ^ 31 ≤ pos → d < pos) ∧
      (∀ v1 ret lk w1, Erase T v pos w = .done v1 ret lk w1 →
        v1.Holds (xs.eraseIdx d) ∧ v1.size_ = v.size_ - 1 ∧ v1.Capacity = v.Capacity ∧
          ret = (d : Int)) ∧
      (T.NoThrow → ∃ v1 w1, Erase T v pos w = .done v1 (d : Int) [] w1 ∧
        v1.Holds (xs.eraseIdx d))) := by
  have hpos' : pos < xs.length := by rw [← hv.1]; exact hpos
  refine ⟨fun hneg => Erase_negative T hpos hneg w, fun d hd => ⟨fun h31 => ?_,
    fun v1 ret lk w1 h => ?_, fun hN => Erase_returns T hT hN.2.2.2.2 hv hpos' hd w⟩⟩
  · have := toInt32_natCast_le hd
    omega
  · obtain ⟨c1, c2, c3, c4, _⟩ := Erase_done T hT hv hpos' hd h
    exact ⟨c1, c2, c3, c4⟩

/-- The failing input: `Erase(begin() + 2 ^ 32)` on the vector that holds `2 ^ 32`
zeros followed by a one.  The converted offset is `0`: the call removes the first zero,
not the one, and returns `begin()`. -/
theorem Erase_acts_at_converted_offset_witness :
    (plainT.Regular ∧ (mk over32 0).Holds over32 ∧ 2 ^ 32 < (mk over32 0).size_ ∧
      toInt32 (2 ^ 32) = ((0 : Nat) : Int) ∧ plainT.NoThrow) ∧
    (2 ^ 31 ≤ 2 ^ 32 → 0 < 2 ^ 32) ∧
    (∃ v1 w1, Erase plainT (mk over32 0) (2 ^ 32) () = .done v1 ((0 : Nat) : Int) [] w1 ∧
      v1.Holds (over32.eraseIdx 0)) :=
  have hsz : 2 ^ 32 < (mk over32 0).size_ := by
    show 2 ^ 32 < (List.replicate (2 ^ 32) 0 ++ [1]).length
    rw [List.length_append, List.length_replicate, List.length_singleton]
    exact Nat.lt_succ_self _
  have h0 : toInt32 (2 ^ 32) = ((0 : Nat) : Int) := by decide
  ⟨⟨plainT_regular, mk_holds over32 0, hsz, h0, plainT_noThrow⟩,
    ((Erase_acts_at_converted_offset plainT plainT_regular (mk over32 0) over32
      (mk_holds over32 0) (2 ^ 32) hsz ()).2 0 h0).1,
    ((Erase_acts_at_converted_offset plainT plainT_regular (mk over32 0) over32
      (mk_holds over32 0) (2 ^ 32) hsz ()).2 0 h0).2.2 plainT_noThrow⟩

/-- C9: `Reserve(n)` with `n ≤ capacity` returns at once: whatever the element type, the
call returns normally with the vector as it was (capacity, size, every slot), nothing
leaked, and the global state untouched, so that no operation of `T` has run. -/
theorem Reserve_within_capacity_noop (T : ElemType σ α) (v : Vector α) (n : Nat)
    (hn : n ≤ v.Capacity) (w : σ) : Reserve T v n w = .done v () [] w := by
  unfold Reserve
  rw [if_pos (show n ≤ v.data_.Capacity from hn)]

/-- The vector of the second test scenario, with every copy set to throw. -/
theorem Reserve_within_capacity_noop_witness :
    2 ≤ (mk [DEFAULT_COOKIE] 1).Capacity ∧
    Reserve ThrowObj (mk [DEFAULT_COOKIE] 1) 2 copyThrows =
      .done (mk [DEFAULT_COOKIE] 1) () [] copyThrows :=
  ⟨by decide, Reserve_within_capacity_noop ThrowObj (mk [DEFAULT_COOKIE] 1) 2 (by decide)
    copyThrows⟩

theorem reserve_slots (T : ElemType σ α) (hT : T.Regular) {v : Vector α} {xs : List α}
    (hv : v.Holds xs) {n : Nat} (hn : v.data_.Capacity < n) {new : Slots α}
    (A2 : new.length = (List.replicate n (none : Option α)).length)
    (A3 : ∀ j, j < 0 ∨ 0 + v.size_ ≤ j → new[j]? = (List.replicate n (none : Option α))[j]?)
    (A4 : ∀ k, k < v.size_ → ∃ x y, v.data_.buffer_[0 + k]? = some (some x) ∧
      new[0 + k]? = some (some y) ∧ (T.Regular → y = x)) :
    (Vector.mk ⟨new⟩ v.size_).Holds xs := by
  have hcap : new.length = n := by rw [A2, List.length_replicate]
  have hle := hv.2.2
  refine holds_of_pointwise hv.1 ?_ (fun j hj => ?_) (fun j hj1 hj2 => ?_)
  · show xs.length ≤ new.length
    omega
  · show new[j]? = _
    obtain ⟨x, y, e1, e2, e3⟩ := A4 j (by rw [hv.1]; exact hj)
    rw [Nat.zero_add] at e1 e2
    rw [e2, e3 hT, ← e1, hv.getElem? j, if_pos hj]
  · show new[j]? = _
    change j < new.length at hj2
    rw [A3 j (by rw [hv.1]; omega), List.getElem?_replicate, if_pos (by omega)]

theorem Reserve_done (T : ElemType σ α) (hT : T.Regular) {v : Vector α} {xs : List α}
    (hv : v.Holds xs) {n : Nat} (hn : v.data_.Capacity < n) {w : σ} {v1 : Vector α}
    {u : Unit} {lk : List α} {w1 : σ} (h : Reserve T v n w = .done v1 u lk w1) :
    v1.data_.Capacity = n ∧ v1.size_ = v.size_ ∧ v1.Holds xs ∧ lk = [] := by
  unfold Reserve at h
  rw [if_neg (by omega)] at h
  split at h
  · cases h
  · cases h
  · rename_i data halloc
    obtain ⟨rfl, _⟩ := Allocate_block halloc
    unfold IsNothrowMoveOrCopyConstructible at h
    split at h
    · cases h
    · cases h
    · rename_i old new w2 hstep
      simp only [Outcome.done.injEq] at h
      obtain ⟨rfl, _, rfl, rfl⟩ := h
      split at hstep
      · obtain ⟨A0, _, A2, A3, A4⟩ := uninitialized_move_n_ok T _ _ _ _ _ _ _ _ _ hstep
        exact ⟨by rw [RawMemory.Capacity, A2, List.length_replicate], rfl,
          reserve_slots T hT hv hn A2 A3 A4, live_destroy_eq_nil hv A0⟩
      · split at hstep
        · rename_i dst w3 hcopy
          simp only [Step.ok.injEq, Prod.mk.injEq] at hstep
          obtain ⟨⟨rfl, rfl⟩, rfl⟩ := hstep
          obtain ⟨A2, A3, A4⟩ := uninitialized_copy_n_ok T _ _ _ _ _ _ _ _ hcopy
          exact ⟨by rw [RawMemory.Capacity, A2, List.length_replicate], rfl,
            reserve_slots T hT hv hn A2 A3 A4, live_destroy_eq_nil hv (LiveSame.refl _)⟩
        · cases hstep
        · cases hstep

theorem Reserve_defined (T : ElemType σ α) {v : Vector α} {xs : List α}
    (hv : v.Holds xs) {n : Nat} (hn : v.data_.Capacity < n) (w : σ)
    (halloc : RawMemory.Allocate T n w ≠ (.short : Allocation α)) :
    Reserve T v n w ≠ .undefined := by
  have hlive : ∀ k, k < v.size_ → (peek v.data_.buffer_ (0 + k)).isSome = true := by
    intro k hk
    rw [hv.1] at hk
    rw [Nat.zero_add, hv.peek_lt hk, List.getElem?_eq_getElem hk]; rfl
  have hfit : 0 + v.size_ ≤ (List.replicate n (none : Option α)).length := by
    have := hv.2.2
    rw [List.length_replicate, hv.1]; omega
  intro h
  unfold Reserve at h
  rw [if_neg (by omega)] at h
  split at h
  · cases h
  · rename_i hs
    exact halloc hs
  · rename_i data hblock
    obtain ⟨rfl, _⟩ := Allocate_block hblock
    unfold IsNothrowMoveOrCopyConstructible at h
    split at h
    · rename_i hstep
      split at hstep
      · exact uninitialized_move_n_defined T _ _ _ _ _ _ hlive hfit hstep
      · split at hstep
        · cases hstep
        · cases hstep
        · rename_i hcopy
          exact uninitialized_copy_n_defined T _ _ _ _ _ _ hlive hfit hcopy
    · cases h
    · cases h

/-- No exception leaves a growing `Reserve` once the storage has been obtained, when the
constructor used by the transfer does not throw. -/
theorem Reserve_noraise (T : ElemType σ α)
    (hm : (T.nothrowMove || !T.copyConstructible) = true →
      ∀ x w, (T.moveCtor x w).1.isSome = true)
    (hcp : (T.nothrowMove || !T.copyConstructible) = false →
      ∀ x w, (T.copyCtor x w).1.isSome = true)
    {v : Vector α} {n : Nat} (hn : v.data_.Capacity < n) {w : σ}
    (halloc : RawMemory.Allocate T n w ≠ (.bad_alloc : Allocation α))
    {v1 : Vector α} {lk : List α} {w1 : σ} : Reserve T v n w ≠ .raised v1 lk w1 := by
  intro h
  unfold Reserve at h
  rw [if_neg (by omega)] at h
  split at h
  · rename_i hb
    exact halloc hb
  · cases h
  · unfold IsNothrowMoveOrCopyConstructible at h
    split at h
    · cases h
    · rename_i old new w2 hstep
      split at hstep
      · rename_i hbr
        exact uninitialized_move_n_noThrow T (hm hbr) _ _ _ _ _ _ _ _ hstep
      · rename_i hbr
        have hbr1 : (T.nothrowMove || !T.copyConstructible) = false := by
          cases hx : (T.nothrowMove || !T.copyConstructible)
          · rfl
          · exact absurd hx hbr
        split at hstep
        · cases hstep
        · rename_i hcopy
          exact uninitialized_copy_n_noThrow T (hcp hbr1) _ _ _ _ _ _ _ _ hcopy
        · cases hstep
    · cases h

/-- A growing `Reserve` returns when the allocation yields the storage and no
constructor of `T` throws. -/
theorem Reserve_returns (T : ElemType σ α) (hT : T.Regular) (hN : T.NoThrow)
    {v : Vector α} {xs : List α} (hv : v.Holds xs) {n : Nat} (hn : v.data_.Capacity < n)
    (w : σ) (halloc : (RawMemory.Allocate T n w : Allocation α).isBlock = true) :
    ∃ v1 w1, Reserve T v n w = .done v1 () [] w1 ∧ v1.data_.Capacity = n ∧
      v1.size_ = v.size_ ∧ v1.Holds xs := by
  rcases hr : Reserve T v n w with ⟨v1, u, lk, w1⟩ | ⟨v1, lk, w1⟩ | _
  · obtain ⟨c1, c2, c3, c4⟩ := Reserve_done T hT hv hn hr
    subst c4
    exact ⟨v1, w1, rfl, c1, c2, c3⟩
  · exfalso
    refine Reserve_noraise T (fun _ => hN.2.2.1) (fun _ => hN.2.1) hn ?_ hr
    intro hb
    rw [hb] at halloc
    cases halloc
  · exfalso
    refine Reserve_defined T hv hn w ?_ hr
    intro hb
    rw [hb] at halloc
    cases halloc

/-- C10: on a vector holding `xs`, with `n > capacity` and an element type whose copies
and moves carry the value: when `Reserve(n)` returns, the capacity is exactly `n`, the
size is unchanged and the vector holds `xs` as before (the object at every index below
the size equals the one that was there).  The call has no undefined behaviour unless the
byte count of the request wraps, and it does return when the allocation yields the
storage and no operation of `T` throws. -/
theorem Reserve_grows_exactly (T : ElemType σ α) (hT : T.Regular) (v : Vector α)
    (xs : List α) (hv : v.Holds xs) (n : Nat) (hn : v.Capacity < n) (w : σ) :
    (∀ v1 u lk w1, Reserve T v n w = .done v1 u lk w1 →
      v1.Capacity = n ∧ v1.size_ = v.size_ ∧ v1.Holds xs ∧
        ∀ i, i < v.size_ → peek v1.data_.buffer_ i = peek v.data_.buffer_ i) ∧
    (RawMemory.Allocate T n w ≠ (.short : Allocation α) → Reserve T v n w ≠ .undefined) ∧
    (T.NoThrow → (RawMemory.Allocate T n w : Allocation α).isBlock = true →
      ∃ v1 w1, Reserve T v n w = .done v1 () [] w1) := by
  refine ⟨fun v1 u lk w1 h => ?_, fun hs => Reserve_defined T hv hn w hs,
    fun hN hb => ?_⟩
  · obtain ⟨c1, c2, c3, _⟩ := Reserve_done T hT hv hn h
    refine ⟨c1, c2, c3, fun i hi => ?_⟩
    rw [hv.1] at hi
    rw [c3.peek_lt hi, hv.peek_lt hi]
  · obtain ⟨v1, w1, e, _⟩ := Reserve_returns T hT hN hv hn w hb
    exact ⟨v1, w1, e⟩

/-- A concrete growing `Reserve`: two elements, from capacity 2 to capacity 5. -/
theorem Reserve_grows_exactly_witness :
    (plainT.Regular ∧ (mk [4, 5] 0).Holds [4, 5] ∧ (mk [4, 5] 0 : Vector Nat).Capacity < 5) ∧
    Reserve plainT (mk [4, 5] 0) 5 () = .done (mk [4, 5] 3) () [] () ∧
    ((mk [4, 5] 3 : Vector Nat).Capacity = 5 ∧
      (mk [4, 5] 3 : Vector Nat).size_ = (mk [4, 5] 0 : Vector Nat).size_ ∧
      (mk [4, 5] 3).Holds [4, 5] ∧
      ∀ i, i < (mk [4, 5] 0 : Vector Nat).size_ →
        peek (mk [4, 5] 3 : Vector Nat).data_.buffer_ i =
          peek (mk [4, 5] 0 : Vector Nat).data_.buffer_ i) :=
  ⟨⟨plainT_regular, ⟨rfl, rfl, by decide⟩, by decide⟩, by decide,
    (Reserve_grows_exactly plainT plainT_regular (mk [4, 5] 0) [4, 5] ⟨rfl, rfl, by decide⟩ 5
      (by decide) ()).1 (mk [4, 5] 3) () [] () (by decide)⟩

theorem uninitialized_value_construct_n_ok (T : ElemType σ α) :
    ∀ (n : Nat) (dst : Slots α) (dfirst : Nat) (w : σ) (r : Slots α) (w1 : σ),
      uninitialized_value_construct_n T dst dfirst n w = .ok r w1 →
      r.length = dst.length ∧
      (∀ j, j < dfirst ∨ dfirst + n ≤ j → r[j]? = dst[j]?) ∧
      (∀ k, k < n → ∃ y wk, r[dfirst + k]? = some (some y) ∧
          (T.valueCtor wk).1 = some y) := by
  intro n
  induction n with
  | zero =>
    intro dst dfirst w r w1 h
    simp only [uninitialized_value_construct_n, Step.ok.injEq] at h
    obtain ⟨rfl, rfl⟩ := h
    simp
  | succ n ih =>
    intro dst dfirst w r w1 h
    rw [uninitialized_value_construct_n] at h
    split at h
    · cases h
    · rename_i hlen
      split at h
      · cases h
      · rename_i y w2 hc
        split at h
        · cases h
        · obtain ⟨h1, h2, h3⟩ := ih _ _ _ _ _ h
          refine ⟨by simpa using h1, ?_, ?_⟩
          · intro j hj
            rw [h2 j (by omega), List.getElem?_set_ne (by omega)]
          · intro k hk
            rcases Nat.eq_zero_or_pos k with rfl | hkpos
            · refine ⟨y, w, ?_, by rw [hc]⟩
              rw [Nat.add_zero, h2 dfirst (by omega), List.getElem?_set_self (by omega)]
            · obtain ⟨y1, wk, e1, e2⟩ := h3 (k - 1) (by omega)
              refine ⟨y1, wk, ?_, e2⟩
              rw [← e1]; congr 1; omega

theorem uninitialized_value_construct_n_throw (T : ElemType σ α) :
    ∀ (n : Nat) (dst : Slots α) (dfirst : Nat) (w : σ) (r : Slots α) (w1 : σ),
      uninitialized_value_construct_n T dst dfirst n w = .throw r w1 →
      r.length = dst.length ∧
      (∀ j, r[j]? = dst[j]? ∨ (dfirst ≤ j ∧ j < dfirst + n ∧ r[j]? = some none)) := by
  intro n
  induction n with
  | zero =>
    intro dst dfirst w r w1 h
    simp only [uninitialized_value_construct_n] at h
    cases h
  | succ n ih =>
    intro dst dfirst w r w1 h
    rw [uninitialized_value_construct_n] at h
    split at h
    · cases h
    · rename_i hlen
      split at h
      · simp only [Step.throw.injEq] at h
        obtain ⟨rfl, rfl⟩ := h
        exact ⟨rfl, fun j => Or.inl rfl⟩
      · rename_i y w2 hc
        split at h
        · rename_i dst1 w3 hrec
          simp only [Step.throw.injEq] at h
          obtain ⟨rfl, rfl⟩ := h
          obtain ⟨h1, h2⟩ := ih _ _ _ _ _ hrec
          refine ⟨by simpa using h1, fun j => ?_⟩
          by_cases hj : j = dfirst
          · subst hj
            right
            refine ⟨le_refl _, by omega, ?_⟩
            rw [List.getElem?_set_self (by rw [h1]; simp; omega)]
          · rw [List.getElem?_set_ne (Ne.symm hj)]
            rcases h2 j with e | ⟨e1, e2, e3⟩
            · left; rw [e, List.getElem?_set_ne (Ne.symm hj)]
            · right; exact ⟨by omega, by omega, e3⟩
        · rename_i hne
          exact absurd h (by
            intro h1
            exact hne _ _ h1)

theorem uninitialized_value_construct_n_defined (T : ElemType σ α) :
    ∀ (n : Nat) (dst : Slots α) (dfirst : Nat) (w : σ),
      dfirst + n ≤ dst.length →
      uninitialized_value_construct_n T dst dfirst n w ≠ .ub := by
  intro n
  induction n with
  | zero =>
    intro dst dfirst w _ h
    simp only [uninitialized_value_construct_n] at h
    cases h
  | succ n ih =>
    intro dst dfirst w hlen h
    rw [uninitialized_value_construct_n] at h
    split at h
    · omega
    · split at h
      · cases h
      · split at h
        · cases h
        · exact ih _ (dfirst + 1) _ (by simp; omega) h

theorem copy_n_live (T : ElemType σ α) (src : Slots α) :
    ∀ (n : Nat) (dst : Slots α) (first d_first : Nat) (w : σ) (r : Slots α) (w1 : σ),
      (copy_n T src dst n first d_first w = .ok r w1 ∨
        copy_n T src dst n first d_first w = .throw r w1) → LiveSame dst r := by
  intro n
  induction n with
  | zero =>
    intro dst first d_first w r w1 h
    simp only [copy_n, Step.ok.injEq, false_or, or_false] at h
    rcases h with ⟨rfl, _⟩ | h
    · exact LiveSame.refl _
    · cases h
  | succ n ih =>
    intro dst first d_first w r w1 h
    rw [copy_n] at h
    split at h
    · rename_i s d hs hd
      split at h
      · exact (LiveSame.set _ hd).trans (ih _ _ _ _ _ _ h)
      · rcases h with h | h
        · cases h
        · simp only [Step.throw.injEq] at h
          obtain ⟨rfl, _⟩ := h
          exact LiveSame.set _ hd
    · rcases h with h | h <;> cases h

theorem copy_n_ok (T : ElemType σ α) (hT : T.Regular) (src : Slots α) :
    ∀ (n : Nat) (dst : Slots α) (first d_first : Nat) (w : σ) (r : Slots α) (w1 : σ),
      copy_n T src dst n first d_first w = .ok r w1 →
      (∀ j, j < d_first ∨ d_first + n ≤ j → r[j]? = dst[j]?) ∧
      (∀ k, k < n → ∃ x, src[first + k]? = some (some x) ∧
          r[d_first + k]? = some (some x)) := by
  intro n
  induction n with
  | zero =>
    intro dst first d_first w r w1 h
    simp only [copy_n, Step.ok.injEq] at h
    obtain ⟨rfl, _⟩ := h
    exact ⟨fun _ _ => rfl, fun k hk => absurd hk (Nat.not_lt_zero k)⟩
  | succ n ih =>
    intro dst first d_first w r w1 h
    rw [copy_n] at h
    split at h
    · rename_i s d hs hd
      split at h
      · rename_i d1 w2 ha
        have hd1 : d1 = s := hT.2.2.1 _ _ _ _ _ ha
        have hlen : d_first < dst.length := peek_isSome_lt (by rw [hd]; rfl)
        obtain ⟨k1, k2⟩ := ih _ _ _ _ _ _ h
        constructor
        · intro j hj
          rw [k1 j (by omega), List.getElem?_set_ne (by omega)]
        · intro k hk
          rcases Nat.eq_zero_or_pos k with rfl | hkpos
          · refine ⟨s, peek_eq_some.mp hs, ?_⟩
            rw [Nat.add_zero, k1 d_first (by omega), List.getElem?_set_self hlen, hd1]
          · obtain ⟨x, e1, e2⟩ := k2 (k - 1) (by omega)
            refine ⟨x, ?_, ?_⟩
            · rw [← e1]; congr 1; omega
            · rw [← e2]; congr 1; omega
      · cases h
    · cases h

theorem copy_n_defined (T : ElemType σ α) (src : Slots α) :
    ∀ (n : Nat) (dst : Slots α) (first d_first : Nat) (w : σ),
      (∀ k, k < n → (peek src (first + k)).isSome = true) →
      (∀ k, k < n → (peek dst (d_first + k)).isSome = true) →
      copy_n T src dst n first d_first w ≠ .ub := by
  intro n
  induction n with
  | zero =>
    intro dst first d_first w _ _ h
    simp only [copy_n] at h
    cases h
  | succ n ih =>
    intro dst first d_first w hsrc hdst h
    rw [copy_n] at h
    split at h
    · rename_i s d hs hd
      split at h
      · refine ih _ (first + 1) (d_first + 1) _ (fun k hk => ?_) (fun k hk => ?_) h
        · have := hsrc (k + 1) (by omega)
          rwa [show first + (k + 1) = first + 1 + k by omega] at this
        · rw [(LiveSame.set _ hd).2]
          have := hdst (k + 1) (by omega)
          rwa [show d_first + (k + 1) = d_first + 1 + k by omega] at this
      · cases h
    · rename_i hne
      obtain ⟨s, hs⟩ := Option.isSome_iff_exists.mp (hsrc 0 (by omega))
      obtain ⟨d, hd⟩ := Option.isSome_iff_exists.mp (hdst 0 (by omega))
      rw [Nat.add_zero] at hs hd
      exact hne s d hs hd

/-- The size and the capacity after `Reserve`, for any vector and element type. -/
theorem Reserve_shape (T : ElemType σ α) {v : Vector α} {n : Nat} {w : σ} :
    (∀ v1 u lk w1, Reserve T v n w = .done v1 u lk w1 →
      v1.size_ = v.size_ ∧
        ((n ≤ v.data_.Capacity ∧ v1 = v) ∨ (v.data_.Capacity < n ∧ v1.data_.Capacity = n))) ∧
    (∀ v1 lk w1, Reserve T v n w = .raised v1 lk w1 →
      v1.size_ = v.size_ ∧ v1.data_.Capacity = v.data_.Capacity) := by
  unfold Reserve
  by_cases hn : n ≤ v.data_.Capacity
  · rw [if_pos hn]
    constructor
    · intro v1 u lk w1 h
      simp only [Outcome.done.injEq] at h
      obtain ⟨rfl, _, _, _⟩ := h
      exact ⟨rfl, Or.inl ⟨hn, rfl⟩⟩
    · intro v1 lk w1 h
      cases h
  · rw [if_neg hn]
    constructor
    · intro v1 u lk w1 h
      split at h
      · cases h
      · cases h
      · rename_i data halloc
        obtain ⟨rfl, _⟩ := Allocate_block halloc
        unfold IsNothrowMoveOrCopyConstructible at h
        split at h
        · cases h
        · cases h
        · rename_i old new w2 hstep
          simp only [Outcome.done.injEq] at h
          obtain ⟨rfl, _, _, _⟩ := h
          refine ⟨rfl, Or.inr ⟨by omega, ?_⟩⟩
          split at hstep
          · obtain ⟨_, _, A2, _, _⟩ := uninitialized_move_n_ok T _ _ _ _ _ _ _ _ _ hstep
            rw [RawMemory.Capacity, A2, List.length_replicate]
          · split at hstep
            · rename_i dst w3 hcopy
              simp only [Step.ok.injEq, Prod.mk.injEq] at hstep
              obtain ⟨⟨_, rfl⟩, _⟩ := hstep
              obtain ⟨A2, _, _⟩ := uninitialized_copy_n_ok T _ _ _ _ _ _ _ _ hcopy
              rw [RawMemory.Capacity, A2, List.length_replicate]
            · cases hstep
            · cases hstep
    · intro v1 lk w1 h
      split at h
      · simp only [Outcome.raised.injEq] at h
        obtain ⟨rfl, _, _⟩ := h
        exact ⟨rfl, rfl⟩
      · cases h
      · unfold IsNothrowMoveOrCopyConstructible at h
        split at h
        · cases h
        · rename_i old new w2 hstep
          simp only [Outcome.raised.injEq] at h
          obtain ⟨rfl, _, _⟩ := h
          refine ⟨rfl, ?_⟩
          split at hstep
          · obtain ⟨A0, _, _⟩ := uninitialized_move_n_throw T _ _ _ _ _ _ _ _ _ hstep
            exact A0.1
          · split at hstep
            · cases hstep
            · simp only [Step.throw.injEq, Prod.mk.injEq] at hstep
              obtain ⟨⟨rfl, _⟩, _⟩ := hstep
              rfl
            · cases hstep
        · cases h

/-- Counterexample to C11 as stated: `Reserve(3)` on a vector of capacity 2 yields the
capacity 3, not `max (2 * 2) 3 = 4`. -/
theorem Reserve_does_not_double :
    (mk [1, 2] 0 : Vector Nat).Capacity < 3 ∧
    Reserve plainT (mk [1, 2] 0) 3 () = .done (mk [1, 2] 1) () [] () ∧
    (mk [1, 2] 1 : Vector Nat).Capacity = 3 ∧
    (mk [1, 2] 1 : Vector Nat).Capacity ≠ max (2 * (mk [1, 2] 0 : Vector Nat).Capacity) 3 := by
  decide

/-- C11, amended: for every vector, every element type and every `n > capacity`, the
capacity after a `Reserve(n)` that returns is exactly `n`; it is
`max (2 * capacity) n` just when `n` is at least twice the old capacity.  (The doubling
is applied by `Resize`, which computes that maximum before it calls `Reserve`.) -/
theorem Reserve_capacity_is_request (T : ElemType σ α) (v : Vector α) (n : Nat)
    (hn : v.Capacity < n) (w : σ) (v1 : Vector α) (u : Unit) (lk : List α) (w1 : σ)
    (h : Reserve T v n w = .done v1 u lk w1) :
    v1.Capacity = n ∧ (v1.Capacity = max (2 * v.Capacity) n ↔ 2 * v.Capacity ≤ n) := by
  have hcap : v1.Capacity = n := by
    rcases ((Reserve_shape T).1 v1 u lk w1 h).2 with ⟨h1, _⟩ | ⟨_, h2⟩
    · unfold Vector.Capacity at hn; omega
    · exact h2
  refine ⟨hcap, ?_⟩
  rw [hcap]
  constructor
  · intro he
    have := Nat.le_max_left (2 * v.Capacity) n
    omega
  · intro hle
    exact (Nat.max_eq_right hle).symm

/-- A concrete `Reserve` to at least twice the capacity: from 2 to 5. -/
theorem Reserve_capacity_is_request_witness :
    ((mk [4, 5] 0 : Vector Nat).Capacity < 5 ∧
      Reserve plainT (mk [4, 5] 0) 5 () = .done (mk [4, 5] 3) () [] ()) ∧
    ((mk [4, 5] 3 : Vector Nat).Capacity = 5 ∧
      ((mk [4, 5] 3 : Vector Nat).Capacity = max (2 * (mk [4, 5] 0 : Vector Nat).Capacity) 5 ↔
        2 * (mk [4, 5] 0 : Vector Nat).Capacity ≤ 5)) :=
  ⟨⟨by decide, by decide⟩,
    Reserve_capacity_is_request plainT (mk [4, 5] 0) 5 (by decide) () (mk [4, 5] 3) () [] ()
      (by decide)⟩

theorem transfer_slots (T : ElemType σ α) (hT : T.Regular) {v : Vector α} {xs : List α}
    (hv : v.Holds xs) {n : Nat} (hn : xs.length ≤ n) {new : Slots α}
    (A2 : new.length = (List.replicate n (none : Option α)).length)
    (A3 : ∀ j, j < 0 ∨ 0 + v.size_ ≤ j → new[j]? = (List.replicate n (none : Option α))[j]?)
    (A4 : ∀ k, k < v.size_ → ∃ x y, v.data_.buffer_[0 + k]? = some (some x) ∧
      new[0 + k]? = some (some y) ∧ (T.Regular → y = x)) :
    (Vector.mk ⟨new⟩ v.size_).Holds xs := by
  have hcap : new.length = n := by rw [A2, List.length_replicate]
  refine holds_of_pointwise hv.1 ?_ (fun j hj => ?_) (fun j hj1 hj2 => ?_)
  · show xs.length ≤ new.length
    omega
  · show new[j]? = _
    obtain ⟨x, y, e1, e2, e3⟩ := A4 j (by rw [hv.1]; exact hj)
    rw [Nat.zero_add] at e1 e2
    rw [e2, e3 hT, ← e1, hv.getElem? j, if_pos hj]
  · show new[j]? = _
    change j < new.length at hj2
    rw [A3 j (by rw [hv.1]; omega), List.getElem?_replicate, if_pos (by omega)]

theorem copied_built (T : ElemType σ α) (hT : T.Regular) {other : Vector α}
    {xs : List α} (hv : other.Holds xs) {w : σ} {v : Vector α} {w1 : σ}
    (h : Vector.copied T other w = .built v w1) :
    v.Holds xs ∧ v.data_.Capacity = other.size_ := by
  unfold Vector.copied at h
  split at h
  · cases h
  · cases h
  · rename_i data halloc
    obtain ⟨rfl, _⟩ := Allocate_block halloc
    split at h
    · cases h
    · cases h
    · rename_i mem w2 hcopy
      simp only [Built.built.injEq] at h
      obtain ⟨rfl, _⟩ := h
      obtain ⟨A2, A3, A4⟩ := uninitialized_copy_n_ok T _ _ _ _ _ _ _ _ hcopy
      exact ⟨transfer_slots T hT hv (Nat.le_of_eq hv.1.symm) A2 A3 A4,
        by rw [RawMemory.Capacity, A2, List.length_replicate]⟩

theorem copied_defined (T : ElemType σ α) {other : Vector α} {xs : List α}
    (hv : other.Holds xs) (w : σ)
    (halloc : RawMemory.Allocate T other.size_ w ≠ (.short : Allocation α)) :
    Vector.copied T other w ≠ .undefined := by
  intro h
  unfold Vector.copied at h
  split at h
  · cases h
  · rename_i hs
    exact halloc hs
  · rename_i data hblock
    obtain ⟨rfl, _⟩ := Allocate_block hblock
    split at h
    · rename_i hcopy
      refine uninitialized_copy_n_defined T _ _ _ _ _ _ (fun k hk => ?_) (by simp) hcopy
      rw [hv.1] at hk
      rw [Nat.zero_add, hv.peek_lt hk, List.getElem?_eq_getElem hk]; rfl
    · cases h
    · cases h

theorem copied_failed (T : ElemType σ α) {other : Vector α} {w : σ} {lk : List α}
    {w1 : σ} (h : Vector.copied T other w = .failed lk w1) : lk = [] := by
  unfold Vector.copied at h
  split at h
  · simp only [Built.failed.injEq] at h
    exact h.1.symm
  · cases h
  · rename_i data halloc
    obtain ⟨rfl, _⟩ := Allocate_block halloc
    split at h
    · cases h
    · rename_i mem w2 hcopy
      simp only [Built.failed.injEq] at h
      obtain ⟨rfl, _⟩ := h
      obtain ⟨_, A2⟩ := uninitialized_copy_n_throw T _ _ _ _ _ _ _ _ hcopy
      exact live_eq_nil_of_throw A2
    · cases h

/-- The copy constructor builds the vector when the allocation yields the storage and
the copy constructor of `T` does not throw. -/
theorem copied_returns (T : ElemType σ α) (hcp : ∀ x w, (T.copyCtor x w).1.isSome = true)
    {other : Vector α} {xs : List α} (hv : other.Holds xs) (w : σ)
    (halloc : (RawMemory.Allocate T other.size_ w : Allocation α).isBlock = true) :
    ∃ v w1, Vector.copied T other w = .built v w1 := by
  rcases hr : Vector.copied T other w with ⟨v, w1⟩ | ⟨lk, w1⟩ | _
  · exact ⟨v, w1, rfl⟩
  · exfalso
    unfold Vector.copied at hr
    split at hr
    · rename_i hb
      rw [hb] at halloc
      cases halloc
    · cases hr
    · split at hr
      · cases hr
      · rename_i hcopy
        exact uninitialized_copy_n_noThrow T hcp _ _ _ _ _ _ _ _ hcopy
      · cases hr
  · exfalso
    refine copied_defined T hv w ?_ hr
    intro hb
    rw [hb] at halloc
    cases halloc

/-- C14: the copy constructor, applied to a vector holding the `N` members of `xs` (with
an element type whose copies carry the value): the vector it builds has size `N`, holds
`xs` (the object at each index below `N` equals that of the source) and has the size of
the source as its capacity, whatever the capacity of the source.  The source is a
`const` operand: it is not changed.  The call has no undefined behaviour unless the byte
count of the request wraps, and it does build the vector when the allocation yields the
storage and the copy constructor of `T` does not throw. -/
theorem copy_constructor_copies (T : ElemType σ α) (hT : T.Regular) (other : Vector α)
    (xs : List α) (hv : other.Holds xs) (w : σ) :
    (∀ v w1, Vector.copied T other w = .built v w1 →
      v.size_ = xs.length ∧ v.Holds xs ∧ v.Capacity = other.size_ ∧
        ∀ i, i < xs.length → peek v.data_.buffer_ i = peek other.data_.buffer_ i) ∧
    (RawMemory.Allocate T other.size_ w ≠ (.short : Allocation α) →
      Vector.copied T other w ≠ .undefined) ∧
    ((∀ x w, (T.copyCtor x w).1.isSome = true) →
      (RawMemory.Allocate T other.size_ w : Allocation α).isBlock = true →
      ∃ v w1, Vector.copied T other w = .built v w1) := by
  refine ⟨fun v w1 h => ?_, fun hs => copied_defined T hv w hs,
    fun hcp hb => copied_returns T hcp hv w hb⟩
  obtain ⟨c1, c2⟩ := copied_built T hT hv h
  refine ⟨c1.1, c1, c2, fun i hi => ?_⟩
  rw [c1.peek_lt hi, hv.peek_lt hi]

/-- A concrete copy: three elements in a storage of capacity 5 give a copy of
capacity 3. -/
theorem copy_constructor_copies_witness :
    (plainT.Regular ∧ (mk [1, 2, 3] 2).Holds [1, 2, 3]) ∧
    Vector.copied plainT (mk [1, 2, 3] 2) () = .built (mk [1, 2, 3] 0) () ∧
    ((mk [1, 2, 3] 0 : Vector Nat).size_ = [1, 2, 3].length ∧
      (mk [1, 2, 3] 0).Holds [1, 2, 3] ∧
      (mk [1, 2, 3] 0 : Vector Nat).Capacity = (mk [1, 2, 3] 2 : Vector Nat).size_ ∧
      ∀ i, i < [1, 2, 3].length →
        peek (mk [1, 2, 3] 0 : Vector Nat).data_.buffer_ i =
          peek (mk [1, 2, 3] 2 : Vector Nat).data_.buffer_ i) :=
  ⟨⟨plainT_regular, ⟨rfl, rfl, by decide⟩⟩, by decide,
    (copy_constructor_copies plainT plainT_regular (mk [1, 2, 3] 2) [1, 2, 3]
      ⟨rfl, rfl, by decide⟩ ()).1 (mk [1, 2, 3] 0) () (by decide)⟩

/-- C16: when `rhs.size` exceeds the capacity of the left-hand side and an exception
leaves the copy assignment, the left-hand side is exactly as it was before the call
(size, capacity, every slot) and nothing is leaked: the copy of `rhs` is built first and
swapped in only once it is complete. -/
theorem CopyAssign_throw_strong (T : ElemType σ α) (v rhs : Vector α)
    (hgt : v.Capacity < rhs.size_) (w : σ) (v1 : Vector α) (lk : List α) (w1 : σ)
    (h : CopyAssign T v (.other rhs) w = .raised v1 lk w1) : v1 = v ∧ lk = [] := by
  simp only [CopyAssign] at h
  rw [if_neg (by unfold Vector.Capacity at hgt; omega)] at h
  split at h
  · cases h
  · rename_i lk2 w2 hc
    simp only [Outcome.raised.injEq] at h
    obtain ⟨rfl, rfl, _⟩ := h
    exact ⟨rfl, copied_failed T hc⟩
  · cases h

/-- A concrete throwing assignment: the copy of the second element of `rhs` throws. -/
theorem CopyAssign_throw_strong_witness :
    ((mk [1] 0 : Vector Nat).Capacity < (mk [2, 7] 0 : Vector Nat).size_ ∧
      CopyAssign copyingT (mk [1] 0) (.other (mk [2, 7] 0)) () = .raised (mk [1] 0) [] ()) ∧
    ((mk [1] 0 : Vector Nat) = mk [1] 0 ∧ ([] : List Nat) = []) :=
  ⟨⟨by decide, by decide⟩,
    CopyAssign_throw_strong copyingT (mk [1] 0) (mk [2, 7] 0) (by decide) () (mk [1] 0) [] ()
      (by decide)⟩

/-- C17: the move assignment `a = std::move(b)` is a total function (it cannot fail)
that exchanges the states: afterwards `a` has the former size, capacity and storage of
`b`, and `b` has those of `a` (it is not emptied).  Assigning a vector to itself leaves
it as it is. -/
theorem MoveAssign_exchanges (a b : Vector α) :
    (MoveAssign a (.other b)).1 = b ∧ (MoveAssign a (.other b)).2 = a ∧
    (MoveAssign a (.other b)).1.size_ = b.size_ ∧
    (MoveAssign a (.other b)).1.Capacity = b.Capacity ∧
    (MoveAssign a (.other b)).1.data_.buffer_ = b.data_.buffer_ ∧
    (MoveAssign a (.other b)).2.size_ = a.size_ ∧
    (MoveAssign a (.other b)).2.Capacity = a.Capacity ∧
    (MoveAssign a (.other b)).2.data_.buffer_ = a.data_.buffer_ ∧
    MoveAssign a .self = (a, a) :=
  ⟨rfl, rfl, rfl, rfl, rfl, rfl, rfl, rfl, rfl⟩

theorem eraseIdx_insertAt (xs : List α) (i : Nat) (x : α) (hi : i ≤ xs.length) :
    (xs.take i ++ x :: xs.drop i).eraseIdx i = xs := by
  apply List.ext_getElem?
  intro j
  rw [List.getElem?_eraseIdx, getElem?_insertAt xs i x hi, getElem?_insertAt xs i x hi]
  by_cases h : j < i
  · rw [if_pos h, if_pos h]
  · rw [if_neg h, if_neg (by omega), if_neg (by omega), Nat.add_sub_cancel]

/-- What an `Emplace` at `end()` into spare capacity that returns has done. -/
theorem Emplace_end_inplace_inv (T : ElemType σ α) {v : Vector α}
    (hcap : v.size_ < v.Capacity) {a : Arg σ α} {w : σ} {v1 : Vector α} {ret : Int}
    {lk : List α} {w1 : σ} (h : Emplace T v v.size_ a w = .done v1 ret lk w1) :
    ∃ x, construct T v.data_.buffer_ a w = some (some x, w1) ∧
      v1 = ⟨⟨v.data_.buffer_.set v.size_ (some x)⟩, v.size_ + 1⟩ ∧
      ret = toInt32 v.size_ ∧ lk = [] := by
  rcases hc : construct T v.data_.buffer_ a w with _ | ⟨_ | x, w0⟩
  · exfalso
    unfold Emplace at h
    rw [if_neg (Nat.lt_irrefl _),
      if_neg (show ¬ v.data_.Capacity ≤ v.size_ by unfold Vector.Capacity at hcap; omega)] at h
    unfold ReallocationInsert at h
    simp only [if_true, hc] at h
    split at h
    · cases h
    · cases h
    · rename_i hin
      split at hin <;> cases hin
  · exfalso
    unfold Emplace at h
    rw [if_neg (Nat.lt_irrefl _),
      if_neg (show ¬ v.data_.Capacity ≤ v.size_ by unfold Vector.Capacity at hcap; omega)] at h
    unfold ReallocationInsert at h
    simp only [if_true, hc] at h
    split at h
    · cases h
    · cases h
    · rename_i hin
      split at hin <;> cases hin
  · rw [Emplace_end_inplace T hcap hc] at h
    simp only [Outcome.done.injEq] at h
    obtain ⟨rfl, rfl, rfl, rfl⟩ := h
    exact ⟨x, rfl, rfl, rfl, rfl⟩

/-- A vector holding `xs` with a spare slot holds `xs ++ [x]` once `x` has been
constructed in slot `size_` and the size incremented. -/
theorem holds_push {v : Vector α} {xs : List α} (hv : v.Holds xs)
    (hcap : v.size_ < v.Capacity) (x : α) :
    (Vector.mk ⟨v.data_.buffer_.set v.size_ (some x)⟩ (v.size_ + 1)).Holds (xs ++ [x]) := by
  have hsz := hv.1
  have hcap1 : v.size_ < v.data_.buffer_.length := hcap
  have hlen : (xs ++ [x]).length = xs.length + 1 := by simp
  refine holds_of_pointwise (by rw [hlen, hsz]) ?_ (fun j hj => ?_) (fun j hj1 hj2 => ?_)
  · show (xs ++ [x]).length ≤ (v.data_.buffer_.set v.size_ (some x)).length
    rw [hlen, List.length_set]; omega
  · show (v.data_.buffer_.set v.size_ (some x))[j]? = _
    rw [hlen] at hj
    by_cases h1 : j < xs.length
    · rw [List.getElem?_set_ne (by omega), hv.getElem? j, if_pos h1,
        List.getElem?_append_left h1]
    · have hj1 : j = xs.length := by omega
      subst hj1
      rw [← hsz, List.getElem?_set_self hcap1, hsz, List.getElem?_append_right (Nat.le_refl _),
        Nat.sub_self]
      rfl
  · show (v.data_.buffer_.set v.size_ (some x))[j]? = _
    rw [hlen] at hj1
    change j < (v.data_.buffer_.set v.size_ (some x)).length at hj2
    rw [List.length_set] at hj2
    rw [List.getElem?_set_ne (by omega), hv.getElem? j, if_neg (by omega),
      if_pos (show j < v.data_.Capacity from hj2)]

/-- The round trip at a position `i ≤ size` below `2 ^ 31`, on a vector holding `xs`,
for an element type whose copies and moves carry the value: an `Emplace` at `i` that
returns, followed by an `Erase` at the position it returned.  The `Erase` has no
undefined behaviour; when it returns the vector holds exactly `xs` again, its size is
the original one, the position `Erase` returns is `i`, and the capacity is at least the
original one; and it does return when the move assignment of `T` does not throw. -/
theorem Emplace_then_Erase (T : ElemType σ α) (hT : T.Regular) (v : Vector α)
    (xs : List α) (hv : v.Holds xs) (i : Nat) (hi : i ≤ v.size_) (hi31 : i < 2 ^ 31)
    (a : Arg σ α) (w : σ) (v1 : Vector α) (ret : Int) (lk : List α) (w1 : σ)
    (h : Emplace T v i a w = .done v1 ret lk w1) (w2 : σ) :
    ret = (i : Int) ∧ Erase T v1 ret.toNat w2 ≠ .undefined ∧
    (∀ v2 ret2 lk2 w3, Erase T v1 ret.toNat w2 = .done v2 ret2 lk2 w3 →
      v2.Holds xs ∧ v2.size_ = v.size_ ∧ ret2 = (i : Int) ∧ v.Capacity ≤ v2.Capacity) ∧
    ((∀ d s w, (T.moveAssign d s w).1 = true) →
      ∃ v2 w3, Erase T v1 ret.toNat w2 = .done v2 (i : Int) [] w3) := by
  have hi1 : i ≤ xs.length := by rw [← hv.1]; exact hi
  obtain ⟨x, w0, _, c2, c3, _, c5⟩ := Emplace_done T hT hv hi1 hi31 h
  subst c3
  rw [Int.toNat_ofNat]
  have hlt : i < (xs.take i ++ x :: xs.drop i).length := by
    rw [length_insertAt xs i x hi1]; omega
  have hd := toInt32_of_lt hi31
  refine ⟨rfl, Erase_defined T c2 hlt hd w2, fun v2 ret2 lk2 w3 h2 => ?_, fun hma => ?_⟩
  · obtain ⟨d1, d2, d3, d4, _⟩ := Erase_done T hT c2 hlt hd h2
    rw [eraseIdx_insertAt xs i x hi1] at d1
    refine ⟨d1, by rw [d1.1, hv.1], d4, ?_⟩
    show v.data_.Capacity ≤ v2.data_.Capacity
    rw [d3, c5]
    split
    · split <;> omega
    · exact Nat.le_refl _
  · obtain ⟨v2, w3, e, _⟩ := Erase_returns T hT hma c2 hlt hd w2
    exact ⟨v2, w3, e⟩

/-- A concrete round trip below `2 ^ 31`: insertion at index 1 into a full vector, then
erasure. -/
theorem Emplace_then_Erase_witness :
    (plainT.Regular ∧ (mk [1, 2, 3] 0).Holds [1, 2, 3] ∧ 1 ≤ (mk [1, 2, 3] 0).size_ ∧
      1 < 2 ^ 31 ∧
      Emplace plainT (mk [1, 2, 3] 0) 1 (.moveOf 9) () = .done (mk [1, 9, 2, 3] 2) 1 [] ()) ∧
    Erase plainT (mk [1, 9, 2, 3] 2) (1 : Int).toNat () = .done (mk [1, 2, 3] 3) 1 [] () ∧
    ((mk [1, 2, 3] 3).Holds [1, 2, 3] ∧
      (mk [1, 2, 3] 3 : Vector Nat).size_ = (mk [1, 2, 3] 0 : Vector Nat).size_ ∧
      (1 : Int) = ((1 : Nat) : Int) ∧
      (mk [1, 2, 3] 0 : Vector Nat).Capacity ≤ (mk [1, 2, 3] 3 : Vector Nat).Capacity) :=
  ⟨⟨plainT_regular, ⟨rfl, rfl, by decide⟩, by decide, by decide, by decide⟩, by decide,
    (Emplace_then_Erase plainT plainT_regular (mk [1, 2, 3] 0) [1, 2, 3]
      ⟨rfl, rfl, by decide⟩ 1 (by decide) (by decide) (.moveOf 9) () (mk [1, 9, 2, 3] 2) 1 []
      () (by decide) ()).2.2.1 (mk [1, 2, 3] 3) 1 [] () (by decide)⟩

/-- C20 (the code does not do what the claim says): `Emplace` and `Erase` keep the
offset of the position in an `int`.  On a vector holding `xs` with spare capacity whose
size is at least `2 ^ 31` and converts to a natural number `d` (as the size `2 ^ 32`
converts to `0`), for an element type whose copies and moves carry the value: an
`Emplace` at `end()` that returns has appended its element `x` but returns the position
`d`, which lies before `end()`; the `Erase` at that position, when it returns, leaves
the vector holding `xs ++ [x]` without its member of index `d` (a member of `xs` is
removed and `x` stays) and returns the position `d`, not `size`; and that `Erase` does
return when no operation of `T` throws. -/
theorem Emplace_end_then_Erase_wraps (T : ElemType σ α) (hT : T.Regular) (v : Vector α)
    (xs : List α) (hv : v.Holds xs) (hcap : v.size_ < v.Capacity) (hwrap : 2 ^ 31 ≤ v.size_)
    (d : Nat) (hd : toInt32 v.size_ = (d : Int)) (a : Arg σ α) (w : σ) (v1 : Vector α)
    (ret : Int) (lk : List α) (w1 : σ)
    (h : Emplace T v v.size_ a w = .done v1 ret lk w1) (w2 : σ) :
    ret = (d : Int) ∧ d < v.size_ ∧
    ∃ x, construct T v.data_.buffer_ a w = some (some x, w1) ∧ v1.Holds (xs ++ [x]) ∧
      (∀ v2 ret2 lk2 w3, Erase T v1 ret.toNat w2 = .done v2 ret2 lk2 w3 →
        v2.Holds (xs.eraseIdx d ++ [x]) ∧ v2.size_ = v.size_ ∧ ret2 = (d : Int) ∧
          ret2 ≠ (v.size_ : Int)) ∧
      (T.NoThrow → ∃ v2 w3, Erase T v1 ret.toNat w2 = .done v2 (d : Int) [] w3 ∧
        v2.Holds (xs.eraseIdx d ++ [x])) := by
  obtain ⟨x, hc, rfl, rfl, rfl⟩ := Emplace_end_inplace_inv T hcap h
  have hdle := toInt32_natCast_le hd
  have hdlt : d < v.size_ := by omega
  have hv1 := holds_push hv hcap x
  have hdx : d < xs.length := by rw [← hv.1]; exact hdlt
  have hlt : d < (xs ++ [x]).length := by
    rw [List.length_append]; omega
  have hd' : toInt32 d = (d : Int) := toInt32_of_lt hdle.2
  have herase : (xs ++ [x]).eraseIdx d = xs.eraseIdx d ++ [x] :=
    List.eraseIdx_append_of_lt_length hdx [x]
  rw [hd, Int.toNat_ofNat]
  refine ⟨rfl, hdlt, x, hc, hv1, fun v2 ret2 lk2 w3 h2 => ?_, fun hN => ?_⟩
  · obtain ⟨e1, e2, _, e4, _⟩ := Erase_done T hT hv1 hlt hd' h2
    rw [herase] at e1
    refine ⟨e1, by rw [e2]; simp, e4, ?_⟩
    rw [e4]
    omega
  · obtain ⟨v2, w3, e1, e2⟩ := Erase_returns T hT hN.2.2.2.2 hv1 hlt hd' w2
    rw [herase] at e2
    exact ⟨v2, w3, e1, e2⟩

/-- The failing input: the vector that holds `2 ^ 32` zeros and has one spare slot.
`Emplace(end(), 9)` appends the `9` and returns `begin()`; the `Erase` at the position
returned removes the first zero and returns `begin()`: the vector then holds
`2 ^ 32 - 1` zeros followed by the `9`. -/
theorem Emplace_end_then_Erase_wraps_witness :
    (plainT.Regular ∧ (mk zeros32 1).Holds zeros32 ∧
      (mk zeros32 1).size_ < (mk zeros32 1).Capacity ∧ 2 ^ 31 ≤ (mk zeros32 1).size_ ∧
      toInt32 (mk zeros32 1).size_ = ((0 : Nat) : Int) ∧
      Emplace plainT (mk zeros32 1) (mk zeros32 1).size_ (.moveOf 9) () =
        .done ⟨⟨(mk zeros32 1).data_.buffer_.set (mk zeros32 1).size_ (some 9)⟩,
          (mk zeros32 1).size_ + 1⟩ (toInt32 (mk zeros32 1).size_) [] ()) ∧
    (toInt32 (mk zeros32 1).size_ = ((0 : Nat) : Int) ∧ 0 < (mk zeros32 1).size_ ∧
      ∃ x, construct plainT (mk zeros32 1).data_.buffer_ (.moveOf 9) () = some (some x, ()) ∧
        (Vector.mk ⟨(mk zeros32 1).data_.buffer_.set (mk zeros32 1).size_ (some 9)⟩
          ((mk zeros32 1).size_ + 1)).Holds (zeros32 ++ [x]) ∧
        (∀ v2 ret2 lk2 w3,
          Erase plainT ⟨⟨(mk zeros32 1).data_.buffer_.set (mk zeros32 1).size_ (some 9)⟩,
            (mk zeros32 1).size_ + 1⟩ (toInt32 (mk zeros32 1).size_).toNat () =
              .done v2 ret2 lk2 w3 →
          v2.Holds (zeros32.eraseIdx 0 ++ [x]) ∧ v2.size_ = (mk zeros32 1).size_ ∧
            ret2 = ((0 : Nat) : Int) ∧ ret2 ≠ ((mk zeros32 1).size_ : Int)) ∧
        (plainT.NoThrow → ∃ v2 w3,
          Erase plainT ⟨⟨(mk zeros32 1).data_.buffer_.set (mk zeros32 1).size_ (some 9)⟩,
            (mk zeros32 1).size_ + 1⟩ (toInt32 (mk zeros32 1).size_).toNat () =
              .done v2 ((0 : Nat) : Int) [] w3 ∧
          v2.Holds (zeros32.eraseIdx 0 ++ [x]))) :=
  have hsize : (mk zeros32 1).size_ = 2 ^ 32 := by
    rw [mk_size, zeros32, List.length_replicate]
  have hcap : (mk zeros32 1).size_ < (mk zeros32 1).Capacity := by
    rw [mk_size, mk_capacity]
    exact Nat.lt_add_one _
  have hwrap : 2 ^ 31 ≤ (mk zeros32 1).size_ := by rw [hsize]; decide
  have h0 : toInt32 (mk zeros32 1).size_ = ((0 : Nat) : Int) := by rw [hsize]; decide
  have hE := Emplace_end_inplace plainT hcap
    (show construct plainT (mk zeros32 1).data_.buffer_ (.moveOf 9) () = some (some 9, ())
      from rfl)
  ⟨⟨plainT_regular, mk_holds zeros32 1, hcap, hwrap, h0, hE⟩,
    Emplace_end_then_Erase_wraps plainT plainT_regular (mk zeros32 1) zeros32
      (mk_holds zeros32 1) hcap hwrap 0 h0 (.moveOf 9) () _ _ _ _ hE ()⟩

theorem length_destroy_n : ∀ (n : Nat) (mem : Slots α) (first : Nat),
    (destroy_n mem first n).length = mem.length := by
  intro n
  induction n with
  | zero => intro mem first; rfl
  | succ n ih =>
    intro mem first
    rw [destroy_n, ih, List.length_set]

theorem getElem?_destroy_n : ∀ (n : Nat) (mem : Slots α) (first j : Nat),
    (destroy_n mem first n)[j]? =
      if first ≤ j ∧ j < first + n ∧ j < mem.length then some none else mem[j]? := by
  intro n
  induction n with
  | zero =>
    intro mem first j
    rw [destroy_n, if_neg (by omega)]
  | succ n ih =>
    intro mem first j
    rw [destroy_n, ih, List.length_set, List.getElem?_set]
    by_cases h1 : first = j
    · subst h1
      rw [if_neg (by omega), if_pos rfl]
      by_cases h2 : first < mem.length
      · rw [if_pos h2, if_pos ⟨Nat.le_refl _, by omega, h2⟩]
      · rw [if_neg h2, if_neg (by omega), List.getElem?_eq_none (by omega)]
    · rw [if_neg h1]
      by_cases h2 : first + 1 ≤ j ∧ j < first + 1 + n ∧ j < mem.length
      · rw [if_pos h2, if_pos ⟨by omega, by omega, h2.2.2⟩]
      · rw [if_neg h2, if_neg (by omega)]

/-- A value construction that throws leaves the storage of a vector as it was. -/
theorem value_throw_restores (T : ElemType σ α) {v : Vector α} {xs : List α}
    (hv : v.Holds xs) {n : Nat} {w : σ} {mem : Slots α} {w1 : σ}
    (h : uninitialized_value_construct_n T v.data_.buffer_ v.size_ n w = .throw mem w1) :
    mem = v.data_.buffer_ := by
  obtain ⟨h1, h2⟩ := uninitialized_value_construct_n_throw T _ _ _ _ _ _ h
  apply List.ext_getElem?
  intro j
  rcases h2 j with e | ⟨e1, _, e3⟩
  · exact e
  · rw [e3, hv.getElem? j, if_neg (by rw [← hv.1]; omega)]
    have hj : j < mem.length := by
      by_contra hge
      rw [List.getElem?_eq_none (Nat.le_of_not_lt hge)] at e3
      cases e3
    rw [h1] at hj
    rw [if_pos (show j < v.data_.Capacity from hj)]

/-- A growing `Reserve` that returns was asked for fewer than `2 ^ 63` slots. -/
theorem Reserve_grow_bound (T : ElemType σ α) {v : Vector α} {n : Nat}
    (hn : v.data_.Capacity < n) {w : σ} {v1 : Vector α} {u : Unit} {lk : List α} {w1 : σ}
    (h : Reserve T v n w = .done v1 u lk w1) : n < 2 ^ 63 := by
  unfold Reserve at h
  rw [if_neg (by omega)] at h
  split at h
  · cases h
  · cases h
  · rename_i data halloc
    exact (Allocate_block halloc).2.2

/-- The step of `Resize` that provides the capacity, on a vector holding `xs`. -/
theorem resize_reserve_step (T : ElemType σ α) (hT : T.Regular) {v : Vector α}
    {xs : List α} (hv : v.Holds xs) {n : Nat} {w : σ} {v2 : Vector α} {u : Unit}
    {lk : List α} {w2 : σ}
    (h : (if v.data_.Capacity < n then Reserve T v (max (v.data_.Capacity * 2 % 2 ^ 64) n) w
          else .done v () [] w) = .done v2 u lk w2) :
    v2.Holds xs ∧ v2.size_ = v.size_ ∧ lk = [] ∧ n ≤ v2.data_.Capacity ∧
      v2.data_.Capacity =
        (if n ≤ v.data_.Capacity then v.data_.Capacity else max (2 * v.data_.Capacity) n) := by
  by_cases hc : v.data_.Capacity < n
  · rw [if_pos hc] at h
    have hlt : v.data_.Capacity < max (v.data_.Capacity * 2 % 2 ^ 64) n :=
      Nat.lt_of_lt_of_le hc (Nat.le_max_right _ _)
    obtain ⟨c1, c2, c3, c4⟩ := Reserve_done T hT hv hlt h
    have hb := Reserve_grow_bound T hlt h
    have hnb : n < 2 ^ 63 := Nat.lt_of_le_of_lt (Nat.le_max_right _ _) hb
    have hmod : v.data_.Capacity * 2 % 2 ^ 64 = 2 * v.data_.Capacity := by
      rw [Nat.mod_eq_of_lt (by omega), Nat.mul_comm]
    refine ⟨c3, c2, c4, by rw [c1]; exact Nat.le_max_right _ _, ?_⟩
    rw [c1, if_neg (by omega), hmod]
  · rw [if_neg hc] at h
    simp only [Outcome.done.injEq] at h
    obtain ⟨rfl, _, rfl, _⟩ := h
    exact ⟨hv, rfl, rfl, by omega, by rw [if_pos (by omega)]⟩

theorem Resize_done (T : ElemType σ α) (hT : T.Regular) {v : Vector α} {xs : List α}
    (hv : v.Holds xs) {n : Nat} {w : σ} {v1 : Vector α} {u : Unit} {lk : List α} {w1 : σ}
    (h : Resize T v n w = .done v1 u lk w1) :
    v1.size_ = n ∧ v1.WF ∧ lk = [] ∧
      v1.data_.Capacity =
        (if n ≤ v.data_.Capacity then v.data_.Capacity else max (2 * v.data_.Capacity) n) ∧
      (∀ j, j < xs.length → j < n → peek v1.data_.buffer_ j = xs[j]?) ∧
      (∀ j, xs.length ≤ j → j < n → ∃ y wk, peek v1.data_.buffer_ j = some y ∧
        (T.valueCtor wk).1 = some y) := by
  have hsz := hv.1
  have hle := hv.2.2
  unfold Resize at h
  by_cases hshrink : n < v.size_
  · rw [if_pos hshrink] at h
    simp only [Outcome.done.injEq] at h
    obtain ⟨rfl, _, rfl, _⟩ := h
    refine ⟨rfl, ⟨?_, fun j hj => ?_, fun j hj => ?_⟩, rfl, ?_, fun j hj1 hj2 => ?_,
      fun j hj1 hj2 => ?_⟩
    · show n ≤ (destroy_n v.data_.buffer_ n (v.size_ - n)).length
      rw [length_destroy_n]
      show n ≤ v.data_.Capacity
      omega
    · show (peek (destroy_n v.data_.buffer_ n (v.size_ - n)) j).isSome = true
      change j < n at hj
      rw [peek_destroy_n, if_neg (by omega), hv.peek_lt (by omega),
        List.getElem?_eq_getElem (by omega)]
      rfl
    · show peek (destroy_n v.data_.buffer_ n (v.size_ - n)) j = none
      change n ≤ j at hj
      rw [peek_destroy_n]
      split
      · rfl
      · exact hv.peek_ge (by omega)
    · show (destroy_n v.data_.buffer_ n (v.size_ - n)).length = _
      rw [length_destroy_n, if_pos (by omega)]
      rfl
    · show peek (destroy_n v.data_.buffer_ n (v.size_ - n)) j = _
      rw [peek_destroy_n, if_neg (by omega), hv.peek_lt hj1]
    · omega
  · rw [if_neg hshrink] at h
    split at h
    · cases h
    · cases h
    · rename_i v2 u2 lk2 w2 hstep
      obtain ⟨s1, s2, s3, s4, s5⟩ := resize_reserve_step T hT hv hstep
      split at h
      · cases h
      · cases h
      · rename_i mem w3 hval
        simp only [Outcome.done.injEq] at h
        obtain ⟨rfl, _, rfl, _⟩ := h
        obtain ⟨A1, A2, A3⟩ := uninitialized_value_construct_n_ok T _ _ _ _ _ _ hval
        rw [s2, hsz] at A2 A3
        have hin : ∀ j, xs.length ≤ j → j < n → ∃ y wk, peek mem j = some y ∧
            (T.valueCtor wk).1 = some y := by
          intro j hj1 hj2
          obtain ⟨y, wk, e1, e2⟩ := A3 (j - xs.length) (by omega)
          rw [show xs.length + (j - xs.length) = j by omega] at e1
          exact ⟨y, wk, peek_eq_some.mpr e1, e2⟩
        have hlow : ∀ j, j < xs.length → peek mem j = xs[j]? := by
          intro j hj
          rw [← s1.peek_lt hj]
          unfold peek
          rw [A2 j (Or.inl hj)]
        refine ⟨rfl, ⟨?_, fun j hj => ?_, fun j hj => ?_⟩, s3, ?_, fun j hj1 _ => hlow j hj1,
          hin⟩
        · show n ≤ mem.length
          rw [A1]; exact s4
        · show (peek mem j).isSome = true
          change j < n at hj
          by_cases hj1 : j < xs.length
          · rw [hlow j hj1, List.getElem?_eq_getElem hj1]; rfl
          · obtain ⟨y, _, e, _⟩ := hin j (by omega) hj
            rw [e]; rfl
        · show peek mem j = none
          change n ≤ j at hj
          have : peek mem j = peek v2.data_.buffer_ j := by
            unfold peek
            rw [A2 j (Or.inr (by omega))]
          rw [this]
          exact s1.peek_ge (by omega)
        · show mem.length = _
          rw [A1]; exact s5

theorem Resize_defined (T : ElemType σ α) (hT : T.Regular) {v : Vector α}
    {xs : List α} (hv : v.Holds xs) (n : Nat) (w : σ)
    (halloc : v.Capacity < n →
      RawMemory.Allocate T (max (v.Capacity * 2 % 2 ^ 64) n) w ≠ (.short : Allocation α)) :
    Resize T v n w ≠ .undefined := by
  intro h
  unfold Resize at h
  split at h
  · cases h
  · split at h
    · rename_i hstep
      split at hstep
      · rename_i hc
        exact Reserve_defined T hv (Nat.lt_of_lt_of_le hc (Nat.le_max_right _ _)) w
          (halloc hc) hstep
      · cases hstep
    · cases h
    · rename_i v2 u2 lk2 w2 hstep
      obtain ⟨s1, s2, s3, s4, s5⟩ := resize_reserve_step T hT hv hstep
      split at h
      · rename_i hval
        refine uninitialized_value_construct_n_defined T _ _ _ _ ?_ hval
        have := s1.2.2
        rw [← s1.1] at this
        show v2.size_ + (n - v2.size_) ≤ v2.data_.Capacity
        omega
      · cases h
      · cases h

/-- `Resize` returns when no operation of `T` throws and, where it has to grow the
capacity, the allocation yields the storage. -/
theorem Resize_returns (T : ElemType σ α) (hT : T.Regular) (hN : T.NoThrow)
    {v : Vector α} {xs : List α} (hv : v.Holds xs) (n : Nat) (w : σ)
    (halloc : v.Capacity < n →
      (RawMemory.Allocate T (max (v.Capacity * 2 % 2 ^ 64) n) w : Allocation α).isBlock = true) :
    ∃ v1 w1, Resize T v n w = .done v1 () [] w1 := by
  rcases hr : Resize T v n w with ⟨v1, u, lk, w1⟩ | ⟨v1, lk, w1⟩ | _
  · obtain ⟨_, _, c3, _⟩ := Resize_done T hT hv hr
    subst c3
    exact ⟨v1, w1, rfl⟩
  · exfalso
    unfold Resize at hr
    split at hr
    · cases hr
    · split at hr
      · cases hr
      · rename_i v2 lk2 w2 hstep
        split at hstep
        · rename_i hc
          refine Reserve_noraise T (fun _ => hN.2.2.1) (fun _ => hN.2.1)
            (Nat.lt_of_lt_of_le hc (Nat.le_max_right _ _)) ?_ hstep
          intro hb
          have := halloc hc
          unfold Vector.Capacity at this
          rw [hb] at this
          cases this
        · cases hstep
      · split at hr
        · cases hr
        · rename_i hval
          exact uninitialized_value_construct_n_noThrow T hN.1 _ _ _ _ _ _ hval
        · cases hr
  · exfalso
    refine Resize_defined T hT hv n w (fun hc => ?_) hr
    intro hb
    have := halloc hc
    rw [hb] at this
    cases this

/-- C12: on a vector holding `xs`, for an element type whose copies and moves carry the
value: when `Resize(n)` returns, the size is `n`, the invariant holds, the objects at the
indices below `min (old size) n` are those of `xs`, every object at an index in
`[old size, n)` is the result of a value construction `T()`, and the capacity is the old
one when `n ≤ capacity` and `max (2 * capacity) n` otherwise.  The call has no undefined
behaviour unless the byte count of the storage it asks for wraps, and it does return when
no operation of `T` throws and, where the capacity has to grow, the allocation yields
the storage. -/
theorem Resize_result (T : ElemType σ α) (hT : T.Regular) (v : Vector α) (xs : List α)
    (hv : v.Holds xs) (n : Nat) (w : σ) :
    (∀ v1 u lk w1, Resize T v n w = .done v1 u lk w1 →
      v1.size_ = n ∧ v1.WF ∧
      (∀ j, j < min v.size_ n → peek v1.data_.buffer_ j = xs[j]?) ∧
      (∀ j, v.size_ ≤ j → j < n → ∃ y wk, peek v1.data_.buffer_ j = some y ∧
        (T.valueCtor wk).1 = some y) ∧
      v1.Capacity = (if n ≤ v.Capacity then v.Capacity else max (2 * v.Capacity) n)) ∧
    ((v.Capacity < n →
        RawMemory.Allocate T (max (v.Capacity * 2 % 2 ^ 64) n) w ≠ (.short : Allocation α)) →
      Resize T v n w ≠ .undefined) ∧
    (T.NoThrow →
      (v.Capacity < n →
        (RawMemory.Allocate T (max (v.Capacity * 2 % 2 ^ 64) n) w :
          Allocation α).isBlock = true) →
      ∃ v1 w1, Resize T v n w = .done v1 () [] w1) := by
  refine ⟨fun v1 u lk w1 h => ?_, fun hs => Resize_defined T hT hv n w hs,
    fun hN hb => Resize_returns T hT hN hv n w hb⟩
  obtain ⟨c1, c2, _, c4, c5, c6⟩ := Resize_done T hT hv h
  refine ⟨c1, c2, fun j hj => ?_, fun j hj1 hj2 => ?_, c4⟩
  · rw [hv.1] at hj
    exact c5 j (by omega) (by omega)
  · rw [hv.1] at hj1
    exact c6 j hj1 hj2

/-- Two concrete calls: growing `[1, 2, 3]` from capacity 4 to size 6 (capacity 8) and
shrinking it to size 1. -/
theorem Resize_result_witness :
    (plainT.Regular ∧ (mk [1, 2, 3] 1).Holds [1, 2, 3]) ∧
    (Resize plainT (mk [1, 2, 3] 1) 6 () = .done (mk [1, 2, 3, 0, 0, 0] 2) () [] () ∧
      Resize plainT (mk [1, 2, 3] 1) 1 () = .done (mk [1] 3) () [] ()) ∧
    ((mk [1, 2, 3, 0, 0, 0] 2 : Vector Nat).size_ = 6 ∧ (mk [1, 2, 3, 0, 0, 0] 2).WF ∧
      (∀ j, j < min (mk [1, 2, 3] 1 : Vector Nat).size_ 6 →
        peek (mk [1, 2, 3, 0, 0, 0] 2 : Vector Nat).data_.buffer_ j = [1, 2, 3][j]?) ∧
      (∀ j, (mk [1, 2, 3] 1 : Vector Nat).size_ ≤ j → j < 6 → ∃ y wk,
        peek (mk [1, 2, 3, 0, 0, 0] 2 : Vector Nat).data_.buffer_ j = some y ∧
          (plainT.valueCtor wk).1 = some y) ∧
      (mk [1, 2, 3, 0, 0, 0] 2 : Vector Nat).Capacity =
        (if 6 ≤ (mk [1, 2, 3] 1 : Vector Nat).Capacity then (mk [1, 2, 3] 1 : Vector Nat).Capacity
         else max (2 * (mk [1, 2, 3] 1 : Vector Nat).Capacity) 6)) ∧
    ((mk [1] 3 : Vector Nat).size_ = 1 ∧ (mk [1] 3).WF ∧
      (∀ j, j < min (mk [1, 2, 3] 1 : Vector Nat).size_ 1 →
        peek (mk [1] 3 : Vector Nat).data_.buffer_ j = [1, 2, 3][j]?) ∧
      (∀ j, (mk [1, 2, 3] 1 : Vector Nat).size_ ≤ j → j < 1 → ∃ y wk,
        peek (mk [1] 3 : Vector Nat).data_.buffer_ j = some y ∧
          (plainT.valueCtor wk).1 = some y) ∧
      (mk [1] 3 : Vector Nat).Capacity =
        (if 1 ≤ (mk [1, 2, 3] 1 : Vector Nat).Capacity then (mk [1, 2, 3] 1 : Vector Nat).Capacity
         else max (2 * (mk [1, 2, 3] 1 : Vector Nat).Capacity) 1)) :=
  ⟨⟨plainT_regular, ⟨rfl, rfl, by decide⟩⟩, ⟨by decide, by decide⟩,
    (Resize_result plainT plainT_regular (mk [1, 2, 3] 1) [1, 2, 3] ⟨rfl, rfl, by decide⟩ 6
      ()).1 (mk [1, 2, 3, 0, 0, 0] 2) () [] () (by decide),
    (Resize_result plainT plainT_regular (mk [1, 2, 3] 1) [1, 2, 3] ⟨rfl, rfl, by decide⟩ 1
      ()).1 (mk [1] 3) () [] () (by decide)⟩

/-- C13: `Resize(n)` with `n > size` on a vector holding `xs` (element type whose copies
and moves carry the value), when the capacity was provided (no reallocation was needed,
or `Reserve` returned) and an exception then leaves the call, that is, a value
construction threw: the vector holds `xs` as before with nothing beyond (the objects
built by this call are destroyed, none is leaked), the size is the one before the call,
and the capacity is the old one when `n ≤ capacity` and `max (2 * capacity) n`
otherwise. -/
theorem Resize_value_throw (T : ElemType σ α) (hT : T.Regular) (v : Vector α)
    (xs : List α) (hv : v.Holds xs) (n : Nat) (hn : v.size_ < n) (w : σ)
    (hres : n ≤ v.Capacity ∨
      ∃ v2 lk2 w2, Reserve T v (max (v.Capacity * 2) n) w = .done v2 () lk2 w2)
    (v1 : Vector α) (lk : List α) (w1 : σ) (h : Resize T v n w = .raised v1 lk w1) :
    v1.Holds xs ∧ v1.size_ = v.size_ ∧ lk = [] ∧
      (∀ i, i < v.size_ → peek v1.data_.buffer_ i = peek v.data_.buffer_ i) ∧
      v1.Capacity = (if n ≤ v.Capacity then v.Capacity else max (2 * v.Capacity) n) := by
  unfold Vector.Capacity at hres ⊢
  unfold Resize at h
  rw [if_neg (by omega)] at h
  have hmod : v.data_.Capacity < n → v.data_.Capacity * 2 % 2 ^ 64 = v.data_.Capacity * 2 := by
    intro hc
    rcases hres with hle | ⟨v2, lk2, w2, hr⟩
    · omega
    · have hlt : v.data_.Capacity < max (v.data_.Capacity * 2) n :=
        Nat.lt_of_lt_of_le hc (Nat.le_max_right _ _)
      have hb := Reserve_grow_bound T hlt hr
      have := Nat.le_max_left (v.data_.Capacity * 2) n
      exact Nat.mod_eq_of_lt (by omega)
  have key : ∀ v2 u2 lk2 w2,
      (if v.data_.Capacity < n then Reserve T v (max (v.data_.Capacity * 2 % 2 ^ 64) n) w
        else .done v () [] w) = .done v2 u2 lk2 w2 →
      v1.Holds xs ∧ v1.size_ = v.size_ ∧ lk = [] ∧
        v1.data_.Capacity =
          (if n ≤ v.data_.Capacity then v.data_.Capacity
           else max (2 * v.data_.Capacity) n) := by
    intro v2 u2 lk2 w2 hstep
    obtain ⟨s1, s2, s3, _, s5⟩ := resize_reserve_step T hT hv hstep
    rw [hstep] at h
    simp only at h
    split at h
    · cases h
    · rename_i mem w3 hval
      simp only [Outcome.raised.injEq] at h
      obtain ⟨rfl, rfl, _⟩ := h
      have hmem := value_throw_restores T s1 hval
      subst hmem
      exact ⟨s1, s2, s3, s5⟩
    · cases h
  have hfin : v1.Holds xs ∧ v1.size_ = v.size_ ∧ lk = [] ∧
      v1.data_.Capacity =
        (if n ≤ v.data_.Capacity then v.data_.Capacity
         else max (2 * v.data_.Capacity) n) := by
    by_cases hc : v.data_.Capacity < n
    · rcases hres with hle | ⟨v2, lk2, w2, hr⟩
      · omega
      · exact key v2 () lk2 w2 (by rw [if_pos hc, hmod hc]; exact hr)
    · exact key v () [] w (by rw [if_neg hc])
  obtain ⟨f1, f2, f3, f4⟩ := hfin
  refine ⟨f1, f2, f3, fun i hi => ?_, f4⟩
  rw [hv.1] at hi
  rw [f1.peek_lt hi, hv.peek_lt hi]

/-- A concrete throwing `Resize`: `Resize(4)` on the one element `5` with the countdown
at 2 reallocates to capacity 4, value-constructs one element, and the second value
construction throws. -/
theorem Resize_value_throw_witness :
    (countdownT.Regular ∧ (mk [5] 0).Holds [5] ∧ (mk [5] 0 : Vector Nat).size_ < 4 ∧
      Reserve countdownT (mk [5] 0) (max ((mk [5] 0 : Vector Nat).Capacity * 2) 4) 2 =
        .done (mk [5] 3) () [] 2 ∧
      Resize countdownT (mk [5] 0) 4 2 = .raised (mk [5] 3) [] 0) ∧
    ((mk [5] 3).Holds [5] ∧ (mk [5] 3 : Vector Nat).size_ = (mk [5] 0 : Vector Nat).size_ ∧
      ([] : List Nat) = [] ∧
      (∀ i, i < (mk [5] 0 : Vector Nat).size_ →
        peek (mk [5] 3 : Vector Nat).data_.buffer_ i =
          peek (mk [5] 0 : Vector Nat).data_.buffer_ i) ∧
      (mk [5] 3 : Vector Nat).Capacity =
        (if 4 ≤ (mk [5] 0 : Vector Nat).Capacity then (mk [5] 0 : Vector Nat).Capacity
         else max (2 * (mk [5] 0 : Vector Nat).Capacity) 4)) :=
  have hreg : countdownT.Regular :=
    ⟨fun _ _ _ _ h => by cases h; rfl, fun _ _ _ _ _ h => by cases h; rfl,
      fun _ _ _ _ _ h => by cases h; rfl, fun _ _ _ _ _ _ h => by cases h; rfl⟩
  ⟨⟨hreg, ⟨rfl, rfl, by decide⟩, by decide, by decide, by decide⟩,
    Resize_value_throw countdownT hreg (mk [5] 0) [5] ⟨rfl, rfl, by decide⟩ 4 (by decide) 2
      (Or.inr ⟨mk [5] 3, [], 2, by decide⟩) (mk [5] 3) [] 0 (by decide)⟩

theorem CopyAssign_done (T : ElemType σ α) (hT : T.Regular) {v rhs : Vector α}
    {xs ys : List α} (hv : v.Holds xs) (hr : rhs.Holds ys) {w : σ} {v1 : Vector α}
    {u : Unit} {lk : List α} {w1 : σ}
    (h : CopyAssign T v (.other rhs) w = .done v1 u lk w1) :
    v1.Holds ys ∧ lk = [] ∧
      v1.data_.Capacity =
        (if rhs.size_ ≤ v.data_.Capacity then v.data_.Capacity else rhs.size_) := by
  have hsz := hv.1
  have hrsz := hr.1
  have hle := hv.2.2
  simp only [CopyAssign] at h
  by_cases hfit : rhs.size_ ≤ v.data_.Capacity
  · rw [if_pos hfit] at h ⊢
    split at h
    · cases h
    · cases h
    · rename_i mem w2 hcopy
      unfold copy at hcopy
      rw [if_neg (by omega), Nat.sub_zero] at hcopy
      have hls := copy_n_live T _ _ _ _ _ _ _ _ (Or.inl hcopy)
      obtain ⟨C1, C2⟩ := copy_n_ok T hT _ _ _ _ _ _ _ _ hcopy
      have hmlen : mem.length = v.data_.Capacity := hls.1
      have hlow : ∀ j, j < min v.size_ rhs.size_ → mem[j]? = some ys[j]? := by
        intro j hj
        obtain ⟨x, e1, e2⟩ := C2 j hj
        rw [Nat.zero_add] at e1 e2
        rw [e2, ← e1, hr.getElem? j, if_pos (by omega)]
      have hhigh : ∀ j, v.size_ ≤ j → j < v.data_.Capacity → mem[j]? = some none := by
        intro j hj1 hj2
        rw [C1 j (Or.inr (by omega)), hv.getElem? j, if_neg (by omega), if_pos hj2]
      by_cases hgrow : v.size_ ≤ rhs.size_
      · rw [if_pos hgrow] at h
        split at h
        · cases h
        · cases h
        · rename_i mem1 w3 hun
          simp only [Outcome.done.injEq] at h
          obtain ⟨rfl, _, rfl, _⟩ := h
          obtain ⟨B1, B2, B3⟩ := uninitialized_copy_n_ok T _ _ _ _ _ _ _ _ hun
          refine ⟨holds_of_pointwise hrsz ?_ (fun j hj => ?_) (fun j hj1 hj2 => ?_), rfl, ?_⟩
          · show ys.length ≤ mem1.length
            rw [B1, hmlen]; omega
          · show mem1[j]? = _
            by_cases hj1 : j < v.size_
            · rw [B2 j (Or.inl hj1)]
              exact hlow j (by omega)
            · obtain ⟨x, y, e1, e2, e3⟩ := B3 (j - v.size_) (by omega)
              rw [show v.size_ + (j - v.size_) = j by omega] at e1 e2
              rw [e2, e3 hT, ← e1, hr.getElem? j, if_pos hj]
          · show mem1[j]? = _
            change j < mem1.length at hj2
            rw [B1, hmlen] at hj2
            rw [B2 j (Or.inr (by omega))]
            exact hhigh j (by omega) hj2
          · show mem1.length = _
            rw [B1, hmlen]
      · rw [if_neg hgrow] at h
        simp only [Outcome.done.injEq] at h
        obtain ⟨rfl, _, rfl, _⟩ := h
        refine ⟨holds_of_pointwise hrsz ?_ (fun j hj => ?_) (fun j hj1 hj2 => ?_), rfl, ?_⟩
        · show ys.length ≤ (destroy_n mem rhs.size_ (v.size_ - rhs.size_)).length
          rw [length_destroy_n, hmlen]; omega
        · show (destroy_n mem rhs.size_ (v.size_ - rhs.size_))[j]? = _
          rw [getElem?_destroy_n, if_neg (by omega)]
          exact hlow j (by omega)
        · show (destroy_n mem rhs.size_ (v.size_ - rhs.size_))[j]? = _
          change j < (destroy_n mem rhs.size_ (v.size_ - rhs.size_)).length at hj2
          rw [length_destroy_n, hmlen] at hj2
          rw [getElem?_destroy_n]
          split
          · rfl
          · exact hhigh j (by omega) hj2
        · show (destroy_n mem rhs.size_ (v.size_ - rhs.size_)).length = _
          rw [length_destroy_n, hmlen]
  · rw [if_neg hfit] at h ⊢
    split at h
    · cases h
    · cases h
    · rename_i rhs_copy w2 hc
      simp only [Outcome.done.injEq] at h
      obtain ⟨rfl, _, rfl, _⟩ := h
      obtain ⟨c1, c2⟩ := copied_built T hT hr hc
      exact ⟨c1, live_destroy_eq_nil hv (LiveSame.refl _), c2⟩

theorem CopyAssign_defined (T : ElemType σ α) {v rhs : Vector α}
    {xs ys : List α} (hv : v.Holds xs) (hr : rhs.Holds ys) (w : σ)
    (halloc : v.Capacity < rhs.size_ →
      RawMemory.Allocate T rhs.size_ w ≠ (.short : Allocation α)) :
    CopyAssign T v (.other rhs) w ≠ .undefined := by
  have hsz := hv.1
  have hrsz := hr.1
  intro h
  simp only [CopyAssign] at h
  split at h
  · rename_i hfit
    split at h
    · rename_i hcopy
      unfold copy at hcopy
      rw [if_neg (by omega), Nat.sub_zero] at hcopy
      refine copy_n_defined T _ _ _ _ _ _ (fun k hk => ?_) (fun k hk => ?_) hcopy
      · have hk1 : k < ys.length := by omega
        rw [Nat.zero_add, hr.peek_lt hk1, List.getElem?_eq_getElem hk1]; rfl
      · have hk1 : k < xs.length := by omega
        rw [Nat.zero_add, hv.peek_lt hk1, List.getElem?_eq_getElem hk1]; rfl
    · cases h
    · rename_i mem w2 hcopy
      unfold copy at hcopy
      rw [if_neg (by omega), Nat.sub_zero] at hcopy
      have hls := copy_n_live T _ _ _ _ _ _ _ _ (Or.inl hcopy)
      split at h
      · split at h
        · rename_i hun
          refine uninitialized_copy_n_defined T _ _ _ _ _ _ (fun k hk => ?_) ?_ hun
          · have hk1 : v.size_ + k < ys.length := by omega
            rw [hr.peek_lt hk1, List.getElem?_eq_getElem hk1]; rfl
          · rw [hls.1]
            show v.size_ + (rhs.size_ - v.size_) ≤ v.data_.Capacity
            omega
        · cases h
        · cases h
      · cases h
  · rename_i hfit
    split at h
    · rename_i hc
      exact copied_defined T hr w (halloc (by unfold Vector.Capacity; omega)) hc
    · cases h
    · cases h

/-- No exception leaves the copy assignment when the copy operations of `T` do not
throw and, where a new storage is needed, the allocation does not fail. -/
theorem CopyAssign_noraise (T : ElemType σ α)
    (hcp : ∀ x w, (T.copyCtor x w).1.isSome = true)
    (hca : ∀ d s w, (T.copyAssign d s w).1 = true) {v rhs : Vector α} {w : σ}
    (halloc : v.Capacity < rhs.size_ →
      RawMemory.Allocate T rhs.size_ w ≠ (.bad_alloc : Allocation α))
    {v1 : Vector α} {lk : List α} {w1 : σ} :
    CopyAssign T v (.other rhs) w ≠ .raised v1 lk w1 := by
  intro h
  simp only [CopyAssign] at h
  split at h
  · split at h
    · cases h
    · rename_i mem w2 hcopy
      unfold copy at hcopy
      split at hcopy
      · cases hcopy
      · exact copy_n_noThrow T hca _ _ _ _ _ _ _ _ hcopy
    · split at h
      · split at h
        · cases h
        · rename_i hun
          exact uninitialized_copy_n_noThrow T hcp _ _ _ _ _ _ _ _ hun
        · cases h
      · cases h
  · rename_i hfit
    split at h
    · cases h
    · rename_i lk2 w2 hc
      unfold Vector.copied at hc
      split at hc
      · rename_i hb
        exact halloc (by unfold Vector.Capacity; omega) hb
      · cases hc
      · split at hc
        · cases hc
        · rename_i hcopy
          exact uninitialized_copy_n_noThrow T hcp _ _ _ _ _ _ _ _ hcopy
        · cases hc
    · cases h

/-- C15: copy assignment `lhs = rhs` of two distinct vectors holding `xs` and `ys`, for
an element type whose copies carry the value: when it returns, `lhs` has the size of
`rhs` and holds `ys` (element-wise equal to `rhs`), its capacity is the old one when
`rhs.size ≤ lhs.capacity` and `rhs.size` otherwise.  The right-hand side is a `const`
operand: it is not changed.  The call has no undefined behaviour unless the byte count of
the storage it asks for wraps, and it does return when no operation of `T` throws and,
where a new storage is needed, the allocation yields it. -/
theorem CopyAssign_result (T : ElemType σ α) (hT : T.Regular) (v rhs : Vector α)
    (xs ys : List α) (hv : v.Holds xs) (hr : rhs.Holds ys) (w : σ) :
    (∀ v1 u lk w1, CopyAssign T v (.other rhs) w = .done v1 u lk w1 →
      v1.size_ = rhs.size_ ∧ v1.Holds ys ∧
      (∀ i, i < rhs.size_ → peek v1.data_.buffer_ i = peek rhs.data_.buffer_ i) ∧
      v1.Capacity = (if rhs.size_ ≤ v.Capacity then v.Capacity else rhs.size_)) ∧
    ((v.Capacity < rhs.size_ →
        RawMemory.Allocate T rhs.size_ w ≠ (.short : Allocation α)) →
      CopyAssign T v (.other rhs) w ≠ .undefined) ∧
    (T.NoThrow →
      (v.Capacity < rhs.size_ →
        (RawMemory.Allocate T rhs.size_ w : Allocation α).isBlock = true) →
      ∃ v1 w1, CopyAssign T v (.other rhs) w = .done v1 () [] w1) := by
  refine ⟨fun v1 u lk w1 h => ?_, fun hs => CopyAssign_defined T hv hr w hs,
    fun hN hb => ?_⟩
  · obtain ⟨c1, _, c3⟩ := CopyAssign_done T hT hv hr h
    refine ⟨by rw [c1.1, hr.1], c1, fun i hi => ?_, c3⟩
    rw [hr.1] at hi
    rw [c1.peek_lt hi, hr.peek_lt hi]
  · rcases hres : CopyAssign T v (.other rhs) w with ⟨v1, u, lk, w1⟩ | ⟨v1, lk, w1⟩ | _
    · obtain ⟨_, c2, _⟩ := CopyAssign_done T hT hv hr hres
      subst c2
      exact ⟨v1, w1, rfl⟩
    · exfalso
      refine CopyAssign_noraise T hN.2.1 hN.2.2.2.1 (fun hc => ?_) hres
      intro hbad
      have := hb hc
      rw [hbad] at this
      cases this
    · exfalso
      refine CopyAssign_defined T hv hr w (fun hc => ?_) hres
      intro hs
      have := hb hc
      rw [hs] at this
      cases this

/-- Three concrete assignments: a longer, a shorter right-hand side within the
capacity, and one beyond the capacity. -/
theorem CopyAssign_result_witness :
    (plainT.Regular ∧ (mk [1] 3).Holds [1] ∧ (mk [7, 8, 9] 5).Holds [7, 8, 9] ∧
      (mk [1, 2, 3] 1).Holds [1, 2, 3] ∧ (mk [7, 8] 5).Holds [7, 8] ∧
      (mk [7, 8, 9, 10, 11] 5).Holds [7, 8, 9, 10, 11]) ∧
    (CopyAssign plainT (mk [1] 3) (.other (mk [7, 8, 9] 5)) () =
        .done (mk [7, 8, 9] 1) () [] () ∧
      CopyAssign plainT (mk [1, 2, 3] 1) (.other (mk [7, 8] 5)) () =
        .done (mk [7, 8] 2) () [] () ∧
      CopyAssign plainT (mk [1, 2, 3] 1) (.other (mk [7, 8, 9, 10, 11] 5)) () =
        .done (mk [7, 8, 9, 10, 11] 0) () [] ()) ∧
    ((mk [7, 8, 9] 1 : Vector Nat).size_ = (mk [7, 8, 9] 5 : Vector Nat).size_ ∧
      (mk [7, 8, 9] 1).Holds [7, 8, 9] ∧
      (∀ i, i < (mk [7, 8, 9] 5 : Vector Nat).size_ →
        peek (mk [7, 8, 9] 1 : Vector Nat).data_.buffer_ i =
          peek (mk [7, 8, 9] 5 : Vector Nat).data_.buffer_ i) ∧
      (mk [7, 8, 9] 1 : Vector Nat).Capacity =
        (if (mk [7, 8, 9] 5 : Vector Nat).size_ ≤ (mk [1] 3 : Vector Nat).Capacity then
          (mk [1] 3 : Vector Nat).Capacity else (mk [7, 8, 9] 5 : Vector Nat).size_)) ∧
    ((mk [7, 8] 2 : Vector Nat).size_ = (mk [7, 8] 5 : Vector Nat).size_ ∧
      (mk [7, 8] 2).Holds [7, 8] ∧
      (∀ i, i < (mk [7, 8] 5 : Vector Nat).size_ →
        peek (mk [7, 8] 2 : Vector Nat).data_.buffer_ i =
          peek (mk [7, 8] 5 : Vector Nat).data_.buffer_ i) ∧
      (mk [7, 8] 2 : Vector Nat).Capacity =
        (if (mk [7, 8] 5 : Vector Nat).size_ ≤ (mk [1, 2, 3] 1 : Vector Nat).Capacity then
          (mk [1, 2, 3] 1 : Vector Nat).Capacity else (mk [7, 8] 5 : Vector Nat).size_)) ∧
    ((mk [7, 8, 9, 10, 11] 0 : Vector Nat).size_ = (mk [7, 8, 9, 10, 11] 5 : Vector Nat).size_ ∧
      (mk [7, 8, 9, 10, 11] 0).Holds [7, 8, 9, 10, 11] ∧
      (∀ i, i < (mk [7, 8, 9, 10, 11] 5 : Vector Nat).size_ →
        peek (mk [7, 8, 9, 10, 11] 0 : Vector Nat).data_.buffer_ i =
          peek (mk [7, 8, 9, 10, 11] 5 : Vector Nat).data_.buffer_ i) ∧
      (mk [7, 8, 9, 10, 11] 0 : Vector Nat).Capacity =
        (if (mk [7, 8, 9, 10, 11] 5 : Vector Nat).size_ ≤ (mk [1, 2, 3] 1 : Vector Nat).Capacity
          then (mk [1, 2, 3] 1 : Vector Nat).Capacity
          else (mk [7, 8, 9, 10, 11] 5 : Vector Nat).size_)) :=
  ⟨⟨plainT_regular, ⟨rfl, rfl, by decide⟩, ⟨rfl, rfl, by decide⟩, ⟨rfl, rfl, by decide⟩,
      ⟨rfl, rfl, by decide⟩, ⟨rfl, rfl, by decide⟩⟩,
    ⟨by decide, by decide, by decide⟩,
    (CopyAssign_result plainT plainT_regular (mk [1] 3) (mk [7, 8, 9] 5) [1] [7, 8, 9]
      ⟨rfl, rfl, by decide⟩ ⟨rfl, rfl, by decide⟩ ()).1 (mk [7, 8, 9] 1) () [] () (by decide),
    (CopyAssign_result plainT plainT_regular (mk [1, 2, 3] 1) (mk [7, 8] 5) [1, 2, 3] [7, 8]
      ⟨rfl, rfl, by decide⟩ ⟨rfl, rfl, by decide⟩ ()).1 (mk [7, 8] 2) () [] () (by decide),
    (CopyAssign_result plainT plainT_regular (mk [1, 2, 3] 1) (mk [7, 8, 9, 10, 11] 5)
      [1, 2, 3] [7, 8, 9, 10, 11] ⟨rfl, rfl, by decide⟩ ⟨rfl, rfl, by decide⟩ ()).1
      (mk [7, 8, 9, 10, 11] 0) () [] () (by decide)⟩

theorem sized_inv (T : ElemType σ α) {n : Nat} {w : σ} {v : Vector α} {w1 : σ}
    (h : Vector.sized T n w = .built v w1) : v.size_ ≤ v.data_.Capacity := by
  unfold Vector.sized at h
  split at h
  · cases h
  · cases h
  · rename_i data halloc
    obtain ⟨rfl, _⟩ := Allocate_block halloc
    split at h
    · cases h
    · cases h
    · rename_i mem w2 hval
      simp only [Built.built.injEq] at h
      obtain ⟨rfl, _⟩ := h
      obtain ⟨A1, _, _⟩ := uninitialized_value_construct_n_ok T _ _ _ _ _ _ hval
      show n ≤ mem.length
      rw [A1, List.length_replicate]

theorem copied_inv (T : ElemType σ α) {other : Vector α} {w : σ} {v : Vector α} {w1 : σ}
    (h : Vector.copied T other w = .built v w1) : v.size_ ≤ v.data_.Capacity := by
  unfold Vector.copied at h
  split at h
  · cases h
  · cases h
  · rename_i data halloc
    obtain ⟨rfl, _⟩ := Allocate_block halloc
    split at h
    · cases h
    · cases h
    · rename_i mem w2 hcopy
      simp only [Built.built.injEq] at h
      obtain ⟨rfl, _⟩ := h
      obtain ⟨A1, _, _⟩ := uninitialized_copy_n_ok T _ _ _ _ _ _ _ _ hcopy
      show other.size_ ≤ mem.length
      rw [A1, List.length_replicate]

theorem Reserve_after_inv (T : ElemType σ α) {v : Vector α} (hv : v.size_ ≤ v.data_.Capacity)
    {n : Nat} {w : σ} {v1 : Vector α} (h : (Reserve T v n w).after = some v1) :
    v1.size_ ≤ v1.data_.Capacity := by
  rcases hr : Reserve T v n w with ⟨v2, u, lk, w2⟩ | ⟨v2, lk, w2⟩ | _
  · rw [hr] at h
    simp only [Outcome.after, Option.some.injEq] at h
    subst h
    obtain ⟨e1, e2⟩ := (Reserve_shape T).1 _ _ _ _ hr
    rcases e2 with ⟨_, rfl⟩ | ⟨e3, e4⟩
    · exact hv
    · omega
  · rw [hr] at h
    simp only [Outcome.after, Option.some.injEq] at h
    subst h
    obtain ⟨e1, e2⟩ := (Reserve_shape T).2 _ _ _ hr
    omega
  · rw [hr] at h
    cases h

/-- The size and the capacity are those before the call when an exception leaves
`RegularInsert`. -/
theorem RegularInsert_raised_shape (T : ElemType σ α) {v : Vector α} {diff : Int}
    {a : Arg σ α} {w : σ} {v1 : Vector α} {lk : List α} {w1 : σ}
    (h : RegularInsert T v diff a w = .raised v1 lk w1) :
    v1.size_ = v.size_ ∧ v1.data_.Capacity = v.data_.Capacity := by
  unfold RegularInsert at h
  generalize (if v.size_ = 0 then 1 else v.size_ * 2 % 2 ^ 64) = c at h
  split at h
  · simp only [Outcome.raised.injEq] at h
    obtain ⟨rfl, _, _⟩ := h
    exact ⟨rfl, rfl⟩
  · split at h
    · simp only [Outcome.raised.injEq] at h
      obtain ⟨rfl, _, _⟩ := h
      exact ⟨rfl, rfl⟩
    · cases h
  · split at h
    · cases h
    · simp only [Outcome.raised.injEq] at h
      obtain ⟨rfl, _, _⟩ := h
      exact ⟨rfl, rfl⟩
    · split at h
      · cases h
      · split at h
        · split at h
          · cases h
          · rename_i old new w2 h1
            simp only [Outcome.raised.injEq] at h
            obtain ⟨rfl, _, _⟩ := h
            obtain ⟨A0, _, _⟩ := uninitialized_move_n_throw T _ _ _ _ _ _ _ _ _ h1
            exact ⟨rfl, A0.1⟩
          · rename_i old new w2 h1
            obtain ⟨A0, _, _, _, _⟩ := uninitialized_move_n_ok T _ _ _ _ _ _ _ _ _ h1
            split at h
            · cases h
            · rename_i old1 new1 w3 h2
              simp only [Outcome.raised.injEq] at h
              obtain ⟨rfl, _, _⟩ := h
              obtain ⟨B0, _, _⟩ := uninitialized_move_n_throw T _ _ _ _ _ _ _ _ _ h2
              exact ⟨rfl, (A0.trans B0).1⟩
            · cases h
        · split at h
          · cases h
          · simp only [Outcome.raised.injEq] at h
            obtain ⟨rfl, _, _⟩ := h
            exact ⟨rfl, rfl⟩
          · split at h
            · cases h
            · simp only [Outcome.raised.injEq] at h
              obtain ⟨rfl, _, _⟩ := h
              exact ⟨rfl, rfl⟩
            · cases h

/-- The size and the capacity after `ReallocationInsert` are those before the call,
whether it returns or throws. -/
theorem ReallocationInsert_shape (T : ElemType σ α) {v : Vector α} {diff : Int} {pos : Nat}
    {a : Arg σ α} {w : σ} {v1 : Vector α}
    (h : (ReallocationInsert T v diff pos a w).after = some v1) :
    v1.size_ = v.size_ ∧ v1.data_.Capacity = v.data_.Capacity := by
  unfold ReallocationInsert at h
  split at h
  · split at h
    · cases h
    · split at h
      · cases h
      · simp only [Outcome.after, Option.some.injEq] at h
        subst h
        exact ⟨rfl, rfl⟩
      · simp only [Outcome.after, Option.some.injEq] at h
        subst h
        exact ⟨rfl, by simp [RawMemory.Capacity]⟩
  · split at h
    · cases h
    · simp only [Outcome.after, Option.some.injEq] at h
      subst h
      exact ⟨rfl, rfl⟩
    · split at h
      · cases h
      · split at h
        · cases h
        · split at h
          · simp only [Outcome.after, Option.some.injEq] at h
            subst h
            exact ⟨rfl, by simp [RawMemory.Capacity]⟩
          · split at h
            · cases h
            · split at h
              · cases h
              · rename_i mem2 w3 hmb
                simp only [Outcome.after, Option.some.injEq] at h
                subst h
                unfold move_backward at hmb
                split at hmb
                · cases hmb
                · have hls := move_backward_n_live T _ _ _ _ _ _ _ (Or.inr hmb)
                  exact ⟨rfl, by rw [RawMemory.Capacity, hls.1]; simp [RawMemory.Capacity]⟩
              · rename_i mem2 w3 hmb
                unfold move_backward at hmb
                split at hmb
                · cases hmb
                · have hls := move_backward_n_live T _ _ _ _ _ _ _ (Or.inl hmb)
                  have hl : mem2.length = v.data_.Capacity := by
                    rw [hls.1]; simp [RawMemory.Capacity]
                  split at h
                  · cases h
                  · split at h
                    · simp only [Outcome.after, Option.some.injEq] at h
                      subst h
                      exact ⟨rfl, by simp [RawMemory.Capacity, hl]⟩
                    · simp only [Outcome.after, Option.some.injEq] at h
                      subst h
                      exact ⟨rfl, by simp [RawMemory.Capacity, hl]⟩

theorem Emplace_after_inv (T : ElemType σ α) {v : Vector α}
    (hv : v.size_ ≤ v.data_.Capacity) {pos : Nat} {a : Arg σ α} {w : σ} {v1 : Vector α}
    (h : (Emplace T v pos a w).after = some v1) : v1.size_ ≤ v1.data_.Capacity := by
  unfold Emplace at h
  split at h
  · cases h
  · rename_i hpos
    by_cases hfull : v.data_.Capacity ≤ v.size_
    · rw [if_pos hfull] at h
      rcases hr : RegularInsert T v (toInt32 pos) a w with ⟨v2, u, lk, w2⟩ | ⟨v2, lk, w2⟩ | _
      · rw [hr] at h
        simp only [Outcome.after, Option.some.injEq] at h
        subst h
        rcases toInt32_cases pos with hneg | ⟨d, hd, hdle, _⟩
        · exact absurd hr (RegularInsert_negative T hneg)
        · rw [hd] at hr
          obtain ⟨e1, e2, _, _⟩ := RegularInsert_live T (by omega) hr
          show v2.size_ + 1 ≤ v2.data_.Capacity
          rw [e1, e2]
          split <;> omega
      · rw [hr] at h
        simp only [Outcome.after, Option.some.injEq] at h
        subst h
        obtain ⟨e1, e2⟩ := RegularInsert_raised_shape T hr
        omega
      · rw [hr] at h
        cases h
    · rw [if_neg hfull] at h
      rcases hr : ReallocationInsert T v (toInt32 pos) pos a w with
        ⟨v2, u, lk, w2⟩ | ⟨v2, lk, w2⟩ | _
      · have hs : v2.size_ = v.size_ ∧ v2.data_.Capacity = v.data_.Capacity :=
          ReallocationInsert_shape T (by rw [hr]; rfl)
        rw [hr] at h
        simp only [Outcome.after, Option.some.injEq] at h
        subst h
        show v2.size_ + 1 ≤ v2.data_.Capacity
        omega
      · have hs : v2.size_ = v.size_ ∧ v2.data_.Capacity = v.data_.Capacity :=
          ReallocationInsert_shape T (by rw [hr]; rfl)
        rw [hr] at h
        simp only [Outcome.after, Option.some.injEq] at h
        subst h
        omega
      · rw [hr] at h
        cases h

theorem Erase_after_inv (T : ElemType σ α) {v : Vector α}
    (hv : v.size_ ≤ v.data_.Capacity) {pos : Nat} {w : σ} {v1 : Vector α}
    (h : (Erase T v pos w).after = some v1) : v1.size_ ≤ v1.data_.Capacity := by
  unfold Erase at h
  split at h
  · cases h
  · split at h
    · cases h
    · split at h
      · cases h
      · rename_i mem w2 hmv
        simp only [Outcome.after, Option.some.injEq] at h
        subst h
        unfold move at hmv
        split at hmv
        · cases hmv
        · have hls := move_n_live T _ _ _ _ _ _ _ (Or.inr hmv)
          show v.size_ ≤ mem.length
          rw [hls.1]; exact hv
      · rename_i mem w2 hmv
        simp only [Outcome.after, Option.some.injEq] at h
        subst h
        unfold move at hmv
        split at hmv
        · cases hmv
        · have hls := move_n_live T _ _ _ _ _ _ _ (Or.inl hmv)
          show v.size_ - 1 ≤ (mem.set (v.size_ - 1) none).length
          rw [List.length_set, hls.1]
          have : v.size_ ≤ v.data_.buffer_.length := hv
          omega

theorem Resize_after_inv (T : ElemType σ α) {v : Vector α}
    (hv : v.size_ ≤ v.data_.Capacity) {n : Nat} {w : σ} {v1 : Vector α}
    (h : (Resize T v n w).after = some v1) : v1.size_ ≤ v1.data_.Capacity := by
  unfold Resize at h
  split at h
  · simp only [Outcome.after, Option.some.injEq] at h
    subst h
    show n ≤ (destroy_n v.data_.buffer_ n (v.size_ - n)).length
    rw [length_destroy_n]
    have : v.size_ ≤ v.data_.buffer_.length := hv
    omega
  · rename_i hshrink
    have hstepinv : ∀ v2 u2 lk2 w2,
        (if v.data_.Capacity < n then Reserve T v (max (v.data_.Capacity * 2 % 2 ^ 64) n) w
          else .done v () [] w) = .done v2 u2 lk2 w2 →
        v2.size_ = v.size_ ∧ n ≤ v2.data_.Capacity := by
      intro v2 u2 lk2 w2 hs
      by_cases hc : v.data_.Capacity < n
      · rw [if_pos hc] at hs
        obtain ⟨e1, e2⟩ := (Reserve_shape T).1 _ _ _ _ hs
        refine ⟨e1, ?_⟩
        have hmax := Nat.le_max_right (v.data_.Capacity * 2 % 2 ^ 64) n
        rcases e2 with ⟨e3, _⟩ | ⟨_, e4⟩
        · omega
        · omega
      · rw [if_neg hc] at hs
        simp only [Outcome.done.injEq] at hs
        obtain ⟨rfl, _, _, _⟩ := hs
        exact ⟨rfl, by omega⟩
    split at h
    · cases h
    · rename_i v2 lk2 w2 hstep
      simp only [Outcome.after, Option.some.injEq] at h
      subst h
      by_cases hc : v.data_.Capacity < n
      · rw [if_pos hc] at hstep
        obtain ⟨e1, e2⟩ := (Reserve_shape T).2 _ _ _ hstep
        omega
      · rw [if_neg hc] at hstep
        cases hstep
    · rename_i v2 u2 lk2 w2 hstep
      obtain ⟨s1, s2⟩ := hstepinv _ _ _ _ hstep
      split at h
      · cases h
      · rename_i mem w3 hval
        simp only [Outcome.after, Option.some.injEq] at h
        subst h
        obtain ⟨A1, _⟩ := uninitialized_value_construct_n_throw T _ _ _ _ _ _ hval
        show v2.size_ ≤ mem.length
        rw [A1]
        show v2.size_ ≤ v2.data_.Capacity
        omega
      · rename_i mem w3 hval
        simp only [Outcome.after, Option.some.injEq] at h
        subst h
        obtain ⟨A1, _, _⟩ := uninitialized_value_construct_n_ok T _ _ _ _ _ _ hval
        show n ≤ mem.length
        rw [A1]
        exact s2

theorem CopyAssign_after_inv (T : ElemType σ α) {v : Vector α}
    (hv : v.size_ ≤ v.data_.Capacity) {rhs : VecRef α} {w : σ} {v1 : Vector α}
    (h : (CopyAssign T v rhs w).after = some v1) : v1.size_ ≤ v1.data_.Capacity := by
  cases rhs with
  | self =>
    simp only [CopyAssign, Outcome.after, Option.some.injEq] at h
    subst h
    exact hv
  | other rhs =>
    simp only [CopyAssign] at h
    split at h
    · rename_i hfit
      split at h
      · cases h
      · rename_i mem w2 hcopy
        simp only [Outcome.after, Option.some.injEq] at h
        subst h
        unfold copy at hcopy
        split at hcopy
        · cases hcopy
        · have hls := copy_n_live T _ _ _ _ _ _ _ _ (Or.inr hcopy)
          show v.size_ ≤ mem.length
          rw [hls.1]; exact hv
      · rename_i mem w2 hcopy
        unfold copy at hcopy
        have hlen : mem.length = v.data_.Capacity := by
          split at hcopy
          · cases hcopy
          · exact (copy_n_live T _ _ _ _ _ _ _ _ (Or.inl hcopy)).1
        split at h
        · split at h
          · cases h
          · rename_i mem1 w3 hun
            simp only [Outcome.after, Option.some.injEq] at h
            subst h
            obtain ⟨B1, _⟩ := uninitialized_copy_n_throw T _ _ _ _ _ _ _ _ hun
            show v.size_ ≤ mem1.length
            rw [B1, hlen]; exact hv
          · rename_i mem1 w3 hun
            simp only [Outcome.after, Option.some.injEq] at h
            subst h
            obtain ⟨B1, _, _⟩ := uninitialized_copy_n_ok T _ _ _ _ _ _ _ _ hun
            show rhs.size_ ≤ mem1.length
            rw [B1, hlen]; exact hfit
        · simp only [Outcome.after, Option.some.injEq] at h
          subst h
          show rhs.size_ ≤ (destroy_n mem rhs.size_ (v.size_ - rhs.size_)).length
          rw [length_destroy_n, hlen]; exact hfit
    · split at h
      · cases h
      · simp only [Outcome.after, Option.some.injEq] at h
        subst h
        exact hv
      · rename_i rhs_copy w2 hc
        simp only [Outcome.after, Option.some.injEq] at h
        subst h
        exact copied_inv T hc

theorem PopBack_inv {v : Vector α} (hv : v.size_ ≤ v.data_.Capacity) {v1 : Vector α}
    (h : PopBack v = some v1) : v1.size_ ≤ v1.data_.Capacity := by
  unfold PopBack at h
  split at h
  · cases h
  · simp only [Option.some.injEq] at h
    subst h
    show v.size_ - 1 ≤ (v.data_.buffer_.set (v.size_ - 1) none).length
    rw [List.length_set]
    have : v.size_ ≤ v.data_.buffer_.length := hv
    omega

/-- C18: `size ≤ capacity` holds for every vector that can arise: one built by the
default, the sized or the copy constructor, or left by any sequence of calls of
`Reserve`, `Resize`, `PushBack`, `EmplaceBack`, `Emplace`, `Insert`, `Erase`, `PopBack`,
copy and move assignment and `Swap` within their preconditions, each call returning or
throwing. -/
theorem size_le_capacity_of_reachable (T : ElemType σ α) (v : Vector α)
    (h : Reachable T v) : v.Size ≤ v.Capacity := by
  show v.size_ ≤ v.data_.Capacity
  induction h with
  | default => exact Nat.le_refl _
  | sized size w v w1 h => exact sized_inv T h
  | copied other w v w1 _ h _ => exact copied_inv T h
  | reserve v n w v1 _ h ih => exact Reserve_after_inv T ih h
  | resize v n w v1 _ h ih => exact Resize_after_inv T ih h
  | pushBack v value w v1 _ h ih => exact Emplace_after_inv T ih h
  | pushBackMove v value w v1 _ h ih => exact Emplace_after_inv T ih h
  | emplaceBack v a w v1 _ h ih => exact Emplace_after_inv T ih h
  | emplace v pos a w v1 _ h ih => exact Emplace_after_inv T ih h
  | insert v pos value w v1 _ h ih => exact Emplace_after_inv T ih h
  | insertMove v pos value w v1 _ h ih => exact Emplace_after_inv T ih h
  | erase v pos w v1 _ h ih => exact Erase_after_inv T ih h
  | popBack v v1 _ h ih => exact PopBack_inv ih h
  | copyAssignSelf v w v1 _ h ih => exact CopyAssign_after_inv T ih h
  | copyAssign v rhs w v1 _ _ h ih _ => exact CopyAssign_after_inv T ih h
  | moveAssignSelf v _ ih => exact ih
  | moveAssign v rhs _ _ _ ih2 => exact ih2
  | moveAssigned v rhs _ _ ih1 _ => exact ih1
  | swap v other _ _ _ ih2 => exact ih2
  | swapped v other _ _ ih1 _ => exact ih1

/-- A concrete run that includes a throwing call: a sized vector of one element, two
pushes that reallocate, an in-place `Emplace` whose last move assignment throws (it
leaves an uncounted object in slot 3), and a `PopBack`. -/
theorem size_le_capacity_of_reachable_witness :
    Reachable moveOnlyT (Vector.mk ⟨[some 0, some 0, none, some 2]⟩ 2) ∧
    (Vector.mk ⟨[some 0, some 0, none, some 2]⟩ 2 : Vector Nat).Size ≤
      (Vector.mk ⟨[some 0, some 0, none, some 2]⟩ 2 : Vector Nat).Capacity :=
  have h1 : Reachable moveOnlyT (mk [0] 0) :=
    Reachable.sized 1 () (mk [0] 0) () (by decide)
  have h2 : Reachable moveOnlyT (mk [0, 1] 0) :=
    Reachable.pushBackMove (mk [0] 0) 1 () (mk [0, 1] 0) h1 (by decide)
  have h3 : Reachable moveOnlyT (mk [0, 1, 2] 1) :=
    Reachable.pushBackMove (mk [0, 1] 0) 2 () (mk [0, 1, 2] 1) h2 (by decide)
  have h4 : Reachable moveOnlyT (Vector.mk ⟨[some 0, some 0, some 1, some 2]⟩ 3) :=
    Reachable.emplace (mk [0, 1, 2] 1) 0 (.args (fun w => (some 7, w))) ()
      (Vector.mk ⟨[some 0, some 0, some 1, some 2]⟩ 3) h3 (by decide)
  have h5 : Reachable moveOnlyT (Vector.mk ⟨[some 0, some 0, none, some 2]⟩ 2) :=
    Reachable.popBack (Vector.mk ⟨[some 0, some 0, some 1, some 2]⟩ 3)
      (Vector.mk ⟨[some 0, some 0, none, some 2]⟩ 2) h4 (by decide)
  ⟨h5, size_le_capacity_of_reachable moveOnlyT _ h5⟩

end Lemmas

end AdvancedVector
